import Mathlib

/-
  Verification of the region vectorizer core (shape decoding, mask queries,
  divergent-loop normalization and CFG linearization) against a shallow
  embedding of the sources:
    rvTool.cpp        (shape-string decoding, driver)
    Mask.cpp          (mask predicate / active-vector-length queries)
    Linearizer.cpp    (linearizer, loop normalizer, promoteDefinition)
    vectorizationInfo.h
  Machine integers of the sources stay small and positive everywhere the
  claims touch them, so they are modelled by Nat/Int directly; fallible
  operations (failed asserts, out-of-bounds vector accesses, null-pointer
  dereferences) are modelled by Option with none for the failure.
-/

set_option autoImplicit false

namespace RV

/-- Modelled from the spec: the vector-shape data model of section 3.  The
header declaring VectorShape is not among the sources; the constructors
follow the calls VectorShape::undef / uni / cont / varying / strided made in
rvTool.cpp and Linearizer.cpp, each carrying its alignment. -/
inductive VectorShape where
  | undef : VectorShape
  | uni (align : Nat) : VectorShape
  | cont (align : Nat) : VectorShape
  | strided (stride : Nat) (align : Nat) : VectorShape
  | varying (align : Nat) : VectorShape
deriving DecidableEq

/-- Modelled from the spec: isUniform holds exactly for Uniform shapes;
callers must not treat Undef as Uniform (section 4.B). -/
def VectorShape.isUniform : VectorShape → Bool
  | .uni _ => true
  | _ => false

/-! ## Shape-string decoding (rvTool.cpp)

A std::stringstream is modelled as the list of characters still to be read.
get consumes the head, unget puts it back, and operator>> on an unsigned
reads a maximal digit prefix and fails when there is none. -/

def isDigitCh (c : Char) : Bool := '0' ≤ c && c ≤ '9'

def digitVal (c : Char) : Nat := c.toNat - '0'.toNat

/-- the digit-consuming loop of operator>> on an unsigned. -/
def readDigits : List Char → Nat → Nat × List Char
  | c :: cs, acc =>
      if isDigitCh c then readDigits cs (acc * 10 + digitVal c) else (acc, c :: cs)
  | [], acc => (acc, [])

/-- readNumber (rvTool.cpp): shapeText >> number, whose assert demands that
at least one digit was read; the failed assert is modelled as none. -/
def readNumber (s : List Char) : Option (Nat × List Char) :=
  match s with
  | c :: _ => if isDigitCh c then some (readDigits s 0) else none
  | [] => none

/-- decodeAlignment (rvTool.cpp): consume one character; on an a read the
following number, otherwise unget the character and report alignment 1. -/
def decodeAlignment (s : List Char) : Option (Nat × List Char) :=
  match s with
  | 'a' :: rest => readNumber rest
  | _ => some (1, s)

/-- decodeShape (rvTool.cpp): read the shape letter, then the alignment
(decodeAlignment runs directly after the letter, before any stride digits),
then for an S shape the stride number.  Any other letter hits fail(). -/
def decodeShape (s : List Char) : Option (VectorShape × List Char) :=
  match s with
  | [] => none
  | c :: rest =>
    if c = 'B' then some (VectorShape.undef, rest)
    else
      match decodeAlignment rest with
      | none => none
      | some (alignment, r1) =>
        if c = 'C' then some (VectorShape.cont alignment, r1)
        else if c = 'T' then some (VectorShape.varying alignment, r1)
        else if c = 'U' then some (VectorShape.uni alignment, r1)
        else
          match readNumber r1 with
          | none => none
          | some (stridedOf, r2) =>
            if c = 'S' then some (VectorShape.strided stridedOf alignment, r2)
            else none

/-! ## Mask queries (Mask.cpp) -/

/-- LLVM values as Mask.cpp inspects them: boolean and integer constants
(both are ConstantInt), and non-constant SSA values. -/
inductive LLVMVal where
  | constBool (b : Bool)
  | constInt (n : Int)
  | nonConst (id : Nat)
deriving DecidableEq

def isConstantVal : LLVMVal → Bool
  | .nonConst _ => false
  | _ => true

def isConstantIntVal : LLVMVal → Bool
  | .constBool _ => true
  | .constInt _ => true
  | .nonConst _ => false

def isNullVal : LLVMVal → Bool
  | .constBool b => !b
  | .constInt n => n == 0
  | .nonConst _ => false

def isAllOnesVal : LLVMVal → Bool
  | .constBool b => b
  | .constInt n => n == -1
  | .nonConst _ => false

/-- dyn_cast to Constant on an optional operand; none models both a null
pointer argument and a failed cast. -/
def dynCastConstant : Option LLVMVal → Option LLVMVal
  | some v => if isConstantVal v then some v else none
  | none => none

/-- dyn_cast to ConstantInt on an optional operand. -/
def dynCastConstantInt : Option LLVMVal → Option LLVMVal
  | some v => if isConstantIntVal v then some v else none
  | none => none

/-- struct Mask (Mask.cpp): an optional predicate and an optional active
vector length. -/
structure Mask where
  Predicate : Option LLVMVal
  ActiveVectorLength : Option LLVMVal
deriving DecidableEq

def Mask.getPred (m : Mask) : Option LLVMVal := m.Predicate

def Mask.getAVL (m : Mask) : Option LLVMVal := m.ActiveVectorLength

/-- Mask::getAllTrue: neither predicate nor AVL. -/
def Mask.getAllTrue : Mask := ⟨none, none⟩

/-- Mask::inferFromPredicate (Mask.cpp): all-ones constants normalize to the
canonical all-true mask, everything else becomes a predicate-only mask. -/
def Mask.inferFromPredicate (Pred : LLVMVal) : Mask :=
  if isConstantVal Pred && isAllOnesVal Pred then Mask.getAllTrue
  else ⟨some Pred, none⟩

/-- Mask::knownAllFalse (Mask.cpp), embedded exactly as written: the first
test derives ConstAVL from getAVL, and the second test, although guarded by
getPred and commented Pred == 0, again derives its constant from getAVL. -/
def Mask.knownAllFalse (m : Mask) : Bool :=
  (match dynCastConstantInt m.getAVL with
   | some ConstAVL => isNullVal ConstAVL
   | none => false)
  ||
  (match m.getPred with
   | some _ =>
     (match dynCastConstant m.getAVL with
      | some ConstPred => isNullVal ConstPred
      | none => false)
   | none => false)

/-- the intended second test of knownAllFalse, reading the predicate as the
comment Pred == 0 describes. -/
def Mask.knownAllFalseIntended (m : Mask) : Bool :=
  (match dynCastConstantInt m.getAVL with
   | some ConstAVL => isNullVal ConstAVL
   | none => false)
  ||
  (match m.getPred with
   | some _ =>
     (match dynCastConstant m.getPred with
      | some ConstPred => isNullVal ConstPred
      | none => false)
   | none => false)

/-! ## promoteDefinition (Linearizer.cpp)

The CFG is given by a predecessor map from topological block index to the
list of predecessor indices (getIndex of each predecessor).  The values the
procedure manipulates are the promoted instruction itself, undef, and the
phi nodes it creates (one per block).  std::vector accesses are
bounds-checked in the model; none is an out-of-bounds access, which in the
source is undefined behaviour. -/

inductive PVal where
  | base : PVal
  | undefV : PVal
  | phiAt (blockId : Nat) : PVal
deriving DecidableEq

/-- bounds-checked write defs[i] = v; none when i is out of bounds. -/
def listSet? {α : Type} (xs : List α) (i : Nat) (v : α) : Option (List α) :=
  if i < xs.length then some (xs.set i v) else none

/-- the incoming value contributed by predecessor predIndex at block blockId:
undef ahead of the span, skip (none) for backedges, otherwise the reaching
definition with null lowered to undef.  The read defs[predIndex - defBlockId]
is always within bounds (predIndex < blockId = defBlockId + i and i is at
most the vector length). -/
def promoteInVal (defs : List (Option PVal)) (defBlockId blockId predIndex : Nat) :
    Option PVal :=
  if predIndex < defBlockId then some PVal.undefV
  else if blockId ≤ predIndex then none
  else some (match defs.getD (predIndex - defBlockId) none with
             | some d => d
             | none => PVal.undefV)

/-- the per-predecessor accumulation of promoteDefinition: keep the first or
an agreeing reaching definition, otherwise fall back to a phi node at the
block. -/
def promoteStep (blockId : Nat) (st : Option PVal) (inVal : Option PVal) :
    Option PVal :=
  match inVal with
  | none => st
  | some v =>
    match st with
    | none => some v
    | some d => if d = v then some d else some (PVal.phiAt blockId)

/-- the loop for (int i = 1; i < span + 1; ++i) of promoteDefinition; each
iteration computes the local definition at block defBlockId + i and stores
it at defs[i]. -/
def promoteGo (preds : Nat → List Nat) (defBlockId span : Nat) :
    Nat → Nat → List (Option PVal) → Option (List (Option PVal))
  | 0, _, _ => none
  | fuel + 1, i, defs =>
    if i < span + 1 then
      let blockId := defBlockId + i
      let localDef :=
        ((preds blockId).map (fun p => promoteInVal defs defBlockId blockId p)).foldl
          (promoteStep blockId) none
      match listSet? defs i localDef with
      | none => none
      | some defs2 => promoteGo preds defBlockId span fuel (i + 1) defs2
    else some defs

/-- Linearizer::promoteDefinition (Linearizer.cpp), embedded as written:
span = destBlockId - defBlockId + 1, a defs vector of span entries with
defs[0] the instruction, the loop above, and finally the value *defs[span]
(none when that access is out of bounds or hits a null entry). -/
def promoteDefinition (preds : Nat → List Nat) (defBlockId destBlockId : Nat) :
    Option PVal :=
  if defBlockId = destBlockId then some PVal.base
  else
    let span := destBlockId - defBlockId + 1
    let defs0 : List (Option PVal) := some PVal.base :: List.replicate (span - 1) none
    match promoteGo preds defBlockId span (span + 1) 1 defs0 with
    | none => none
    | some defs =>
      match defs.get? span with
      | some (some d) => some d
      | some none => none
      | none => none

/-- the straight-line CFG 0 → 1 → 2 → ⋯ used as a concrete input. -/
def lineCfg : Nat → List Nat := fun n => if n = 0 then [] else [n - 1]

/-! ## Live-value tracking for divergent loops (class LiveValueTracker,
Linearizer.cpp)

SSA values are closed terms: instructions of the scalar region (inst, with
their defining block given by a parent map), constants/globals (cst), undef,
the tracker phi nodes the normalizer creates at the loop header, the select
instructions it inserts at the latch, and mask values produced by the mask
analysis. -/

inductive NVal where
  | undefV : NVal
  | cst (id : Nat) : NVal
  | inst (id : Nat) : NVal
  | trackerPhi (instId : Nat) : NVal
  | selectV (mask : NVal) (onTrue : NVal) (onFalse : NVal) : NVal
  | maskV (id : Nat) : NVal
  | anyCall (arg : NVal) : NVal
  | promoPhi (blockId : Nat) : NVal
deriving DecidableEq

/-- a tracker phi node at the loop header: its live-out instruction and its
two incoming values, one from the pre-header and one from the latch. -/
structure Tracker where
  instId : Nat
  preIncoming : NVal
  latchIncoming : NVal
deriving DecidableEq

/-- the state LiveValueTracker threads: the tracker phis inserted at the
loop header (liveOutPhis, in creation order), the select instructions
inserted before the latch terminator, and the setVectorShape log. -/
structure TrackState where
  trackers : List Tracker
  latchSelects : List NVal
  shapes : List (NVal × VectorShape)
deriving DecidableEq

def lookupTracker (st : TrackState) (i : Nat) : Option Tracker :=
  st.trackers.find? (fun t => t.instId == i)

/-- LiveValueTracker::requestTracker (Linearizer.cpp): return the cached
tracker, or create a phi at the header's first insertion point with shape
varying and incoming undef from the pre-header and the phi itself from the
latch. -/
def requestTracker (st : TrackState) (i : Nat) : Tracker × TrackState :=
  match lookupTracker st i with
  | some t => (t, st)
  | none =>
    let t : Tracker := ⟨i, NVal.undefV, NVal.trackerPhi i⟩
    (t, { trackers := st.trackers ++ [t],
          latchSelects := st.latchSelects,
          shapes := st.shapes ++ [(NVal.trackerPhi i, VectorShape.varying 1)] })

/-- tracker.setIncomingValue(latchId, updateInst): rewrite the latch
incoming of the tracker phi for instruction i. -/
def updAt (i : Nat) (x : NVal) : Tracker → Tracker :=
  fun u => if u.instId == i then { u with latchIncoming := x } else u

/-- LiveValueTracker::addTrackerUpdate (Linearizer.cpp): blend val into the
tracker's last latch state under the combined loop-exit mask; the select is
inserted before the latch terminator, gets shape varying, and becomes the
tracker's new latch incoming. -/
def addTrackerUpdate (st : TrackState) (combinedMask : NVal) (i : Nat) (val : NVal) :
    Option TrackState :=
  match lookupTracker st i with
  | none => none
  | some t =>
    let lastTrackerState := t.latchIncoming
    let updateInst := NVal.selectV combinedMask val lastTrackerState
    some { trackers := st.trackers.map (updAt i updateInst),
           latchSelects := st.latchSelects ++ [updateInst],
           shapes := st.shapes ++ [(updateInst, VectorShape.varying 1)] }

/-- LiveValueTracker::getLastTrackerState: the tracker's current latch
incoming. -/
def getLastTrackerState (st : TrackState) (i : Nat) : Option NVal :=
  (lookupTracker st i).map (fun t => t.latchIncoming)

/-- a loop-closed SSA phi node of an exit block: its incoming
(block, value) pairs. -/
structure LcPhi where
  id : Nat
  incoming : List (Nat × NVal)
deriving DecidableEq

/-- a use of a value by some instruction, with the flag telling whether the
user lies inside the loop. -/
structure UseRec where
  userId : Nat
  userInLoop : Bool
  operand : NVal
deriving DecidableEq

/-- an exit block of the loop: its id, its predecessor blocks, its leading
phi nodes, and whether the vectorization info marks it mandatory. -/
structure ExitBlockRec where
  blockId : Nat
  predList : List Nat
  phis : List LcPhi
  mandatory : Bool
deriving DecidableEq

/-- the body of trackLiveOuts for one LCSSA phi: skip live-outs that are not
loop-carried instructions; otherwise request a tracker and chain in an
update, and only when the exit is not a final (kill) exit rewrite the phi's
incoming and all out-of-loop uses to the last tracker state. -/
def trackPhiStep (loopContains : Nat → Bool) (instParent : Nat → Nat)
    (combinedMask : NVal) (finalExit : Bool) (exitingBlock : Nat)
    (st : TrackState) (uses : List UseRec) (phi : LcPhi) :
    Option (TrackState × LcPhi × List UseRec) :=
  match phi.incoming with
  | [(b, v)] =>
    if loopContains b then
      if b == exitingBlock then
        match v with
        | NVal.inst id =>
          if loopContains (instParent id) then
            let r := requestTracker st id
            match addTrackerUpdate r.2 combinedMask id (NVal.inst id) with
            | none => none
            | some st2 =>
              if finalExit then some (st2, phi, uses)
              else
                match getLastTrackerState st2 id with
                | none => none
                | some liveOut =>
                  some (st2, { phi with incoming := [(b, liveOut)] },
                        uses.map (fun u =>
                          if u.operand == NVal.inst id && !u.userInLoop then
                            { u with operand := liveOut }
                          else u))
          else some (st, phi, uses)
        | _ => some (st, phi, uses)
      else none
    else none
  | _ => none

/-- the phi loop of trackLiveOuts over the leading phi nodes of the exit
block. -/
def trackLiveOutsGo (loopContains : Nat → Bool) (instParent : Nat → Nat)
    (combinedMask : NVal) (finalExit : Bool) (exitingBlock : Nat) :
    List LcPhi → TrackState → List LcPhi → List UseRec →
    Option (TrackState × List LcPhi × List UseRec)
  | [], st, accPhis, uses => some (st, accPhis, uses)
  | phi :: rest, st, accPhis, uses =>
    match trackPhiStep loopContains instParent combinedMask finalExit exitingBlock
        st uses phi with
    | none => none
    | some (st2, phi2, uses2) =>
      trackLiveOutsGo loopContains instParent combinedMask finalExit exitingBlock
        rest st2 (accPhis ++ [phi2]) uses2

/-- LiveValueTracker::trackLiveOuts (Linearizer.cpp): find the exiting block
(the first in-loop predecessor of the exit), classify the exit as final when
it is not mandatory, and process every leading phi; trackers and updates are
requested before the final-exit test, which only skips the phi and use
rewrites. -/
def trackLiveOuts (loopContains : Nat → Bool) (instParent : Nat → Nat)
    (combinedMask : NVal) (exitB : ExitBlockRec) (uses : List UseRec)
    (st : TrackState) : Option (TrackState × ExitBlockRec × List UseRec) :=
  match exitB.predList.find? (fun p => loopContains p) with
  | none => none
  | some exitingBlock =>
    if loopContains exitB.blockId then none
    else
      let finalExit := !exitB.mandatory
      match trackLiveOutsGo loopContains instParent combinedMask finalExit
          exitingBlock exitB.phis st [] uses with
      | none => none
      | some (st2, phis2, uses2) =>
        some (st2, { exitB with phis := phis2 }, uses2)

/-! ## Helper lemmas about find? and the tracker maps -/

theorem list_find?_append_some {α : Type} (p : α → Bool) (l1 l2 : List α) (x : α)
    (h : l1.find? p = some x) : (l1 ++ l2).find? p = some x := by
  induction l1 with
  | nil => simp [List.find?] at h
  | cons a tl ih =>
    simp only [List.cons_append, List.find?] at h ⊢
    cases hpa : p a with
    | true => simp only [hpa] at h ⊢; exact h
    | false => simp only [hpa] at h ⊢; exact ih h

theorem list_find?_append_none {α : Type} (p : α → Bool) (l1 l2 : List α)
    (h : l1.find? p = none) : (l1 ++ l2).find? p = l2.find? p := by
  induction l1 with
  | nil => rfl
  | cons a tl ih =>
    simp only [List.cons_append, List.find?] at h ⊢
    cases hpa : p a with
    | true => simp only [hpa] at h; exact absurd h (by simp)
    | false => simp only [hpa] at h ⊢; exact ih h

theorem updAt_instId (i : Nat) (x : NVal) (u : Tracker) :
    (updAt i x u).instId = u.instId := by
  unfold updAt; split <;> rfl

theorem find?_map_updAt (l : List Tracker) (i j : Nat) (x : NVal) :
    (l.map (updAt i x)).find? (fun t => t.instId == j)
      = (l.find? (fun t => t.instId == j)).map (updAt i x) := by
  induction l with
  | nil => rfl
  | cons a tl ih =>
    simp only [List.map_cons, List.find?, updAt_instId]
    cases haj : (a.instId == j) with
    | true => simp only [haj]; rfl
    | false => simp only [haj]; exact ih

theorem lookupTracker_requestTracker_self (st : TrackState) (i : Nat) :
    lookupTracker (requestTracker st i).2 i = some (requestTracker st i).1 := by
  unfold requestTracker
  cases h : lookupTracker st i with
  | some t => simpa using h
  | none =>
    simp only [lookupTracker] at h ⊢
    rw [list_find?_append_none _ _ _ h]
    simp

theorem lookupTracker_requestTracker_mono (st : TrackState) (i j : Nat)
    (h : lookupTracker st j ≠ none) :
    lookupTracker (requestTracker st i).2 j ≠ none := by
  unfold requestTracker
  cases hi : lookupTracker st i with
  | some t => simpa using h
  | none =>
    simp only [lookupTracker] at h ⊢
    cases hj : st.trackers.find? (fun t => t.instId == j) with
    | none => exact absurd hj h
    | some x => rw [list_find?_append_some _ _ _ _ hj]; simp

theorem requestTracker_latchSelects (st : TrackState) (i : Nat) :
    (requestTracker st i).2.latchSelects = st.latchSelects := by
  unfold requestTracker
  cases h : lookupTracker st i <;> rfl

theorem addTrackerUpdate_some (st : TrackState) (m : NVal) (i : Nat) (val : NVal)
    (t : Tracker) (h : lookupTracker st i = some t) :
    addTrackerUpdate st m i val = some
      { trackers := st.trackers.map (updAt i (NVal.selectV m val t.latchIncoming)),
        latchSelects := st.latchSelects ++ [NVal.selectV m val t.latchIncoming],
        shapes := st.shapes ++ [(NVal.selectV m val t.latchIncoming, VectorShape.varying 1)] } := by
  unfold addTrackerUpdate
  rw [h]

theorem lookupTracker_addTrackerUpdate_mono (st st2 : TrackState) (m : NVal)
    (i : Nat) (val : NVal) (j : Nat)
    (h : addTrackerUpdate st m i val = some st2)
    (hj : lookupTracker st j ≠ none) : lookupTracker st2 j ≠ none := by
  cases hi : lookupTracker st i with
  | none => unfold addTrackerUpdate at h; rw [hi] at h; exact absurd h (by simp)
  | some t =>
    rw [addTrackerUpdate_some st m i val t hi] at h
    have hst2 := (Option.some.inj h).symm
    subst hst2
    simp only [lookupTracker] at hj ⊢
    rw [find?_map_updAt]
    cases hjv : st.trackers.find? (fun u => u.instId == j) with
    | none => exact absurd hjv hj
    | some x => simp

/-- C4: requestTracker on a fresh live-out creates the tracker phi at the
loop header with shape Varying and incoming undef from the pre-header and
the phi itself from the latch; addTrackerUpdate then replaces the latch
incoming with select(combinedLoopExitMask, v, previous latch incoming), a
select inserted at the latch with shape Varying. -/
theorem C4_requestTracker_addTrackerUpdate (st : TrackState) (i : Nat) (v m : NVal)
    (h : lookupTracker st i = none) :
    requestTracker st i =
      (⟨i, NVal.undefV, NVal.trackerPhi i⟩,
       { trackers := st.trackers ++ [⟨i, NVal.undefV, NVal.trackerPhi i⟩],
         latchSelects := st.latchSelects,
         shapes := st.shapes ++ [(NVal.trackerPhi i, VectorShape.varying 1)] })
    ∧ addTrackerUpdate (requestTracker st i).2 m i v = some
        { trackers := (st.trackers ++ [(⟨i, NVal.undefV, NVal.trackerPhi i⟩ : Tracker)]).map
            (updAt i (NVal.selectV m v (NVal.trackerPhi i))),
          latchSelects := st.latchSelects ++ [NVal.selectV m v (NVal.trackerPhi i)],
          shapes := (st.shapes ++ [(NVal.trackerPhi i, VectorShape.varying 1)])
            ++ [(NVal.selectV m v (NVal.trackerPhi i), VectorShape.varying 1)] }
    ∧ (addTrackerUpdate (requestTracker st i).2 m i v).map (fun s => lookupTracker s i)
        = some (some ⟨i, NVal.undefV, NVal.selectV m v (NVal.trackerPhi i)⟩) := by
  have hf : st.trackers.find? (fun t => t.instId == i) = none := h
  have hreq : requestTracker st i =
      (⟨i, NVal.undefV, NVal.trackerPhi i⟩,
       { trackers := st.trackers ++ [⟨i, NVal.undefV, NVal.trackerPhi i⟩],
         latchSelects := st.latchSelects,
         shapes := st.shapes ++ [(NVal.trackerPhi i, VectorShape.varying 1)] }) := by
    unfold requestTracker; rw [h]
  have hlook : lookupTracker
      ({ trackers := st.trackers ++ [⟨i, NVal.undefV, NVal.trackerPhi i⟩],
         latchSelects := st.latchSelects,
         shapes := st.shapes ++ [(NVal.trackerPhi i, VectorShape.varying 1)] } : TrackState) i
      = some ⟨i, NVal.undefV, NVal.trackerPhi i⟩ := by
    simp only [lookupTracker]
    rw [list_find?_append_none _ _ _ hf]
    simp
  refine ⟨hreq, ?_, ?_⟩
  · rw [hreq]
    exact addTrackerUpdate_some _ m i v _ hlook
  · rw [hreq]
    rw [addTrackerUpdate_some _ m i v _ hlook]
    simp only [Option.map_some]
    refine congrArg some ?_
    simp only [lookupTracker]
    rw [find?_map_updAt, list_find?_append_none _ _ _ hf]
    simp [updAt]

/-- C4 witness: the theorem evaluated on the empty tracker state, live-out
instruction 7 and combined exit mask value 3. -/
theorem C4_requestTracker_addTrackerUpdate_witness :
    lookupTracker ⟨[], [], []⟩ 7 = none
    ∧ (requestTracker ⟨[], [], []⟩ 7 =
        (⟨7, NVal.undefV, NVal.trackerPhi 7⟩,
         { trackers := [] ++ [⟨7, NVal.undefV, NVal.trackerPhi 7⟩],
           latchSelects := [],
           shapes := [] ++ [(NVal.trackerPhi 7, VectorShape.varying 1)] })
      ∧ addTrackerUpdate (requestTracker ⟨[], [], []⟩ 7).2 (NVal.maskV 3) 7 (NVal.inst 7) = some
          { trackers := ([] ++ [(⟨7, NVal.undefV, NVal.trackerPhi 7⟩ : Tracker)]).map
              (updAt 7 (NVal.selectV (NVal.maskV 3) (NVal.inst 7) (NVal.trackerPhi 7))),
            latchSelects := [] ++ [NVal.selectV (NVal.maskV 3) (NVal.inst 7) (NVal.trackerPhi 7)],
            shapes := ([] ++ [(NVal.trackerPhi 7, VectorShape.varying 1)])
              ++ [(NVal.selectV (NVal.maskV 3) (NVal.inst 7) (NVal.trackerPhi 7), VectorShape.varying 1)] }
      ∧ (addTrackerUpdate (requestTracker ⟨[], [], []⟩ 7).2 (NVal.maskV 3) 7 (NVal.inst 7)).map
            (fun s => lookupTracker s 7)
          = some (some ⟨7, NVal.undefV,
              NVal.selectV (NVal.maskV 3) (NVal.inst 7) (NVal.trackerPhi 7)⟩)) :=
  ⟨rfl, C4_requestTracker_addTrackerUpdate ⟨[], [], []⟩ 7 (NVal.inst 7) (NVal.maskV 3) rfl⟩

/-! ## C2: kill exits in trackLiveOuts -/

/-- a loop over blocks 1 (header) and 2 (latch). -/
def killLC : Nat → Bool := fun b => b == 1 || b == 2

/-- the live-out instruction 5 is defined in block 2, inside the loop. -/
def killIP : Nat → Nat := fun _ => 2

/-- a kill exit (not mandatory): block 4, entered from the in-loop block 2,
with one LCSSA phi carrying the loop-defined instruction 5. -/
def killExitB : ExitBlockRec := ⟨4, [2], [⟨9, [(2, NVal.inst 5)]⟩], false⟩

/-- one out-of-loop use of the live-out instruction. -/
def killUses : List UseRec := [⟨11, false, NVal.inst 5⟩]

/-- the tracker update select the code inserts for the kill exit. -/
def killSel : NVal := NVal.selectV (NVal.maskV 0) (NVal.inst 5) (NVal.trackerPhi 5)

/-- C2 counterexample: on a kill exit (isMandatory false) with one
loop-carried live-out, trackLiveOuts does create a tracker phi at the header
and does insert a tracker update select at the latch; only the closed-SSA
phi and the uses are left unchanged.  The claim says no tracker and no
update are created. -/
theorem C2_kill_exit_counterexample :
    trackLiveOuts killLC killIP (NVal.maskV 0) killExitB killUses ⟨[], [], []⟩
      = some (⟨[⟨5, NVal.undefV, killSel⟩], [killSel],
               [(NVal.trackerPhi 5, VectorShape.varying 1),
                (killSel, VectorShape.varying 1)]⟩,
              killExitB, killUses)
    ∧ ([⟨5, NVal.undefV, killSel⟩] : List Tracker) ≠ []
    ∧ ([killSel] : List NVal) ≠ [] := by
  refine ⟨by decide, by decide, by decide⟩

theorem trackPhiStep_kill (lc : Nat → Bool) (ip : Nat → Nat) (m : NVal)
    (ex : Nat) (st : TrackState) (uses : List UseRec) (phi : LcPhi)
    (st2 : TrackState) (phi2 : LcPhi) (uses2 : List UseRec)
    (h : trackPhiStep lc ip m true ex st uses phi = some (st2, phi2, uses2)) :
    phi2 = phi ∧ uses2 = uses
    ∧ (∀ j, lookupTracker st j ≠ none → lookupTracker st2 j ≠ none)
    ∧ (∀ x, x ∈ st.latchSelects → x ∈ st2.latchSelects)
    ∧ (∀ b id, phi.incoming = [(b, NVal.inst id)] → lc (ip id) = true →
        lookupTracker st2 id ≠ none
        ∧ ∃ w, NVal.selectV m (NVal.inst id) w ∈ st2.latchSelects) := by
  unfold trackPhiStep at h
  split at h
  case h_2 hne =>
    exact absurd h (by simp)
  case h_1 b v heq =>
    split at h
    case isFalse => exact absurd h (by simp)
    case isTrue hlb =>
      split at h
      case isFalse => exact absurd h (by simp)
      case isTrue hbe =>
        split at h
        case h_2 hnv =>
          simp only [Option.some.injEq, Prod.mk.injEq] at h
          obtain ⟨h1, h2, h3⟩ := h
          subst h1; subst h2; subst h3
          refine ⟨rfl, rfl, fun j hj => hj, fun x hx => hx, ?_⟩
          intro b2 id hinc2 _
          rw [heq] at hinc2
          simp only [List.cons.injEq, Prod.mk.injEq] at hinc2
          exact absurd hinc2.1.2 (hnv id)
        case h_1 id =>
          split at h
          case isFalse hlp =>
            simp only [Option.some.injEq, Prod.mk.injEq] at h
            obtain ⟨h1, h2, h3⟩ := h
            subst h1; subst h2; subst h3
            refine ⟨rfl, rfl, fun j hj => hj, fun x hx => hx, ?_⟩
            intro b2 id2 hinc2 hlp2
            rw [heq] at hinc2
            simp only [List.cons.injEq, Prod.mk.injEq, NVal.inst.injEq] at hinc2
            rw [← hinc2.1.2] at hlp2
            exact absurd hlp2 hlp
          case isTrue hlp =>
            have hself := lookupTracker_requestTracker_self st id
            simp only [] at h
            rw [addTrackerUpdate_some (requestTracker st id).2 m id (NVal.inst id)
                  _ hself] at h
            simp only [if_true, Option.some.injEq, Prod.mk.injEq] at h
            obtain ⟨h1, h2, h3⟩ := h
            subst h2; subst h3
            have hst2 : st2 =
                { trackers := (requestTracker st id).2.trackers.map
                    (updAt id (NVal.selectV m (NVal.inst id)
                      (requestTracker st id).1.latchIncoming)),
                  latchSelects := (requestTracker st id).2.latchSelects
                    ++ [NVal.selectV m (NVal.inst id)
                         (requestTracker st id).1.latchIncoming],
                  shapes := (requestTracker st id).2.shapes
                    ++ [(NVal.selectV m (NVal.inst id)
                          (requestTracker st id).1.latchIncoming,
                         VectorShape.varying 1)] } := h1.symm
            refine ⟨rfl, rfl, ?_, ?_, ?_⟩
            · intro j hj
              rw [hst2]
              have hj1 : lookupTracker (requestTracker st id).2 j ≠ none :=
                lookupTracker_requestTracker_mono st id j hj
              simp only [lookupTracker] at hj1 ⊢
              rw [find?_map_updAt]
              cases hjv : (requestTracker st id).2.trackers.find?
                  (fun t => t.instId == j) with
              | none => exact absurd hjv hj1
              | some x => simp
            · intro x hx
              rw [hst2]
              simp only []
              rw [requestTracker_latchSelects]
              exact List.mem_append_left _ hx
            · intro b2 id2 hinc2 _
              rw [heq] at hinc2
              simp only [List.cons.injEq, Prod.mk.injEq, NVal.inst.injEq] at hinc2
              rw [← hinc2.1.2]
              constructor
              · rw [hst2]
                simp only [lookupTracker] at hself ⊢
                rw [find?_map_updAt, hself]
                simp
              · refine ⟨(requestTracker st id).1.latchIncoming, ?_⟩
                rw [hst2]
                simp only []
                exact List.mem_append_right _ (by simp)

theorem trackLiveOutsGo_kill (lc : Nat → Bool) (ip : Nat → Nat) (m : NVal)
    (ex : Nat) :
    ∀ (phis : List LcPhi) (st : TrackState) (acc : List LcPhi) (uses : List UseRec)
      (st3 : TrackState) (acc3 : List LcPhi) (uses3 : List UseRec),
    trackLiveOutsGo lc ip m true ex phis st acc uses = some (st3, acc3, uses3) →
    acc3 = acc ++ phis ∧ uses3 = uses
    ∧ (∀ j, lookupTracker st j ≠ none → lookupTracker st3 j ≠ none)
    ∧ (∀ x, x ∈ st.latchSelects → x ∈ st3.latchSelects)
    ∧ (∀ phi, phi ∈ phis → ∀ b id, phi.incoming = [(b, NVal.inst id)] →
        lc (ip id) = true →
        lookupTracker st3 id ≠ none
        ∧ ∃ w, NVal.selectV m (NVal.inst id) w ∈ st3.latchSelects) := by
  intro phis
  induction phis with
  | nil =>
    intro st acc uses st3 acc3 uses3 h
    simp only [trackLiveOutsGo, Option.some.injEq, Prod.mk.injEq] at h
    obtain ⟨h1, h2, h3⟩ := h
    subst h1; subst h2; subst h3
    exact ⟨by simp, rfl, fun j hj => hj, fun x hx => hx, by intro phi hphi; cases hphi⟩
  | cons phi rest ih =>
    intro st acc uses st3 acc3 uses3 h
    simp only [trackLiveOutsGo] at h
    cases hstep : trackPhiStep lc ip m true ex st uses phi with
    | none => rw [hstep] at h; exact absurd h (by simp)
    | some r =>
      obtain ⟨st2, phi2, uses2⟩ := r
      rw [hstep] at h
      simp only [] at h
      obtain ⟨hp2, hu2, hmono, hsel, htrk⟩ :=
        trackPhiStep_kill lc ip m ex st uses phi st2 phi2 uses2 hstep
      obtain ⟨hacc, huse, hmono2, hsel2, htrk2⟩ :=
        ih st2 (acc ++ [phi2]) uses2 st3 acc3 uses3 h
    -- combine the two halves of the walk
      subst hp2
      subst hu2
      refine ⟨by rw [hacc]; simp, huse, fun j hj => hmono2 j (hmono j hj),
              fun x hx => hsel2 x (hsel x hx), ?_⟩
      intro q hq b id hinc hlp
      cases hq with
      | head =>
        obtain ⟨ht1, w, hw⟩ := htrk b id hinc hlp
        exact ⟨hmono2 id ht1, w, hsel2 _ hw⟩
      | tail _ hq2 =>
        exact htrk2 q hq2 b id hinc hlp

/-- C2 amended: on a kill exit (an exit block not marked mandatory) of a
divergent loop, trackLiveOuts leaves every closed-SSA phi of the exit
unchanged and rewrites no uses, but it still requests a tracker phi at the
loop header and inserts a tracker update select at the latch for every
loop-carried live-out of the exit. -/
theorem C2_kill_exit_not_rewritten_but_tracked (lc : Nat → Bool) (ip : Nat → Nat)
    (m : NVal) (e : ExitBlockRec) (uses : List UseRec) (st st3 : TrackState)
    (e3 : ExitBlockRec) (uses3 : List UseRec)
    (hkill : e.mandatory = false)
    (h : trackLiveOuts lc ip m e uses st = some (st3, e3, uses3)) :
    e3.phis = e.phis ∧ e3.blockId = e.blockId ∧ uses3 = uses
    ∧ (∀ phi, phi ∈ e.phis → ∀ b id, phi.incoming = [(b, NVal.inst id)] →
        lc (ip id) = true →
        lookupTracker st3 id ≠ none
        ∧ ∃ w, NVal.selectV m (NVal.inst id) w ∈ st3.latchSelects) := by
  unfold trackLiveOuts at h
  split at h
  case h_1 => exact absurd h (by simp)
  case h_2 exitingBlock hex =>
    split at h
    case isTrue => exact absurd h (by simp)
    case isFalse =>
      rw [hkill] at h
      simp only [Bool.not_false] at h
      split at h
      case h_1 => exact absurd h (by simp)
      case h_2 st2 phis2 uses2 hgo =>
        simp only [Option.some.injEq, Prod.mk.injEq] at h
        obtain ⟨h1, h2, h3⟩ := h
        subst h1; subst h3
        obtain ⟨hacc, huse, _, _, htrk⟩ :=
          trackLiveOutsGo_kill lc ip m exitingBlock e.phis st [] uses _ phis2 _ hgo
        subst huse
        rw [← h2]
        simp only [List.nil_append] at hacc
        exact ⟨by rw [hacc], rfl, rfl, htrk⟩

/-- C2 amended witness: the kill-exit instance of the counterexample
satisfies the amended statement; the tracker for instruction 5 exists and
its update select sits in the latch. -/
theorem C2_kill_exit_not_rewritten_but_tracked_witness :
    killExitB.phis = killExitB.phis ∧ killExitB.blockId = killExitB.blockId
    ∧ killUses = killUses
    ∧ (∀ phi, phi ∈ killExitB.phis → ∀ b id, phi.incoming = [(b, NVal.inst id)] →
        killLC (killIP id) = true →
        lookupTracker ⟨[⟨5, NVal.undefV, killSel⟩], [killSel],
          [(NVal.trackerPhi 5, VectorShape.varying 1),
           (killSel, VectorShape.varying 1)]⟩ id ≠ none
        ∧ ∃ w, NVal.selectV (NVal.maskV 0) (NVal.inst id) w ∈
            ([killSel] : List NVal)) :=
  C2_kill_exit_not_rewritten_but_tracked killLC killIP (NVal.maskV 0) killExitB
    killUses ⟨[], [], []⟩
    ⟨[⟨5, NVal.undefV, killSel⟩], [killSel],
     [(NVal.trackerPhi 5, VectorShape.varying 1), (killSel, VectorShape.varying 1)]⟩
    killExitB killUses rfl (by decide)


/-! ## PHI folding after emission (Linearizer.cpp)

A block is its predecessor list and its leading phi nodes; edge masks are a
map from predecessor block to the recorded mask value, and each phi's shape
comes from the vectorization info.  The replacements list records, per
folded phi, the value handed to replaceAllUsesWith; the shape log records
setVectorShape on every created select. -/

structure FPhi where
  id : Nat
  incoming : List (Nat × NVal)
deriving DecidableEq

structure FBlock where
  preds : List Nat
  phis : List FPhi
deriving DecidableEq

/-- phi.getBasicBlockIndex(b) >= 0: the phi knows an incoming for block b. -/
def phiHasBlock (phi : FPhi) (b : Nat) : Bool :=
  phi.incoming.any (fun p => p.fst == b)

/-- Linearizer::needsFolding(PHINode) (Linearizer.cpp): some predecessor is
unknown to the phi, or some incoming block is no longer a predecessor. -/
def needsFoldingPhi (preds : List Nat) (phi : FPhi) : Bool :=
  preds.any (fun p => !phiHasBlock phi p)
  || phi.incoming.any (fun bv => !(preds.contains bv.fst))

/-- the select chain d = v0; d = select(edgeMask(pred_i), v_i, d) of
foldPhis, together with the list of created selects in creation order. -/
def selectChainWithLog (em : Nat → NVal) : NVal → List (Nat × NVal) → NVal × List NVal
  | v0, [] => (v0, [])
  | v0, bv :: rest =>
    let d := NVal.selectV (em bv.fst) bv.snd v0
    let r := selectChainWithLog em d rest
    (r.fst, d :: r.snd)

/-- the value that replaces a folded phi. -/
def phiFoldValue (em : Nat → NVal) (phi : FPhi) : NVal :=
  match phi.incoming with
  | [] => NVal.undefV
  | (_, v0) :: tl => (selectChainWithLog em v0 tl).fst

/-- the selects created while folding one phi. -/
def phiFoldSelects (em : Nat → NVal) (phi : FPhi) : List NVal :=
  match phi.incoming with
  | [] => []
  | (_, v0) :: tl => (selectChainWithLog em v0 tl).snd

/-- the phi loop of foldPhis: every leading phi is folded in turn; a phi
with no incoming value would make getIncomingValue(0) undefined.  accR
collects the replaceAllUsesWith values, accS the select shapes. -/
def foldPhisGo (em : Nat → NVal) (sh : Nat → VectorShape) :
    List FPhi → List (Nat × NVal) → List (NVal × VectorShape) →
    Option (List (Nat × NVal) × List (NVal × VectorShape))
  | [], accR, accS => some (accR, accS)
  | phi :: rest, accR, accS =>
    match phi.incoming with
    | [] => none
    | (_, v0) :: tl =>
      let r := selectChainWithLog em v0 tl
      foldPhisGo em sh rest (accR ++ [(phi.id, r.fst)])
        (accS ++ r.snd.map (fun s => (s, sh phi.id)))

/-- Linearizer::foldPhis (Linearizer.cpp): no phis means no folding; the
fold decision is made on the first phi only, and when it fires every phi of
the block is rewritten into its select chain and erased. -/
def foldPhis (em : Nat → NVal) (sh : Nat → VectorShape) (blk : FBlock) :
    Option (FBlock × List (Nat × NVal) × List (NVal × VectorShape)) :=
  match blk.phis with
  | [] => some (blk, [], [])
  | phi0 :: _ =>
    if !needsFoldingPhi blk.preds phi0 then some (blk, [], [])
    else
      match foldPhisGo em sh blk.phis [] [] with
      | none => none
      | some (accR, accS) => some ({ blk with phis := [] }, accR, accS)

/-- edge masks for the concrete fold examples. -/
def em0 : Nat → NVal := fun b => NVal.maskV b

/-- phi shapes for the concrete fold examples. -/
def sh0 : Nat → VectorShape := fun i => VectorShape.varying i

/-- a block whose first phi matches the predecessors while the second phi
holds a stale incoming block. -/
def blkA : FBlock := ⟨[1], [⟨1, [(1, NVal.cst 0)]⟩, ⟨2, [(2, NVal.cst 1)]⟩]⟩

/-- C8 counterexample: the predecessor set of blkA has changed with respect
to its second phi (incoming block 2 is no longer a predecessor), so the
claim demands that every phi be folded into a select chain; the code gates
folding on the first phi alone and leaves the block untouched. -/
theorem C8_foldPhis_counterexample :
    foldPhis em0 sh0 blkA = some (blkA, [], [])
    ∧ needsFoldingPhi blkA.preds ⟨2, [(2, NVal.cst 1)]⟩ = true
    ∧ (⟨2, [(2, NVal.cst 1)]⟩ : FPhi) ∈ blkA.phis
    ∧ needsFoldingPhi blkA.preds ⟨1, [(1, NVal.cst 0)]⟩ = false := by
  refine ⟨by decide, by decide, by decide, by decide⟩

theorem foldPhisGo_spec (em : Nat → NVal) (sh : Nat → VectorShape) :
    ∀ (phis : List FPhi) (accR : List (Nat × NVal)) (accS : List (NVal × VectorShape)),
    (∀ phi, phi ∈ phis → phi.incoming ≠ []) →
    foldPhisGo em sh phis accR accS = some
      (accR ++ phis.map (fun phi => (phi.id, phiFoldValue em phi)),
       accS ++ (phis.map (fun phi =>
         (phiFoldSelects em phi).map (fun s => (s, sh phi.id)))).flatten) := by
  intro phis
  induction phis with
  | nil => intro accR accS _; simp [foldPhisGo]
  | cons phi rest ih =>
    intro accR accS hne
    match hinc : phi.incoming with
    | [] => exact absurd hinc (hne phi (List.mem_cons_self _ _))
    | (b0, v0) :: tl =>
      have hrest : ∀ q, q ∈ rest → q.incoming ≠ [] :=
        fun q hq => hne q (List.mem_cons_of_mem _ hq)
      simp only [foldPhisGo, hinc]
      rw [ih _ _ hrest]
      simp [phiFoldValue, phiFoldSelects, hinc, List.append_assoc]

/-- C8 amended: folding is gated on the block's first phi alone.  When the
block has no phis, or its first phi still agrees with the predecessors,
nothing changes (even if a later phi disagrees); when the first phi needs
folding, every phi of the block is replaced by the select chain
d = v0; d = select(edgeMask(pred_i, B), v_i, d), each created select gets
the phi's shape, the phi's uses are redirected to d and the phi is
erased. -/
theorem C8_foldPhis_first_phi_gates (em : Nat → NVal) (sh : Nat → VectorShape)
    (blk : FBlock) (phi0 : FPhi) (rest : List FPhi)
    (hphis : blk.phis = phi0 :: rest)
    (hne : ∀ phi, phi ∈ blk.phis → phi.incoming ≠ []) :
    (needsFoldingPhi blk.preds phi0 = false → foldPhis em sh blk = some (blk, [], []))
    ∧ (needsFoldingPhi blk.preds phi0 = true →
        foldPhis em sh blk = some ({ blk with phis := [] },
          blk.phis.map (fun phi => (phi.id, phiFoldValue em phi)),
          (blk.phis.map (fun phi =>
            (phiFoldSelects em phi).map (fun s => (s, sh phi.id)))).flatten)) := by
  constructor
  · intro hgate
    unfold foldPhis
    rw [hphis]
    simp [hgate]
  · intro hgate
    unfold foldPhis
    rw [hphis]
    simp only [hgate, Bool.not_true, Bool.false_eq_true, if_false]
    rw [← hphis, foldPhisGo_spec em sh blk.phis [] [] hne]
    simp

/-- a block whose single phi has gained and lost predecessors. -/
def blkB : FBlock := ⟨[1, 2], [⟨6, [(1, NVal.cst 0), (3, NVal.cst 1)]⟩]⟩

/-- C8 witness: the amended theorem evaluated on blkB, whose first phi needs
folding; the phi becomes select(edgeMask(3), cst 1, cst 0) with its own
shape on the created select. -/
theorem C8_foldPhis_first_phi_gates_witness :
    (needsFoldingPhi blkB.preds ⟨6, [(1, NVal.cst 0), (3, NVal.cst 1)]⟩ = false →
        foldPhis em0 sh0 blkB = some (blkB, [], []))
    ∧ (needsFoldingPhi blkB.preds ⟨6, [(1, NVal.cst 0), (3, NVal.cst 1)]⟩ = true →
        foldPhis em0 sh0 blkB = some ({ blkB with phis := [] },
          blkB.phis.map (fun phi => (phi.id, phiFoldValue em0 phi)),
          (blkB.phis.map (fun phi =>
            (phiFoldSelects em0 phi).map (fun s => (s, sh0 phi.id)))).flatten)) :=
  C8_foldPhis_first_phi_gates em0 sh0 blkB ⟨6, [(1, NVal.cst 0), (3, NVal.cst 1)]⟩ []
    rfl (by decide)


/-! ## LCSSA phi migration of convertToSingleExitLoop (Linearizer.cpp)

The move-LCSSA-nodes loop of convertToSingleExitLoop walks the old exit
blocks (skipping a block equal to the loop exit relay block), repairs each
phi's incoming and then dissolves the phi: its uses are replaced by its
first incoming value and it is erased.  Blocks are referred to either as
real region blocks (by topological index) or as relay blocks. -/

inductive BlockRef where
  | real (id : Nat)
  | relay (targetId : Nat)
deriving DecidableEq

/-- a promoteDefinition event: the promoted value and the index range
(defIndex, latchIndex) it was promoted across. -/
abbrev PromoEvent : Type := NVal × Nat × Nat

/-- the environment of the migration loop: loop membership, the defining
block of each instruction value (none for constants and globals), the
dominator tree, the predecessor map for promoteDefinition, and the header
and latch topological indices. -/
structure MigrateEnv where
  loopContains : Nat → Bool
  instParentOf : NVal → Option Nat
  dominates : Nat → Nat → Bool
  preds : Nat → List Nat
  headerIdx : Nat
  latchIdx : Nat

/-- lift a promoteDefinition result back to a value: the promoted
instruction itself, undef, or one of the phi nodes promoteDefinition
creates. -/
def promoToNVal (orig : NVal) : PVal → NVal
  | PVal.base => orig
  | PVal.undefV => NVal.undefV
  | PVal.phiAt pb => NVal.promoPhi pb

/-- the for-all-exiting-edges loop over one phi's incoming list: assert the
incoming block is in the loop; leave non-instruction values alone; for an
instruction, rewire the incoming block to the latch, and when its defining
block does not dominate the exit block, promote it from its def index to
the latch index (recording the event). -/
def migrateIncomingsGo (env : MigrateEnv) (exitId : Nat) :
    List (Nat × NVal) → List PromoEvent →
    Option (List (Nat × NVal) × List PromoEvent)
  | [], ev => some ([], ev)
  | (b, v) :: rest, ev =>
    if env.loopContains b then
      match env.instParentOf v with
      | none =>
        match migrateIncomingsGo env exitId rest ev with
        | none => none
        | some (rest2, ev2) => some ((b, v) :: rest2, ev2)
      | some defBlock =>
        if env.dominates defBlock exitId then
          match migrateIncomingsGo env exitId rest ev with
          | none => none
          | some (rest2, ev2) => some ((env.latchIdx, v) :: rest2, ev2)
        else
          if env.headerIdx ≤ defBlock then
            if defBlock ≤ env.latchIdx then
              match promoteDefinition env.preds defBlock env.latchIdx with
              | none => none
              | some pv =>
                match migrateIncomingsGo env exitId rest
                    (ev ++ [(v, defBlock, env.latchIdx)]) with
                | none => none
                | some (rest2, ev2) =>
                  some ((env.latchIdx, promoToNVal v pv) :: rest2, ev2)
            else none
          else none
    else none

/-- the phi loop of the migration: repair each leading phi's incomings,
then replace all its uses with its first incoming value and erase it; diss
records the replaceAllUsesWith pairs. -/
def migratePhisGo (env : MigrateEnv) (exitId : Nat) :
    List LcPhi → List PromoEvent → List (Nat × NVal) →
    Option (List PromoEvent × List (Nat × NVal))
  | [], ev, diss => some (ev, diss)
  | phi :: rest, ev, diss =>
    match migrateIncomingsGo env exitId phi.incoming ev with
    | none => none
    | some (inc2, ev2) =>
      match inc2 with
      | [] => none
      | (_, v0) :: _ => migratePhisGo env exitId rest ev2 (diss ++ [(phi.id, v0)])

/-- one old exit block of the migration loop: skipped when it equals the
loop exit relay block (never, since relay blocks are fresh); otherwise all
its phis are dissolved in place. -/
def migrateExitBlock (env : MigrateEnv) (relayRef : BlockRef) (e : ExitBlockRec)
    (ev : List PromoEvent) (diss : List (Nat × NVal)) :
    Option (ExitBlockRec × List PromoEvent × List (Nat × NVal)) :=
  if BlockRef.real e.blockId == relayRef then some (e, ev, diss)
  else
    match migratePhisGo env e.blockId e.phis ev diss with
    | none => none
    | some (ev2, diss2) => some ({ e with phis := [] }, ev2, diss2)

/-- the tracker latch state carried by the closed-SSA phi of the C7
counterexample. -/
def migSel : NVal := NVal.selectV (NVal.maskV 0) (NVal.inst 5) (NVal.trackerPhi 5)

/-- the migration environment of the C7 counterexample: loop blocks 1..3
with header 1 and latch 3; the tracker select lives in the latch; the plain
live-out instruction 8 lives in block 2, which dominates the exit block 4
but not the latch. -/
def mig1 : MigrateEnv :=
  { loopContains := fun b => b == 1 || b == 2 || b == 3,
    instParentOf := fun v =>
      match v with
      | NVal.selectV _ _ _ => some 3
      | NVal.inst _ => some 2
      | _ => none,
    dominates := fun d b => (d == 3 && b == 4) || (d == 2 && b == 4),
    preds := lineCfg,
    headerIdx := 1,
    latchIdx := 3 }

/-- the old exit block of the C7 counterexample: one phi rewritten to
tracker state, one phi carrying a plain loop instruction. -/
def exitE : ExitBlockRec :=
  ⟨4, [3], [⟨21, [(3, migSel)]⟩, ⟨22, [(3, NVal.inst 8)]⟩], true⟩

/-- C7 counterexample: the migration loop dissolves both phis in place
(uses replaced by the incoming value, phi erased); nothing is inserted into
the fresh exit relay block, and although the def of instruction 8 (block 2)
does not dominate the latch (block 3), no promoteDefinition is invoked,
because the code tests dominance of the exit block, not of the latch. -/
theorem C7_no_migration_counterexample :
    migrateExitBlock mig1 (BlockRef.relay 4) exitE [] []
      = some ({ exitE with phis := [] }, ([] : List PromoEvent),
              [(21, migSel), (22, NVal.inst 8)])
    ∧ mig1.dominates 2 3 = false
    ∧ mig1.instParentOf (NVal.inst 8) = some 2
    ∧ (BlockRef.real exitE.blockId == BlockRef.relay 4) = false := by
  refine ⟨by decide, by decide, by decide, by decide⟩

theorem migrateIncomingsGo_ev_mono (env : MigrateEnv) (exitId : Nat) :
    ∀ (incs : List (Nat × NVal)) (ev : List PromoEvent)
      (r : List (Nat × NVal) × List PromoEvent),
    migrateIncomingsGo env exitId incs ev = some r →
    ∀ x, x ∈ ev → x ∈ r.2 := by
  intro incs
  induction incs with
  | nil =>
    intro ev r h x hx
    simp only [migrateIncomingsGo, Option.some.injEq] at h
    rw [← h]
    exact hx
  | cons bv rest ih =>
    intro ev r h x hx
    obtain ⟨b, v⟩ := bv
    simp only [migrateIncomingsGo] at h
    split at h
    case isFalse => exact absurd h (by simp)
    case isTrue hlc =>
      split at h
      case h_1 =>
        split at h
        case h_1 => exact absurd h (by simp)
        case h_2 rest2 ev2 hrec =>
          simp only [Option.some.injEq] at h
          rw [← h]
          exact ih ev (rest2, ev2) hrec x hx
      case h_2 defBlock hdef =>
        split at h
        case isTrue hdom =>
          split at h
          case h_1 => exact absurd h (by simp)
          case h_2 rest2 ev2 hrec =>
            simp only [Option.some.injEq] at h
            rw [← h]
            exact ih ev (rest2, ev2) hrec x hx
        case isFalse hdom =>
          split at h
          case isFalse => exact absurd h (by simp)
          case isTrue hrange1 =>
            split at h
            case isFalse => exact absurd h (by simp)
            case isTrue hrange2 =>
              split at h
              case h_1 => exact absurd h (by simp)
              case h_2 pv hpv =>
                split at h
                case h_1 => exact absurd h (by simp)
                case h_2 rest2 ev2 hrec =>
                  simp only [Option.some.injEq] at h
                  rw [← h]
                  exact ih _ (rest2, ev2) hrec x (List.mem_append_left _ hx)


theorem migratePhisGo_spec (env : MigrateEnv) (exitId : Nat) :
    ∀ (phis : List LcPhi) (ev : List PromoEvent) (diss : List (Nat × NVal))
      (ev3 : List PromoEvent) (diss3 : List (Nat × NVal)),
    migratePhisGo env exitId phis ev diss = some (ev3, diss3) →
    (∀ x, x ∈ ev → x ∈ ev3) ∧ (∀ p, p ∈ diss → p ∈ diss3)
    ∧ (∀ phi, phi ∈ phis → ∀ b v, phi.incoming = [(b, v)] →
        (env.instParentOf v = none → (phi.id, v) ∈ diss3)
        ∧ (∀ d, env.instParentOf v = some d → env.dominates d exitId = true →
            (phi.id, v) ∈ diss3)
        ∧ (∀ d, env.instParentOf v = some d → env.dominates d exitId = false →
            (v, d, env.latchIdx) ∈ ev3)) := by
  intro phis
  induction phis with
  | nil =>
    intro ev diss ev3 diss3 h
    simp only [migratePhisGo, Option.some.injEq, Prod.mk.injEq] at h
    obtain ⟨h1, h2⟩ := h
    subst h1; subst h2
    exact ⟨fun x hx => hx, fun p hp => hp, by intro phi hphi; cases hphi⟩
  | cons phi rest ih =>
    intro ev diss ev3 diss3 h
    simp only [migratePhisGo] at h
    split at h
    case h_1 => exact absurd h (by simp)
    case h_2 inc2 ev2 hstep =>
      split at h
      case h_1 => exact absurd h (by simp)
      case h_2 b0 v0 tl =>
        obtain ⟨hev, hdiss, hphi⟩ := ih ev2 (diss ++ [(phi.id, v0)]) ev3 diss3 h
        have hev1 : ∀ x, x ∈ ev → x ∈ ev3 := fun x hx =>
          hev x (migrateIncomingsGo_ev_mono env exitId phi.incoming ev
            ((b0, v0) :: tl, ev2) hstep x hx)
        refine ⟨hev1, fun p hp => hdiss p (List.mem_append_left _ hp), ?_⟩
        intro q hq b v hinc
        cases hq with
        | tail _ hq2 => exact hphi q hq2 b v hinc
        | head =>
          rw [hinc] at hstep
          by_cases hlc : env.loopContains b = true
          case neg =>
            rw [Bool.not_eq_true] at hlc
            have hcomp : migrateIncomingsGo env exitId [(b, v)] ev = none := by
              simp [migrateIncomingsGo, hlc]
            rw [hcomp] at hstep
            exact Option.noConfusion hstep
          refine ⟨?_, ?_, ?_⟩
          · intro hpar
            have hcomp : migrateIncomingsGo env exitId [(b, v)] ev
                = some ([(b, v)], ev) := by
              simp [migrateIncomingsGo, hlc, hpar]
            rw [hcomp] at hstep
            have h1 := Option.some.inj hstep
            have hfst := congrArg Prod.fst h1
            have hsnd := congrArg Prod.snd h1
            simp only at hfst hsnd
            injection hfst with hhead htl
            injection hhead with hb1 hv1
            rw [hv1]
            exact hdiss _ (List.mem_append_right _ (by simp))
          · intro d hpar hdom
            have hcomp : migrateIncomingsGo env exitId [(b, v)] ev
                = some ([(env.latchIdx, v)], ev) := by
              simp [migrateIncomingsGo, hlc, hpar, hdom]
            rw [hcomp] at hstep
            have h1 := Option.some.inj hstep
            have hfst := congrArg Prod.fst h1
            simp only at hfst
            injection hfst with hhead htl
            injection hhead with hb1 hv1
            rw [hv1]
            exact hdiss _ (List.mem_append_right _ (by simp))
          · intro d hpar hdom
            by_cases hr1 : env.headerIdx ≤ d
            case neg =>
              have hcomp : migrateIncomingsGo env exitId [(b, v)] ev = none := by
                simp [migrateIncomingsGo, hlc, hpar, hdom, hr1]
              rw [hcomp] at hstep
              exact Option.noConfusion hstep
            by_cases hr2 : d ≤ env.latchIdx
            case neg =>
              have hcomp : migrateIncomingsGo env exitId [(b, v)] ev = none := by
                simp [migrateIncomingsGo, hlc, hpar, hdom, hr1, hr2]
              rw [hcomp] at hstep
              exact Option.noConfusion hstep
            cases hpromo : promoteDefinition env.preds d env.latchIdx with
            | none =>
              have hcomp : migrateIncomingsGo env exitId [(b, v)] ev = none := by
                simp [migrateIncomingsGo, hlc, hpar, hdom, hr1, hr2, hpromo]
              rw [hcomp] at hstep
              exact Option.noConfusion hstep
            | some pv =>
              have hcomp : migrateIncomingsGo env exitId [(b, v)] ev
                  = some ([(env.latchIdx, promoToNVal v pv)],
                          ev ++ [(v, d, env.latchIdx)]) := by
                simp [migrateIncomingsGo, hlc, hpar, hdom, hr1, hr2, hpromo]
              rw [hcomp] at hstep
              have h1 := Option.some.inj hstep
              have hsnd := congrArg Prod.snd h1
              simp only at hsnd
              refine hev _ ?_
              rw [← hsnd]
              exact List.mem_append_right _ (by simp)

/-- C7 amended: the migration loop of convertToSingleExitLoop moves no
closed-SSA phi into the single exit relay block; every phi of every old
exit block is dissolved in place — its uses are replaced by its first
incoming value and the phi is erased.  A phi whose incoming value is a
constant or global (not an instruction) is dropped to that single incoming
value unrepaired; an incoming instruction first has its incoming block
rewired to the latch and, when its defining block does not dominate the
exit block (the code tests the exit block, not the latch), promoteDefinition
is invoked from its def index to the latch index. -/
theorem C7_migration_dissolves_in_place (env : MigrateEnv) (relayRef : BlockRef)
    (e : ExitBlockRec) (ev : List PromoEvent) (diss : List (Nat × NVal))
    (e2 : ExitBlockRec) (ev2 : List PromoEvent) (diss2 : List (Nat × NVal))
    (hnr : (BlockRef.real e.blockId == relayRef) = false)
    (h : migrateExitBlock env relayRef e ev diss = some (e2, ev2, diss2)) :
    e2.phis = [] ∧ e2.blockId = e.blockId
    ∧ (∀ phi, phi ∈ e.phis → ∀ b v, phi.incoming = [(b, v)] →
        (env.instParentOf v = none → (phi.id, v) ∈ diss2)
        ∧ (∀ d, env.instParentOf v = some d → env.dominates d e.blockId = true →
            (phi.id, v) ∈ diss2)
        ∧ (∀ d, env.instParentOf v = some d → env.dominates d e.blockId = false →
            (v, d, env.latchIdx) ∈ ev2)) := by
  unfold migrateExitBlock at h
  split at h
  case isTrue hT => rw [hnr] at hT; exact Bool.noConfusion hT
  case isFalse =>
    split at h
    case h_1 => exact absurd h (by simp)
    case h_2 evX dissX hgo =>
      simp only [Option.some.injEq, Prod.mk.injEq] at h
      obtain ⟨h1, h2, h3⟩ := h
      subst h2; subst h3
      obtain ⟨_, _, hphi⟩ := migratePhisGo_spec env e.blockId e.phis ev diss evX dissX hgo
      rw [← h1]
      exact ⟨rfl, rfl, hphi⟩

/-- C7 witness: the amended theorem evaluated on the counterexample
instance; phi 21 (tracker state, defined in the latch which dominates the
exit) and phi 22 (instruction 8 defined in block 2, also dominating the
exit) are both dissolved into the recorded replacements. -/
theorem C7_migration_dissolves_in_place_witness :
    ({ exitE with phis := [] } : ExitBlockRec).phis = []
    ∧ ({ exitE with phis := [] } : ExitBlockRec).blockId = exitE.blockId
    ∧ (∀ phi, phi ∈ exitE.phis → ∀ b v, phi.incoming = [(b, v)] →
        (mig1.instParentOf v = none →
          (phi.id, v) ∈ [(21, migSel), (22, NVal.inst 8)])
        ∧ (∀ d, mig1.instParentOf v = some d → mig1.dominates d exitE.blockId = true →
            (phi.id, v) ∈ [(21, migSel), (22, NVal.inst 8)])
        ∧ (∀ d, mig1.instParentOf v = some d → mig1.dominates d exitE.blockId = false →
            (v, d, mig1.latchIdx) ∈ ([] : List PromoEvent))) :=
  C7_migration_dissolves_in_place mig1 (BlockRef.relay 4) exitE [] []
    { exitE with phis := [] } [] [(21, migSel), (22, NVal.inst 8)]
    (by decide) (by decide)


/-! ## convertToSingleExitLoop (Linearizer.cpp)

Terminators, per-block terminator and terminator-shape maps (latest binding
first), the module's reduction functions, and the relay chain.  The relay
chain operations are not part of the sources (Linearizer.h is missing), so
they are modelled from the spec. -/

inductive Term where
  | ret : Term
  | unreachable : Term
  | br (succ : BlockRef) : Term
  | condbr (cond : NVal) (succT succF : BlockRef) : Term
deriving DecidableEq

def termSuccessors : Term → List BlockRef
  | .ret => []
  | .unreachable => []
  | .br s => [s]
  | .condbr _ t f => [t, f]

/-- a finite map as an association list; the most recent binding wins. -/
def getAssoc {α : Type} (l : List (Nat × α)) (k : Nat) : Option α :=
  (l.find? (fun p => p.fst == k)).map (fun p => p.snd)

def setAssoc {α : Type} (l : List (Nat × α)) (k : Nat) (v : α) : List (Nat × α) :=
  (k, v) :: l

theorem getAssoc_setAssoc_self {α : Type} (l : List (Nat × α)) (k : Nat) (v : α) :
    getAssoc (setAssoc l k v) k = some v := by
  simp [getAssoc, setAssoc, List.find?]

/-- Modelled from the spec: relay chains (section 4.D.2) are ordered linked
lists of relay nodes by ascending target id; addTargetToRelay inserts a new
target keeping the order (no duplicates) and yields the resulting chain,
whose first node is where branches must converge; each node's relay block
is the fresh empty block for its id.  Linearizer.h, which implements the
chain, is not among the sources. -/
def addTargetToRelay (chain : List Nat) (id : Nat) : List Nat :=
  match chain with
  | [] => [id]
  | t :: rest =>
    if id < t then id :: t :: rest
    else if id = t then t :: rest
    else t :: addTargetToRelay rest id

theorem addTargetToRelay_mem (l : List Nat) (id x : Nat) :
    x ∈ addTargetToRelay l id ↔ x ∈ l ∨ x = id := by
  induction l with
  | nil => simp [addTargetToRelay]
  | cons t rest ih =>
    simp only [addTargetToRelay]
    by_cases h1 : id < t
    · simp only [if_pos h1, List.mem_cons]
      constructor
      · rintro (rfl | h) 
        · exact Or.inr rfl
        · exact Or.inl h
      · rintro (h | rfl)
        · exact Or.inr h
        · exact Or.inl rfl
    · simp only [if_neg h1]
      by_cases h2 : id = t
      · rw [if_pos h2]
        constructor
        · exact fun h => Or.inl h
        · rintro (h | rfl)
          · exact h
          · rw [h2]; exact List.mem_cons_self t rest
      · simp only [if_neg h2, List.mem_cons, ih]
        constructor
        · rintro (rfl | h | rfl)
          · exact Or.inl (Or.inl rfl)
          · exact Or.inl (Or.inr h)
          · exact Or.inr rfl
        · rintro ((rfl | h) | rfl)
          · exact Or.inl rfl
          · exact Or.inr (Or.inl h)
          · exact Or.inr (Or.inr rfl)

theorem addTargetToRelay_pairwise (l : List Nat) (id : Nat)
    (h : List.Pairwise (· < ·) l) :
    List.Pairwise (· < ·) (addTargetToRelay l id) := by
  induction l with
  | nil => simp [addTargetToRelay]
  | cons t rest ih =>
    rw [List.pairwise_cons] at h
    obtain ⟨hlt, hrest⟩ := h
    simp only [addTargetToRelay]
    by_cases h1 : id < t
    · rw [if_pos h1, List.pairwise_cons]
      refine ⟨?_, by rw [List.pairwise_cons]; exact ⟨hlt, hrest⟩⟩
      intro x hx
      cases List.mem_cons.mp hx with
      | inl hxe => rw [hxe]; exact h1
      | inr hxr => exact Nat.lt_trans h1 (hlt x hxr)
    · rw [if_neg h1]
      by_cases h2 : id = t
      · rw [if_pos h2, List.pairwise_cons]
        exact ⟨hlt, hrest⟩
      · rw [if_neg h2, List.pairwise_cons]
        refine ⟨?_, ih hrest⟩
        intro x hx
        cases (addTargetToRelay_mem rest id x).mp hx with
        | inl hxr => exact hlt x hxr
        | inr hxe =>
          rw [hxe]
          exact Nat.lt_of_le_of_ne (Nat.le_of_not_lt h1) (fun he => h2 he.symm)

/-- an external reduction function declaration with its attributes. -/
structure RedFn where
  name : String
  noMem : Bool
  noThrow : Bool
  convergent : Bool
  noRecurse : Bool
deriving DecidableEq

/-- Linearizer::requestReductionFunc (Linearizer.cpp): reuse an existing
declaration of that name, otherwise create an external i1 → i1 function
marked no-access-memory, no-throw, convergent, no-recurse. -/
def requestReductionFunc (funcs : List RedFn) (name : String) : RedFn × List RedFn :=
  match funcs.find? (fun f => f.name == name) with
  | some f => (f, funcs)
  | none =>
    let f : RedFn := ⟨name, true, true, true, true⟩
    (f, funcs ++ [f])

/-- the mutable state of the linearizer around convertToSingleExitLoop. -/
structure LinState where
  terms : List (Nat × Term)
  termShapes : List (Nat × VectorShape)
  latchInsts : List (String × NVal)
  track : TrackState
  uses : List UseRec
  funcs : List RedFn
  loopDivergent : Bool
  maskUpdates : List (Nat × NVal × NVal)
  promoEvents : List PromoEvent
  dissolved : List (Nat × NVal)
deriving DecidableEq

/-- Linearizer::createReduction (Linearizer.cpp): request the reduction
function and append a call to it at the end of the block, with shape
uniform. -/
def createReduction (st : LinState) (pred : NVal) (name : String) : NVal × LinState :=
  let r := requestReductionFunc st.funcs name
  let call := NVal.anyCall pred
  (call, { st with
             funcs := r.2,
             latchInsts := st.latchInsts ++ [(name, call)],
             track := { st.track with
                          shapes := st.track.shapes ++ [(call, VectorShape.uni 1)] } })

/-- Linearizer::dropLoopExit (Linearizer.cpp): replace the multi-successor
terminator of an in-loop exiting block by an unconditional branch to its
first in-loop successor, marked uniform. -/
def dropLoopExit (lc : Nat → Bool) (st : LinState) (blockId : Nat) :
    Option LinState :=
  match getAssoc st.terms blockId with
  | none => none
  | some term =>
    if (termSuccessors term).length ≤ 1 then none
    else
      match (termSuccessors term).find? (fun r =>
          match r with
          | BlockRef.real b => lc b
          | BlockRef.relay _ => false) with
      | none => none
      | some succ =>
        some { st with
                 terms := setAssoc st.terms blockId (Term.br succ),
                 termShapes := setAssoc st.termShapes blockId (VectorShape.uni 1) }

def dropAllLoopExits (lc : Nat → Bool) : List Nat → LinState → Option LinState
  | [], st => some st
  | b :: rest, st =>
    match dropLoopExit lc st b with
    | none => none
    | some st2 => dropAllLoopExits lc rest st2

/-- the loop environment of convertToSingleExitLoop: loop structure, mask
analysis queries, and the migration environment. -/
structure LoopEnv where
  headerId : Nat
  latchId : Nat
  preHeaderId : Nat
  loopContains : Nat → Bool
  instParent : Nat → Nat
  innermostIsThisLoop : Nat → Bool
  exitBlocksList : List ExitBlockRec
  exitingBlocksList : List Nat
  combinedMask : NVal
  exitMaskEdge : Nat → Nat → NVal
  migEnv : MigrateEnv

/-- the exit-collection loop of convertToSingleExitLoop: append every exit
block to the relay chain and, for exits whose exiting block sits at this
loop level, track the live-outs. -/
def collectLoopExits (env : LoopEnv) :
    List ExitBlockRec → List Nat → TrackState → List UseRec →
    Option (List Nat × List ExitBlockRec × TrackState × List UseRec)
  | [], chain, ts, uses => some (chain, [], ts, uses)
  | e :: rest, chain, ts, uses =>
    let chain2 := addTargetToRelay chain e.blockId
    match e.predList.find? (fun p => env.loopContains p) with
    | none => none
    | some exiting =>
      if env.innermostIsThisLoop exiting then
        match trackLiveOuts env.loopContains env.instParent env.combinedMask e uses ts with
        | none => none
        | some (ts2, e2, uses2) =>
          match collectLoopExits env rest chain2 ts2 uses2 with
          | none => none
          | some (chainF, restF, tsF, usesF) => some (chainF, e2 :: restF, tsF, usesF)
      else
        match collectLoopExits env rest chain2 ts uses with
        | none => none
        | some (chainF, restF, tsF, usesF) => some (chainF, e :: restF, tsF, usesF)

def migrateAllExits (menv : MigrateEnv) (relayRef : BlockRef) :
    List ExitBlockRec → List PromoEvent → List (Nat × NVal) →
    Option (List ExitBlockRec × List PromoEvent × List (Nat × NVal))
  | [], ev, diss => some ([], ev, diss)
  | e :: rest, ev, diss =>
    match migrateExitBlock menv relayRef e ev diss with
    | none => none
    | some (e2, ev2, diss2) =>
      match migrateAllExits menv relayRef rest ev2 diss2 with
      | none => none
      | some (restF, evF, dissF) => some (e2 :: restF, evF, dissF)

/-- Linearizer::convertToSingleExitLoop (Linearizer.cpp): schedule all exit
blocks on the relay chain while tracking live-outs, dissolve the old LCSSA
phis, drop every loop-exiting edge, then delete the latch terminator, read
the live mask (exit mask of the latch→header edge), call rv_any on it at
the latch and branch on the result: true to the header, false to the relay
block of the exit chain's first node; the branch is uniform and the loop's
divergent flag is cleared.  An empty final chain would dereference a null
loopExitRelay. -/
def convertToSingleExitLoop (env : LoopEnv) (exitRelay : List Nat) (st : LinState) :
    Option (LinState × List Nat) :=
  match collectLoopExits env env.exitBlocksList exitRelay st.track st.uses with
  | none => none
  | some (chain2, exits2, ts2, uses2) =>
    match chain2 with
    | [] => none
    | relayHead :: chainRest =>
      let st2 : LinState := { st with track := ts2, uses := uses2 }
      match migrateAllExits env.migEnv (BlockRef.relay relayHead) exits2
          st2.promoEvents st2.dissolved with
      | none => none
      | some (_, evF, dissF) =>
        let st3 : LinState := { st2 with promoEvents := evF, dissolved := dissF }
        match dropAllLoopExits env.loopContains env.exitingBlocksList st3 with
        | none => none
        | some st4 =>
          let liveCond := env.exitMaskEdge env.latchId env.headerId
          match getAssoc st4.terms env.latchId with
          | none => none
          | some latchTerm =>
            if (termSuccessors latchTerm).length == 1 then
              let r := createReduction st4 liveCond "rv_any"
              let branch := Term.condbr r.1 (BlockRef.real env.headerId)
                  (BlockRef.relay relayHead)
              some ({ r.2 with
                        terms := setAssoc r.2.terms env.latchId branch,
                        termShapes := setAssoc r.2.termShapes env.latchId
                          (VectorShape.uni 1),
                        loopDivergent := false,
                        maskUpdates := r.2.maskUpdates
                          ++ [(env.latchId, r.1, env.combinedMask)] },
                    relayHead :: chainRest)
            else none


theorem collectLoopExits_chain_sorted (env : LoopEnv) :
    ∀ (exits : List ExitBlockRec) (chain : List Nat) (ts : TrackState)
      (uses : List UseRec) (r : List Nat × List ExitBlockRec × TrackState × List UseRec),
    collectLoopExits env exits chain ts uses = some r →
    List.Pairwise (· < ·) chain → List.Pairwise (· < ·) r.1 := by
  intro exits
  induction exits with
  | nil =>
    intro chain ts uses r h hs
    simp only [collectLoopExits, Option.some.injEq] at h
    rw [← h]
    exact hs
  | cons e rest ih =>
    intro chain ts uses r h hs
    simp only [collectLoopExits] at h
    split at h
    case h_1 => exact absurd h (by simp)
    case h_2 exiting hex =>
      split at h
      case isTrue =>
        split at h
        case h_1 => exact absurd h (by simp)
        case h_2 ts2 e2 uses2 htr =>
          split at h
          case h_1 => exact absurd h (by simp)
          case h_2 chainF restF tsF usesF hrec =>
            simp only [Option.some.injEq] at h
            rw [← h]
            exact ih _ ts2 uses2 (chainF, restF, tsF, usesF) hrec
              (addTargetToRelay_pairwise chain e.blockId hs)
      case isFalse =>
        split at h
        case h_1 => exact absurd h (by simp)
        case h_2 chainF restF tsF usesF hrec =>
          simp only [Option.some.injEq] at h
          rw [← h]
          exact ih _ ts uses (chainF, restF, tsF, usesF) hrec
            (addTargetToRelay_pairwise chain e.blockId hs)

/-- C3: on a divergent loop, convertToSingleExitLoop deletes the latch's
single-successor terminator, reads the live mask (the exit mask of the
latch→header edge), inserts a call to the reduction function rv_any on that
mask at the end of the latch, and creates a conditional branch on the
call's result whose true successor is the header and whose false successor
is the relay block of the first (least-id) node of the exit chain; the new
branch gets uniform shape and the loop's divergent flag is cleared; the
rv_any declaration exists in the module and the latch's exit masks are
updated with the call and the combined loop-exit mask. -/
theorem C3_convertToSingleExitLoop_latch_exit (env : LoopEnv) (exitRelay : List Nat)
    (st st2 : LinState) (chainOut : List Nat)
    (_hdiv : st.loopDivergent = true)
    (hsorted : List.Pairwise (· < ·) exitRelay)
    (h : convertToSingleExitLoop env exitRelay st = some (st2, chainOut)) :
    ∃ c0 rest2, chainOut = c0 :: rest2
    ∧ getAssoc st2.terms env.latchId
        = some (Term.condbr (NVal.anyCall (env.exitMaskEdge env.latchId env.headerId))
            (BlockRef.real env.headerId) (BlockRef.relay c0))
    ∧ (∀ t, t ∈ chainOut → c0 ≤ t)
    ∧ ("rv_any", NVal.anyCall (env.exitMaskEdge env.latchId env.headerId)) ∈ st2.latchInsts
    ∧ (NVal.anyCall (env.exitMaskEdge env.latchId env.headerId), VectorShape.uni 1)
        ∈ st2.track.shapes
    ∧ getAssoc st2.termShapes env.latchId = some (VectorShape.uni 1)
    ∧ st2.loopDivergent = false
    ∧ (∃ f, f ∈ st2.funcs ∧ f.name = "rv_any")
    ∧ (env.latchId, NVal.anyCall (env.exitMaskEdge env.latchId env.headerId),
        env.combinedMask) ∈ st2.maskUpdates := by
  unfold convertToSingleExitLoop at h
  split at h
  case h_1 => exact absurd h (by simp)
  case h_2 chain2 exits2 ts2 uses2 hcol =>
    split at h
    case h_1 => exact absurd h (by simp)
    case h_2 relayHead chainRest =>
      simp only [] at h
      split at h
      case h_1 => exact absurd h (by simp)
      case h_2 exitsF evF dissF hmig =>
        split at h
        case h_1 => exact absurd h (by simp)
        case h_2 st4 hdropped =>
          split at h
          case h_1 => exact absurd h (by simp)
          case h_2 latchTerm hlatch =>
            split at h
            case isFalse => exact absurd h (by simp)
            case isTrue hone =>
              simp only [Option.some.injEq, Prod.mk.injEq] at h
              obtain ⟨hst, hchain⟩ := h
              refine ⟨relayHead, chainRest, hchain.symm, ?_, ?_, ?_, ?_, ?_, ?_, ?_, ?_⟩
              · rw [← hst]
                exact getAssoc_setAssoc_self _ _ _
              · intro t ht
                rw [← hchain] at ht
                have hsort2 : List.Pairwise (· < ·) (relayHead :: chainRest) :=
                  collectLoopExits_chain_sorted env env.exitBlocksList exitRelay
                    st.track st.uses (relayHead :: chainRest, exits2, ts2, uses2)
                    hcol hsorted
                rw [List.pairwise_cons] at hsort2
                cases List.mem_cons.mp ht with
                | inl he => rw [he]
                | inr hr => exact Nat.le_of_lt (hsort2.1 t hr)
              · rw [← hst]
                simp only [createReduction]
                exact List.mem_append_right _ (by simp)
              · rw [← hst]
                simp only [createReduction]
                exact List.mem_append_right _ (by simp)
              · rw [← hst]
                exact getAssoc_setAssoc_self _ _ _
              · rw [← hst]
              · rw [← hst]
                simp only []
                cases hfind : st4.funcs.find? (fun f => f.name == "rv_any") with
                | some f =>
                  refine ⟨f, ?_, ?_⟩
                  · simp only [createReduction, requestReductionFunc, hfind]
                    exact List.mem_of_find?_eq_some hfind
                  · have hp := List.find?_some hfind
                    exact eq_of_beq hp
                | none =>
                  refine ⟨⟨"rv_any", true, true, true, true⟩, ?_, rfl⟩
                  simp only [createReduction, requestReductionFunc, hfind]
                  exact List.mem_append_right _ (by simp)
              · rw [← hst]
                simp only [createReduction]
                exact List.mem_append_right _ (by simp)


/-- the migration environment of the concrete conversion scenario (the
single exit block carries no phis). -/
def c3Mig : MigrateEnv :=
  { loopContains := fun b => b == 1 || b == 2,
    instParentOf := fun _ => none,
    dominates := fun _ _ => true,
    preds := lineCfg,
    headerIdx := 1,
    latchIdx := 2 }

/-- a two-block divergent loop (header 1, latch 2, pre-header 0) with a
single exit from the header to block 3. -/
def c3Env : LoopEnv :=
  { headerId := 1, latchId := 2, preHeaderId := 0,
    loopContains := fun b => b == 1 || b == 2,
    instParent := fun _ => 0,
    innermostIsThisLoop := fun b => b == 1,
    exitBlocksList := [⟨3, [1], [], false⟩],
    exitingBlocksList := [1],
    combinedMask := NVal.maskV 8,
    exitMaskEdge := fun a b => NVal.maskV (10 * a + b),
    migEnv := c3Mig }

/-- the pre-conversion state of the concrete scenario: the header exits
conditionally to block 3 and the latch branches back to the header. -/
def c3St : LinState :=
  { terms := [(1, Term.condbr (NVal.inst 0) (BlockRef.real 2) (BlockRef.real 3)),
              (2, Term.br (BlockRef.real 1))],
    termShapes := [(1, VectorShape.varying 1)],
    latchInsts := [], track := ⟨[], [], []⟩, uses := [], funcs := [],
    loopDivergent := true, maskUpdates := [], promoEvents := [], dissolved := [] }

/-- the state convertToSingleExitLoop produces on the concrete scenario. -/
def c3Out : LinState :=
  { terms := [(2, Term.condbr (NVal.anyCall (NVal.maskV 21)) (BlockRef.real 1)
                  (BlockRef.relay 3)),
              (1, Term.br (BlockRef.real 2)),
              (1, Term.condbr (NVal.inst 0) (BlockRef.real 2) (BlockRef.real 3)),
              (2, Term.br (BlockRef.real 1))],
    termShapes := [(2, VectorShape.uni 1), (1, VectorShape.uni 1),
                   (1, VectorShape.varying 1)],
    latchInsts := [("rv_any", NVal.anyCall (NVal.maskV 21))],
    track := ⟨[], [], [(NVal.anyCall (NVal.maskV 21), VectorShape.uni 1)]⟩,
    uses := [], funcs := [⟨"rv_any", true, true, true, true⟩],
    loopDivergent := false,
    maskUpdates := [(2, NVal.anyCall (NVal.maskV 21), NVal.maskV 8)],
    promoEvents := [], dissolved := [] }

/-- C3 witness: the theorem evaluated on the concrete two-block divergent
loop; the latch ends in condbr(rv_any(exit mask of edge 2→1), header 1,
relay 3) with uniform shape, and the divergent flag is cleared. -/
theorem C3_convertToSingleExitLoop_latch_exit_witness :
    ∃ c0 rest2, ([3] : List Nat) = c0 :: rest2
    ∧ getAssoc c3Out.terms c3Env.latchId
        = some (Term.condbr
            (NVal.anyCall (c3Env.exitMaskEdge c3Env.latchId c3Env.headerId))
            (BlockRef.real c3Env.headerId) (BlockRef.relay c0))
    ∧ (∀ t, t ∈ ([3] : List Nat) → c0 ≤ t)
    ∧ ("rv_any", NVal.anyCall (c3Env.exitMaskEdge c3Env.latchId c3Env.headerId))
        ∈ c3Out.latchInsts
    ∧ (NVal.anyCall (c3Env.exitMaskEdge c3Env.latchId c3Env.headerId),
        VectorShape.uni 1) ∈ c3Out.track.shapes
    ∧ getAssoc c3Out.termShapes c3Env.latchId = some (VectorShape.uni 1)
    ∧ c3Out.loopDivergent = false
    ∧ (∃ f, f ∈ c3Out.funcs ∧ f.name = "rv_any")
    ∧ (c3Env.latchId, NVal.anyCall (c3Env.exitMaskEdge c3Env.latchId c3Env.headerId),
        c3Env.combinedMask) ∈ c3Out.maskUpdates :=
  C3_convertToSingleExitLoop_latch_exit c3Env [] c3St c3Out [3] rfl
    List.Pairwise.nil (by decide)


/-! ## The linearizer run loop (Linearizer.cpp)

For claim C1 the observable state is the projection of the IR onto
per-block terminators, their vector shapes, and the per-loop divergence
flags: that is exactly what needsFolding(TerminatorInst) inspects.  Block
emission (emitBlock), phi folding and undef-input insertion move or create
non-terminator instructions and rewire branch targets between relay blocks
and real blocks; none of them changes a terminator's kind or shape, so on
this projection they are the identity.  processBranch's successor relaying
likewise only retargets branch operands.  The live mask and relay target of
a converted loop latch are inputs here (they are produced by the mask
analysis and the relay chain, modelled in full for claim C3); they do not
bear on terminator divergence. -/

/-- the loop data the linearizer reads from LoopInfo: header and latch
topological indices, the loop's blocks and its exiting blocks. -/
structure RunLoop where
  header : Nat
  latch : Nat
  blockList : List Nat
  exitingList : List Nat
deriving DecidableEq

/-- the per-region inputs of run(): the number of in-region blocks, the
loops, the innermost-loop map (by block index), and the mask-analysis and
relay-chain inputs of a divergent-loop conversion. -/
structure RunEnv where
  numBlocks : Nat
  loops : List RunLoop
  loopOfList : List (Option Nat)
  liveMask : Nat → NVal
  loopExitRef : Nat → BlockRef

def loopOf (env : RunEnv) (b : Nat) : Option Nat :=
  env.loopOfList.getD b none

/-- the mutable projection: terminators, terminator shapes, and the
divergent-loop flags of the vectorization info. -/
structure RunState where
  terms : List (Nat × Term)
  termShapes : List (Nat × VectorShape)
  divFlags : List (Nat × Bool)
deriving DecidableEq

/-- vecInfo.isDivergentLoop: unset flags read as non-divergent. -/
def divFlagOf (st : RunState) (l : Nat) : Bool :=
  (getAssoc st.divFlags l).getD false

/-- vecInfo.getVectorShape on a terminator: undef when unknown (callers
must not treat undef as uniform). -/
def termShapeAt (st : RunState) (b : Nat) : VectorShape :=
  (getAssoc st.termShapes b).getD VectorShape.undef

/-- Linearizer::needsFolding(TerminatorInst) (Linearizer.cpp): returns and
unreachables never fold, unconditional branches never fold, and a
conditional branch folds unless its shape is uniform. -/
def needsFoldingT : Term → VectorShape → Bool
  | Term.ret, _ => false
  | Term.unreachable, _ => false
  | Term.br _, _ => false
  | Term.condbr _ _ _, sh => !sh.isUniform

/-- needsFolding of the terminator of block b; none when b has no
terminator. -/
def needsFoldingAt (st : RunState) (b : Nat) : Option Bool :=
  (getAssoc st.terms b).map (fun t => needsFoldingT t (termShapeAt st b))

/-- Linearizer::processBranch (Linearizer.cpp) on the projection: control
sinks return immediately; an unconditional branch is relayed (targets
only); a conditional branch is relayed, its dominator link repaired, and
finally marked non-divergent with VectorShape::uni(). -/
def processBranchSkel (st : RunState) (b : Nat) : Option RunState :=
  match getAssoc st.terms b with
  | none => none
  | some t =>
    match t with
    | Term.ret => some st
    | Term.unreachable => some st
    | Term.br _ => some st
    | Term.condbr _ _ _ =>
      some { st with termShapes := setAssoc st.termShapes b (VectorShape.uni 1) }

/-- Linearizer::dropLoopExit on the projection: the multi-successor
terminator of an exiting block becomes an unconditional uniform branch to
its first in-loop successor. -/
def dropLoopExitRun (blockList : List Nat) (st : RunState) (b : Nat) :
    Option RunState :=
  match getAssoc st.terms b with
  | none => none
  | some t =>
    if (termSuccessors t).length ≤ 1 then none
    else
      match (termSuccessors t).find? (fun r =>
          match r with
          | BlockRef.real x => blockList.contains x
          | BlockRef.relay _ => false) with
      | none => none
      | some succ =>
        some { st with
                 terms := setAssoc st.terms b (Term.br succ),
                 termShapes := setAssoc st.termShapes b (VectorShape.uni 1) }

def dropAllLoopExitsRun (blockList : List Nat) : List Nat → RunState → Option RunState
  | [], st => some st
  | b :: rest, st =>
    match dropLoopExitRun blockList st b with
    | none => none
    | some st2 => dropAllLoopExitsRun blockList rest st2

/-- Linearizer::convertToSingleExitLoop on the projection: drop every
loop-exiting terminator, then replace the latch's single-successor
terminator by a conditional branch on rv_any(live mask) — header if true,
the loop exit relay if false — marked uniform, and clear the loop's
divergent flag. -/
def convertLoopSkel (env : RunEnv) (lid : Nat) (L : RunLoop) (st : RunState) :
    Option RunState :=
  match dropAllLoopExitsRun L.blockList L.exitingList st with
  | none => none
  | some st2 =>
    match getAssoc st2.terms L.latch with
    | none => none
    | some latchTerm =>
      if (termSuccessors latchTerm).length == 1 then
        some { st2 with
                 terms := setAssoc st2.terms L.latch
                   (Term.condbr (NVal.anyCall (env.liveMask lid))
                     (BlockRef.real L.header) (env.loopExitRef lid)),
                 termShapes := setAssoc st2.termShapes L.latch (VectorShape.uni 1),
                 divFlags := setAssoc st2.divFlags lid false }
      else none

/-- Linearizer::processRange / processBlock / processLoop (Linearizer.cpp)
on the projection, fuelled: a block whose innermost loop is the parent is
emitted, its phis folded and its branch processed; a block opening a new
loop is that loop's header (asserted), the loop is converted when flagged
divergent, its body [header, latch) is processed with the loop as parent,
the latch and the header are re-emitted without processing the latch's
branch, and the walk continues after the latch. -/
def processRangeSkel (env : RunEnv) : Nat → Nat → Nat → Option Nat → RunState → Option RunState
  | 0, s, e, _, st => if e ≤ s then some st else none
  | fuel + 1, s, e, p, st =>
    if e ≤ s then some st
    else
      if loopOf env s = p then
        match processBranchSkel st s with
        | none => none
        | some st2 => processRangeSkel env fuel (s + 1) e p st2
      else
        match loopOf env s with
        | none => none
        | some l =>
          match env.loops.get? l with
          | none => none
          | some L =>
            if L.header == s then
              match (if divFlagOf st l then convertLoopSkel env l L st else some st) with
              | none => none
              | some st1 =>
                match processRangeSkel env fuel s L.latch (some l) st1 with
                | none => none
                | some st2 => processRangeSkel env fuel (L.latch + 1) e p st2
            else none

/-- Linearizer::cleanup (Linearizer.cpp) on one block: a terminator with
more than one successor, all equal, becomes an unconditional uniform
branch. -/
def cleanupBlock (st : RunState) (b : Nat) : RunState :=
  match getAssoc st.terms b with
  | some (Term.condbr _ t f) =>
    if t == f then
      { st with terms := setAssoc st.terms b (Term.br t),
                termShapes := setAssoc st.termShapes b (VectorShape.uni 1) }
    else st
  | _ => st

def cleanupSkel (env : RunEnv) (st : RunState) : RunState :=
  (List.range env.numBlocks).foldl cleanupBlock st

/-- Linearizer::run (Linearizer.cpp) on the projection: build and verify
the block index (no terminator changes), return unchanged on regions of at
most one block, otherwise linearize control and clean up. -/
def runSkel (env : RunEnv) (fuel : Nat) (st : RunState) : Option RunState :=
  if env.numBlocks ≤ 1 then some st
  else
    match processRangeSkel env fuel 0 env.numBlocks none st with
    | none => none
    | some st2 => some (cleanupSkel env st2)


/-- block b's terminator exists and needs no folding. -/
def Good (st : RunState) (b : Nat) : Prop := needsFoldingAt st b = some false

instance (st : RunState) (b : Nat) : Decidable (Good st b) :=
  inferInstanceAs (Decidable (needsFoldingAt st b = some false))

theorem getAssoc_setAssoc_ne {α : Type} (l : List (Nat × α)) (k k2 : Nat) (v : α)
    (h : k2 ≠ k) : getAssoc (setAssoc l k v) k2 = getAssoc l k2 := by
  have hb : (k == k2) = false := beq_eq_false_iff_ne.mpr (Ne.symm h)
  simp [getAssoc, setAssoc, List.find?, hb]

theorem Good_of_agree (st st2 : RunState) (j : Nat)
    (ht : getAssoc st2.terms j = getAssoc st.terms j)
    (hs : getAssoc st2.termShapes j = getAssoc st.termShapes j)
    (hg : Good st j) : Good st2 j := by
  unfold Good needsFoldingAt termShapeAt at hg ⊢
  rw [ht, hs]
  exact hg

/-- no unset divergence flag may hide a divergent latch terminator: the
divergence analysis flags every loop whose latch branch is non-uniform
(a varying latch exit varies the trip count).  This is the analysis-side
invariant the linearizer trusts when it skips processBranch on latches. -/
def LatchInv (env : RunEnv) (st : RunState) : Prop :=
  ∀ l L, env.loops.get? l = some L → divFlagOf st l = false → Good st L.latch

theorem processBranchSkel_good (st st2 : RunState) (b : Nat)
    (h : processBranchSkel st b = some st2) :
    Good st2 b ∧ (∀ j, Good st j → Good st2 j) ∧ st2.divFlags = st.divFlags := by
  unfold processBranchSkel at h
  split at h
  case h_1 => exact absurd h (by simp)
  case h_2 t hterm =>
    match t, h with
    | Term.ret, h =>
      have hst := Option.some.inj h
      subst hst
      exact ⟨by unfold Good needsFoldingAt; rw [hterm]; rfl, fun j hj => hj, rfl⟩
    | Term.unreachable, h =>
      have hst := Option.some.inj h
      subst hst
      exact ⟨by unfold Good needsFoldingAt; rw [hterm]; rfl, fun j hj => hj, rfl⟩
    | Term.br s1, h =>
      have hst := Option.some.inj h
      subst hst
      exact ⟨by unfold Good needsFoldingAt; rw [hterm]; rfl, fun j hj => hj, rfl⟩
    | Term.condbr c t1 f1, h =>
      have hst := Option.some.inj h
      subst hst
      refine ⟨?_, ?_, rfl⟩
      · unfold Good needsFoldingAt termShapeAt
        simp only []
        rw [hterm, getAssoc_setAssoc_self]
        rfl
      · intro j hj
        by_cases hjb : j = b
        · subst hjb
          unfold Good needsFoldingAt termShapeAt
          simp only []
          rw [hterm, getAssoc_setAssoc_self]
          rfl
        · exact Good_of_agree st _ j rfl (getAssoc_setAssoc_ne _ _ _ _ hjb) hj

theorem LatchInv_transfer (env : RunEnv) (st st2 : RunState)
    (hd : ∀ l, divFlagOf st2 l = divFlagOf st l)
    (hp : ∀ j, Good st j → Good st2 j) (hL : LatchInv env st) : LatchInv env st2 := by
  intro l L hl hf
  rw [hd l] at hf
  exact hp _ (hL l L hl hf)

theorem dropLoopExitRun_good (bl : List Nat) (st st2 : RunState) (b : Nat)
    (h : dropLoopExitRun bl st b = some st2) :
    Good st2 b ∧ (∀ j, Good st j → Good st2 j) ∧ st2.divFlags = st.divFlags := by
  unfold dropLoopExitRun at h
  split at h
  case h_1 => exact absurd h (by simp)
  case h_2 t hterm =>
    split at h
    case isTrue => exact absurd h (by simp)
    case isFalse =>
      split at h
      case h_1 => exact absurd h (by simp)
      case h_2 succ hsucc =>
        have hst := Option.some.inj h
        subst hst
        refine ⟨?_, ?_, rfl⟩
        · unfold Good needsFoldingAt
          simp only []
          rw [getAssoc_setAssoc_self]
          rfl
        · intro j hj
          by_cases hjb : j = b
          · subst hjb
            unfold Good needsFoldingAt
            simp only []
            rw [getAssoc_setAssoc_self]
            rfl
          · exact Good_of_agree st _ j (getAssoc_setAssoc_ne _ _ _ _ hjb)
              (getAssoc_setAssoc_ne _ _ _ _ hjb) hj

theorem dropAllLoopExitsRun_good (bl : List Nat) :
    ∀ (bs : List Nat) (st st2 : RunState),
    dropAllLoopExitsRun bl bs st = some st2 →
    (∀ j, Good st j → Good st2 j) ∧ st2.divFlags = st.divFlags := by
  intro bs
  induction bs with
  | nil =>
    intro st st2 h
    have hst := Option.some.inj (by simpa [dropAllLoopExitsRun] using h)
    subst hst
    exact ⟨fun j hj => hj, rfl⟩
  | cons b rest ih =>
    intro st st2 h
    simp only [dropAllLoopExitsRun] at h
    split at h
    case h_1 => exact absurd h (by simp)
    case h_2 stm hdrop =>
      obtain ⟨hg, hp, hd⟩ := dropLoopExitRun_good bl st stm b hdrop
      obtain ⟨hp2, hd2⟩ := ih stm st2 h
      exact ⟨fun j hj => hp2 j (hp j hj), by rw [hd2, hd]⟩

theorem convertLoopSkel_good (env : RunEnv) (lid : Nat) (L : RunLoop)
    (st st2 : RunState) (h : convertLoopSkel env lid L st = some st2) :
    Good st2 L.latch ∧ (∀ j, Good st j → Good st2 j)
    ∧ (∀ l, l ≠ lid → divFlagOf st2 l = divFlagOf st l)
    ∧ divFlagOf st2 lid = false := by
  unfold convertLoopSkel at h
  split at h
  case h_1 => exact absurd h (by simp)
  case h_2 stm hdrop =>
    split at h
    case h_1 => exact absurd h (by simp)
    case h_2 latchTerm hlatch =>
      split at h
      case isFalse => exact absurd h (by simp)
      case isTrue hone =>
        have hst := Option.some.inj h
        subst hst
        obtain ⟨hp1, hd1⟩ := dropAllLoopExitsRun_good L.blockList L.exitingList st stm hdrop
        refine ⟨?_, ?_, ?_, ?_⟩
        · unfold Good needsFoldingAt termShapeAt
          simp only []
          rw [getAssoc_setAssoc_self, getAssoc_setAssoc_self]
          rfl
        · intro j hj
          by_cases hjb : j = L.latch
          · subst hjb
            unfold Good needsFoldingAt termShapeAt
            simp only []
            rw [getAssoc_setAssoc_self, getAssoc_setAssoc_self]
            rfl
          · exact Good_of_agree stm _ j (getAssoc_setAssoc_ne _ _ _ _ hjb)
              (getAssoc_setAssoc_ne _ _ _ _ hjb) (hp1 j hj)
        · intro l hl
          unfold divFlagOf
          simp only []
          rw [getAssoc_setAssoc_ne _ _ _ _ hl]
          rw [← hd1]
        · unfold divFlagOf
          simp only []
          rw [getAssoc_setAssoc_self]
          rfl

/-- the loop-nest layout of the range [s, e) as processRange walks it: each
position either belongs to the parent directly or opens a loop whose body
is the contiguous range up to its latch (the layout buildBlockIndex
establishes and verifyBlockIndex asserts). -/
inductive RangeOK (env : RunEnv) : Nat → Nat → Option Nat → Prop where
  | done (s e : Nat) (p : Option Nat) : e ≤ s → RangeOK env s e p
  | direct (s e : Nat) (p : Option Nat) : s < e → loopOf env s = p →
      RangeOK env (s + 1) e p → RangeOK env s e p
  | intoLoop (s e : Nat) (p : Option Nat) (l : Nat) (L : RunLoop) :
      s < e → loopOf env s = some l → some l ≠ p →
      env.loops.get? l = some L → L.header = s →
      s ≤ L.latch → L.latch < e →
      RangeOK env s L.latch (some l) →
      RangeOK env (L.latch + 1) e p →
      RangeOK env s e p


theorem processRangeSkel_good (env : RunEnv) :
    ∀ (fuel s e : Nat) (p : Option Nat) (st st2 : RunState),
    processRangeSkel env fuel s e p st = some st2 →
    LatchInv env st →
    RangeOK env s e p →
    (∀ j, Good st j → Good st2 j) ∧ (∀ i, s ≤ i → i < e → Good st2 i)
    ∧ LatchInv env st2 := by
  intro fuel
  induction fuel with
  | zero =>
    intro s e p st st2 h hL _
    simp only [processRangeSkel] at h
    split at h
    case isTrue hse =>
      have hst := Option.some.inj h
      subst hst
      exact ⟨fun j hj => hj, fun i hsi hie => absurd (Nat.lt_of_le_of_lt hsi hie)
        (Nat.not_lt.mpr hse), hL⟩
    case isFalse => exact absurd h (by simp)
  | succ fuel ih =>
    intro s e p st st2 h hL hR
    simp only [processRangeSkel] at h
    split at h
    case isTrue hse =>
      have hst := Option.some.inj h
      subst hst
      exact ⟨fun j hj => hj, fun i hsi hie => absurd (Nat.lt_of_le_of_lt hsi hie)
        (Nat.not_lt.mpr hse), hL⟩
    case isFalse hse =>
      have hslt : s < e := Nat.lt_of_not_le (fun hle => hse (by omega))
      cases hR with
      | done _ _ _ hdone => exact absurd (Nat.lt_of_lt_of_le hslt hdone) (Nat.lt_irrefl s)
      | direct _ _ _ _ hloop hsub =>
        rw [if_pos hloop] at h
        split at h
        case h_1 => exact absurd h (by simp)
        case h_2 stb hpb =>
          obtain ⟨hgb, hpres, hflags⟩ := processBranchSkel_good st stb s hpb
          have hLb : LatchInv env stb :=
            LatchInv_transfer env st stb
              (fun l => by unfold divFlagOf; rw [hflags]) hpres hL
          obtain ⟨hp2, hcov2, hL2⟩ := ih (s + 1) e p stb st2 h hLb hsub
          refine ⟨fun j hj => hp2 j (hpres j hj), ?_, hL2⟩
          intro i hsi hie
          rcases Nat.eq_or_lt_of_le hsi with heq | hlt
          · rw [← heq]; exact hp2 s hgb
          · exact hcov2 i hlt hie
      | intoLoop _ _ _ l L _ hloop hne hgetl hhead hsl hle hinner htail =>
        rw [if_neg (by rw [hloop]; exact fun hc => hne hc)] at h
        rw [hloop] at h
        simp only [] at h
        rw [hgetl] at h
        simp only [] at h
        rw [if_pos (by rw [hhead]; simp)] at h
        have hconv : ∃ st1, (if divFlagOf st l then convertLoopSkel env l L st
            else some st) = some st1 ∧ Good st1 L.latch
            ∧ (∀ j, Good st j → Good st1 j) ∧ LatchInv env st1 := by
          cases hd : divFlagOf st l with
          | false =>
            exact ⟨st, rfl, hL l L hgetl hd, fun j hj => hj, hL⟩
          | true =>
            cases hc : convertLoopSkel env l L st with
            | none =>
              rw [hd, hc] at h
              exact absurd h (by simp)
            | some st1 =>
              obtain ⟨hg1, hp1, hfl, hfll⟩ := convertLoopSkel_good env l L st st1 hc
              refine ⟨st1, rfl, hg1, hp1, ?_⟩
              intro l2 L2 hl2 hf2
              by_cases hll : l2 = l
              · subst hll
                rw [hgetl] at hl2
                have : L2 = L := (Option.some.inj hl2).symm
                subst this
                exact hg1
              · rw [hfl l2 hll] at hf2
                exact hp1 _ (hL l2 L2 hl2 hf2)
        obtain ⟨st1, hst1, hg1, hp1, hL1⟩ := hconv
        rw [hst1] at h
        simp only [] at h
        split at h
        case h_1 => exact absurd h (by simp)
        case h_2 stm hm =>
          obtain ⟨hpm, hcovm, hLm⟩ := ih s L.latch (some l) st1 stm hm hL1 hinner
          obtain ⟨hpt, hcovt, hLt⟩ := ih (L.latch + 1) e p stm st2 h hLm htail
          refine ⟨fun j hj => hpt j (hpm j (hp1 j hj)), ?_, hLt⟩
          intro i hsi hie
          by_cases hi1 : i < L.latch
          · exact hpt i (hcovm i hsi hi1)
          · by_cases hi2 : i = L.latch
            · subst hi2
              exact hpt _ (hpm _ hg1)
            · exact hcovt i (by omega) hie

theorem cleanupBlock_good (st : RunState) (b : Nat) :
    ∀ j, Good st j → Good (cleanupBlock st b) j := by
  intro j hj
  unfold cleanupBlock
  split
  case h_1 c t f hterm =>
    split
    case isTrue =>
      by_cases hjb : j = b
      · subst hjb
        unfold Good needsFoldingAt
        simp only []
        rw [getAssoc_setAssoc_self]
        rfl
      · exact Good_of_agree st _ j (getAssoc_setAssoc_ne _ _ _ _ hjb)
          (getAssoc_setAssoc_ne _ _ _ _ hjb) hj
    case isFalse => exact hj
  case h_2 => exact hj

theorem cleanupFold_good (st : RunState) (bs : List Nat) :
    ∀ j, Good st j → Good (bs.foldl cleanupBlock st) j := by
  induction bs generalizing st with
  | nil => intro j hj; exact hj
  | cons b rest ih =>
    intro j hj
    exact ih (cleanupBlock st b) j (cleanupBlock_good st b j hj)

/-- C1 amended: after run() on a region of at least two blocks, provided
the layout of the topological index is loop-structured (RangeOK, what
buildBlockIndex establishes and verifyBlockIndex asserts) and the analysis
invariant holds that every loop left unflagged as divergent has a
non-divergent latch terminator (LatchInv), every in-region block's
terminator satisfies needsFolding = false. -/
theorem C1_run_no_divergent_terminators (env : RunEnv) (fuel : Nat)
    (st st2 : RunState)
    (h2 : 2 ≤ env.numBlocks)
    (hR : RangeOK env 0 env.numBlocks none)
    (hL : LatchInv env st)
    (h : runSkel env fuel st = some st2) :
    ∀ i, i < env.numBlocks → Good st2 i := by
  unfold runSkel at h
  rw [if_neg (by omega)] at h
  split at h
  case h_1 => exact absurd h (by simp)
  case h_2 stm hm =>
    have hst2 := Option.some.inj h
    intro i hi
    obtain ⟨_, hcov, _⟩ := processRangeSkel_good env fuel 0 env.numBlocks none st stm hm hL hR
    rw [← hst2]
    exact cleanupFold_good stm (List.range env.numBlocks) i (hcov i (Nat.zero_le i) hi)


/-- a one-block region whose block ends in a varying conditional branch. -/
def env1 : RunEnv :=
  ⟨1, [], [none], fun _ => NVal.maskV 0, fun _ => BlockRef.relay 0⟩

def st1 : RunState :=
  ⟨[(0, Term.condbr (NVal.inst 0) (BlockRef.real 1) (BlockRef.real 2))],
   [(0, VectorShape.varying 1)], []⟩

/-- a three-block region: entry 0, then the non-divergent loop {1, 2} with
header 1; its latch 2 ends in a varying conditional branch (header or
exit), which the analysis left unflagged. -/
def env3 : RunEnv :=
  ⟨3, [⟨1, 2, [1, 2], []⟩], [none, some 0, some 0],
   fun _ => NVal.maskV 0, fun _ => BlockRef.relay 3⟩

def st3 : RunState :=
  ⟨[(0, Term.br (BlockRef.real 1)), (1, Term.br (BlockRef.real 2)),
    (2, Term.condbr (NVal.inst 7) (BlockRef.real 1) (BlockRef.real 3))],
   [(2, VectorShape.varying 1)], []⟩

/-- C1 counterexample: run() is not guaranteed to leave every in-region
terminator non-divergent.  (a) On a one-block region run() returns before
linearizing (getNumBlocks() <= 1), leaving the block's varying conditional
untouched.  (b) On a larger region, the latch of a loop the analysis did
not flag divergent is emitted without processBranch (processLoop skips the
latch), so its varying conditional survives the whole run. -/
theorem C1_run_counterexample :
    runSkel env1 5 st1 = some st1
    ∧ needsFoldingAt st1 0 = some true
    ∧ runSkel env3 10 st3 = some st3
    ∧ needsFoldingAt st3 2 = some true := by
  refine ⟨by decide, by decide, by decide, by decide⟩

/-- the witness region: entry 0, divergent loop {1, 2} (header 1, latch 2,
exiting block 1), exit relay 3. -/
def envW : RunEnv :=
  ⟨3, [⟨1, 2, [1, 2], [1]⟩], [none, some 0, some 0],
   fun _ => NVal.maskV 5, fun _ => BlockRef.relay 3⟩

def stW : RunState :=
  ⟨[(0, Term.br (BlockRef.real 1)),
    (1, Term.condbr (NVal.inst 1) (BlockRef.real 2) (BlockRef.real 3)),
    (2, Term.br (BlockRef.real 1))],
   [(1, VectorShape.varying 1)], [(0, true)]⟩

/-- the state run() produces on the witness region: the loop is converted
(exit dropped, latch turned into the uniform rv_any branch). -/
def stWOut : RunState :=
  ⟨[(2, Term.condbr (NVal.anyCall (NVal.maskV 5)) (BlockRef.real 1) (BlockRef.relay 3)),
    (1, Term.br (BlockRef.real 2)),
    (0, Term.br (BlockRef.real 1)),
    (1, Term.condbr (NVal.inst 1) (BlockRef.real 2) (BlockRef.real 3)),
    (2, Term.br (BlockRef.real 1))],
   [(2, VectorShape.uni 1), (1, VectorShape.uni 1), (1, VectorShape.varying 1)],
   [(0, false), (0, true)]⟩

/-- C1 witness: the amended theorem evaluated on the three-block divergent
loop region; afterwards no terminator needs folding. -/
theorem C1_run_no_divergent_terminators_witness :
    Good stWOut 0 ∧ Good stWOut 1 ∧ Good stWOut 2 :=
  have h := C1_run_no_divergent_terminators envW 10 stW stWOut (by decide)
    (RangeOK.direct 0 3 none (by decide) rfl
      (RangeOK.intoLoop 1 3 none 0 ⟨1, 2, [1, 2], [1]⟩ (by decide) rfl
        (by decide) rfl rfl (by decide) (by decide)
        (RangeOK.direct 1 2 (some 0) (by decide) rfl
          (RangeOK.done 2 2 (some 0) (by decide)))
        (RangeOK.done 3 3 none (by decide))))
    (by
      intro l L hl hf
      match l, hl with
      | 0, hl => exact absurd hf (by decide)
      | Nat.succ n, hl => exact Option.noConfusion hl)
    (by decide)
  ⟨h 0 (by decide), h 1 (by decide), h 2 (by decide)⟩


end RV

namespace RV

/-! ## Claim theorems for the self-contained components -/

/-- C9: decodeShape does not implement the published grammar for strided
shapes.  The grammar puts the optional alignment suffix after the stride
digits, so S2a4 should be Strided(2) with alignment 4; the source calls
decodeAlignment before reading the stride digits, so S2a4 decodes to
Strided(2) with alignment 1 and leaves a4 unconsumed.  The plain forms the
claim lists (S<k>, U/C/T with suffix, B) do hold. -/
theorem C9_decodeShape_strided_alignment :
    decodeShape ("S2a4".toList) = some (VectorShape.strided 2 1, "a4".toList)
    ∧ (decodeShape ("S2a4".toList)).map (fun r => r.fst)
        ≠ some (VectorShape.strided 2 4)
    ∧ decodeShape ("S3".toList) = some (VectorShape.strided 3 1, [])
    ∧ decodeShape ("Ua8".toList) = some (VectorShape.uni 8, [])
    ∧ decodeShape ("Ca2".toList) = some (VectorShape.cont 2, [])
    ∧ decodeShape ("Ta16".toList) = some (VectorShape.varying 16, [])
    ∧ decodeShape ("B".toList) = some (VectorShape.undef, []) := by
  refine ⟨by decide, by decide, by decide, by decide, by decide, by decide, by decide⟩

/-- C10: knownAllFalse misses masks whose predicate is the constant false.
Mask::inferFromPredicate on the i1 false constant yields the mask with
predicate false and no AVL; its predicate is a null constant, yet
knownAllFalse returns false because the second test inspects getAVL() (a
null pointer here) instead of getPred() as its own comment states.  The
intended test would return true. -/
theorem C10_knownAllFalse_constant_false_predicate :
    Mask.inferFromPredicate (LLVMVal.constBool false)
        = { Predicate := some (LLVMVal.constBool false), ActiveVectorLength := none }
    ∧ isConstantVal (LLVMVal.constBool false) = true
    ∧ isNullVal (LLVMVal.constBool false) = true
    ∧ Mask.knownAllFalse (Mask.inferFromPredicate (LLVMVal.constBool false)) = false
    ∧ Mask.knownAllFalseIntended
        (Mask.inferFromPredicate (LLVMVal.constBool false)) = true := by
  refine ⟨by decide, by decide, by decide, by decide, by decide⟩

/-- C5: promoteDefinition with defBlockId < destBlockId overruns its defs
vector.  The source sets span = destBlockId - defBlockId + 1 and sizes defs
with span entries (indices 0..span-1), yet iterates i = 1..span, writing
defs[span] for the block destBlockId + 1 (outside the claimed range) and
returning *defs[span]; both accesses are out of bounds, modelled as none.
Only the defBlockId = destBlockId case returns the value unchanged. -/
theorem C5_promoteDefinition_defs_overrun :
    promoteDefinition lineCfg 0 0 = some PVal.base
    ∧ promoteDefinition lineCfg 0 1 = none
    ∧ promoteDefinition lineCfg 0 2 = none
    ∧ promoteDefinition lineCfg 3 5 = none := by
  refine ⟨by decide, by decide, by decide, by decide⟩

end RV

namespace RV

/-! ## buildBlockIndex (Linearizer.cpp lines 42-143)

The machine below embeds Linearizer::buildBlockIndex.  The in-region
blocks are 0 .. numB-1, in function iteration order; preds lists the
in-region predecessors of a block (the inRegion filter of the source is
absorbed into preds).  Loops are 0 .. numLoops-1; loopOfB is
li.getLoopFor (the innermost loop of a block), loopMem is Loop::contains
(transitive containment), loopHeader and loopLatch are getHeader and
getLoopLatch.  latchChain is well-formedness data: a backward predecessor
chain from the latch to each loop member, witnessing that every block of a
natural loop reaches the latch inside the loop. -/

structure BIGraph where
  numB : Nat
  numLoops : Nat
  preds : Nat → List Nat
  loopOfB : Nat → Option Nat
  loopHeader : Nat → Nat
  loopLatch : Nat → Nat
  loopMem : Nat → Nat → Bool
  latchChain : Nat → Nat → List Nat

/-- blockIndex is the map block id to topological id (latest binding wins),
nRelays is relays.size(), stack is the DFS worklist with its head on top,
pushedLoops is the pushedLoops set. -/
structure BIState where
  blockIndex : List (Nat × Nat)
  nRelays : Nat
  stack : List Nat
  pushedLoops : List Nat
deriving DecidableEq

def lookA (st : BIState) (b : Nat) : Option Nat := getAssoc st.blockIndex b

def indexedB (st : BIState) (b : Nat) : Bool := (lookA st b).isSome

/-- Linearizer::addToBlockIndex: assign the next id (relays.size()). -/
def addToBlockIndex (st : BIState) (b : Nat) : BIState :=
  { st with blockIndex := setAssoc st.blockIndex b st.nRelays,
            nRelays := st.nRelays + 1 }

/-- the filterLoop of the dependency scan: set only when the block is the
header of its innermost loop (lines 104-107). -/
def filterLoopOf (G : BIGraph) (b : Nat) : Option Nat :=
  match G.loopOfB b with
  | some l => if G.loopHeader l == b then some l else none
  | none => none

/-- the predecessors the dependency scan actually considers: all in-region
preds, minus the loop-carried ones when looking at a loop header. -/
def unfilteredPreds (G : BIGraph) (b : Nat) : List Nat :=
  match filterLoopOf G b with
  | some l => (G.preds b).filter (fun p => !G.loopMem l p)
  | none => G.preds b

/-- the header predecessors pushed at loop registration (lines 87-97):
in-region, outside the loop, not yet indexed; reversed because the last
one pushed ends on top of the stack. -/
def regPushes (G : BIGraph) (st : BIState) (l : Nat) : List Nat :=
  ((G.preds (G.loopHeader l)).filter
    (fun p => !G.loopMem l p && !indexedB st p)).reverse

/-- the unindexed unfiltered predecessors of b: the blocks the dependency
scan pushes, empty exactly when allDone holds. -/
def wantOf (G : BIGraph) (st : BIState) (b : Nat) : List Nat :=
  (unfilteredPreds G b).filter (fun p => !indexedB st p)

/-- the dependency scan (lines 103-140) for the unindexed top block b over
rest: index b when all unfiltered preds are indexed (then push the latch
when b is a loop header and the latch is still unindexed), otherwise push
the unindexed preds on top of b. -/
def depStep (G : BIGraph) (st : BIState) (b : Nat) (rest : List Nat) : BIState :=
  if wantOf G st b = [] then
    match filterLoopOf G b with
    | some l =>
        if indexedB (addToBlockIndex { st with stack := rest } b) (G.loopLatch l) then
          addToBlockIndex { st with stack := rest } b
        else
          { addToBlockIndex { st with stack := rest } b with
            stack := G.loopLatch l :: rest }
    | none => addToBlockIndex { st with stack := rest } b
  else { st with stack := (wantOf G st b).reverse ++ b :: rest }

/-- one iteration of the while (!stack.empty()) body (lines 68-141), given
stack = b :: rest: pop an indexed top; register a first-seen loop (drop b,
push the latch, then the header entry preds on top); otherwise run the
dependency scan. -/
def whileStep (G : BIGraph) (st : BIState) (b : Nat) (rest : List Nat) : BIState :=
  if indexedB st b then { st with stack := rest }
  else
    match G.loopOfB b with
    | some l =>
        if l ∈ st.pushedLoops then depStep G st b rest
        else
          { st with
            stack := regPushes G st l ++ G.loopLatch l :: rest,
            pushedLoops := l :: st.pushedLoops }
    | none => depStep G st b rest

/-- the while loop, fuelled; none when fuel runs out before the stack
empties. -/
def runWhile (G : BIGraph) : Nat → BIState → Option BIState
  | 0, st => match st.stack with | [] => some st | _ :: _ => none
  | fuel + 1, st =>
      match st.stack with
      | [] => some st
      | b :: rest => runWhile G fuel (whileStep G st b rest)

/-- one iteration of the outer for (auto and block : func) loop: skip an
indexed seed, otherwise push it and run the while loop. -/
def seedStep (G : BIGraph) (fuel : Nat) (st : BIState) (b : Nat) : Option BIState :=
  if indexedB st b then some st
  else runWhile G fuel { st with stack := [b] }

def buildGo (G : BIGraph) (fuel : Nat) : List Nat → BIState → Option BIState
  | [], st => some st
  | b :: bs, st =>
      match seedStep G fuel st b with
      | some st2 => buildGo G fuel bs st2
      | none => none

def initSt : BIState :=
  { blockIndex := [], nRelays := 0, stack := [], pushedLoops := [] }

/-- Linearizer::buildBlockIndex. -/
def buildBlockIndex (G : BIGraph) (fuel : Nat) : Option BIState :=
  buildGo G fuel (List.range G.numB) initSt

/-! ### well-formedness of the input: canonical (LoopSimplify) loop forests -/

/-- the member set of loop a is included in that of loop b. -/
def subLoop (G : BIGraph) (a b : Nat) : Prop :=
  ∀ x, x < G.numB → G.loopMem a x = true → G.loopMem b x = true

instance (G : BIGraph) (a b : Nat) : Decidable (subLoop G a b) :=
  Nat.decidableBallLT G.numB (fun x _ => G.loopMem a x = true → G.loopMem b x = true)

def consecPreds (G : BIGraph) : List Nat → Bool
  | [] => true
  | [_] => true
  | q :: q2 :: qs => (G.preds q).contains q2 && consecPreds G (q2 :: qs)

/-- qs is a backward predecessor chain from the latch of l down to b that
stays inside l. -/
def latchChainOK (G : BIGraph) (l b : Nat) (qs : List Nat) : Bool :=
  (match qs with | [] => false | q :: _ => q == G.loopLatch l)
  && (qs.getLast? == some b)
  && consecPreds G qs
  && qs.all (fun q => G.loopMem l q)

/-- the canonical-input assumptions buildBlockIndex relies on (the source
comment at line 57 concedes divergence on non-canonical loops): in-region
preds are in-region blocks; loop ids, headers, latches are in range; the
header and the latch of a loop have that loop as their innermost loop (with
LoopSimplify dedicated exits the latch of a loop cannot sit in a nested
subloop); innermost loops are contained in every containing loop; a loop is
entered only through its header; the only in-loop predecessor of a header
is the latch (single backedge); a loop that does not cover the whole region
has an entry predecessor outside the loop; every non-header member has an
in-loop predecessor; distinct loops are separated by a header; every member
has a backward in-loop predecessor chain from the latch. -/
structure WFG (G : BIGraph) : Prop where
  predB : ∀ b, b < G.numB → ∀ p ∈ G.preds b, p < G.numB
  loopOfLt : ∀ b, b < G.numB →
    ((G.loopOfB b).all (fun l => decide (l < G.numLoops))) = true
  hlLt : ∀ l, l < G.numLoops → G.loopHeader l < G.numB ∧ G.loopLatch l < G.numB
  headerInner : ∀ l, l < G.numLoops → G.loopOfB (G.loopHeader l) = some l
  latchInner : ∀ l, l < G.numLoops → G.loopOfB (G.loopLatch l) = some l
  innerMem : ∀ b, b < G.numB →
    ((G.loopOfB b).all (fun l => G.loopMem l b)) = true
  innerMin : ∀ b, b < G.numB → ∀ l, l < G.numLoops → G.loopMem l b = true →
    ((G.loopOfB b).elim false (fun lb =>
      decide (∀ x, x < G.numB → G.loopMem lb x = true → G.loopMem l x = true))) = true
  entry : ∀ l, l < G.numLoops → ∀ b, b < G.numB → G.loopMem l b = true →
    b ≠ G.loopHeader l → ∀ p ∈ G.preds b, G.loopMem l p = true
  backedge : ∀ l, l < G.numLoops →
    ∀ p ∈ G.preds (G.loopHeader l), G.loopMem l p = true → p = G.loopLatch l
  preEntry : ∀ l, l < G.numLoops →
    ((List.range G.numB).any (fun b => !G.loopMem l b)) = true →
    ((G.preds (G.loopHeader l)).any (fun p => !G.loopMem l p)) = true
  inLoopPred : ∀ l, l < G.numLoops → ∀ b, b < G.numB → G.loopMem l b = true →
    b ≠ G.loopHeader l → ((G.preds b).any (fun p => G.loopMem l p)) = true
  strict : ∀ l, l < G.numLoops → ∀ l2, l2 < G.numLoops → l ≠ l2 →
    G.loopMem l (G.loopHeader l2) = false ∨ G.loopMem l2 (G.loopHeader l) = false
  chains : ∀ l, l < G.numLoops → ∀ b, b < G.numB → G.loopMem l b = true →
    latchChainOK G l b (G.latchChain l b) = true

theorem wf_loopOf_lt {G : BIGraph} (hwf : WFG G) {b l : Nat} (hb : b < G.numB)
    (h : G.loopOfB b = some l) : l < G.numLoops := by
  have h2 := hwf.loopOfLt b hb
  rw [h] at h2
  simpa using h2

theorem wf_innerMem {G : BIGraph} (hwf : WFG G) {b l : Nat} (hb : b < G.numB)
    (h : G.loopOfB b = some l) : G.loopMem l b = true := by
  have h2 := hwf.innerMem b hb
  rw [h] at h2
  simpa using h2

theorem wf_innerMin {G : BIGraph} (hwf : WFG G) {b l lb : Nat} (hb : b < G.numB)
    (hl : l < G.numLoops) (hm : G.loopMem l b = true) (hlb : G.loopOfB b = some lb) :
    subLoop G lb l := by
  have h2 := hwf.innerMin b hb l hl hm
  rw [hlb] at h2
  simp only [Option.elim] at h2
  exact of_decide_eq_true h2

theorem wf_mem_hasInner {G : BIGraph} (hwf : WFG G) {b l : Nat} (hb : b < G.numB)
    (hl : l < G.numLoops) (hm : G.loopMem l b = true) :
    ∃ lb, G.loopOfB b = some lb := by
  have h2 := hwf.innerMin b hb l hl hm
  cases hc : G.loopOfB b with
  | none => rw [hc] at h2; simp [Option.elim] at h2
  | some lb => exact ⟨lb, rfl⟩

/-! ### basic state lemmas -/

theorem lookA_stack (st : BIState) (s : List Nat) (b : Nat) :
    lookA { st with stack := s } b = lookA st b := rfl

theorem lookA_add_self (st : BIState) (b : Nat) :
    lookA (addToBlockIndex st b) b = some st.nRelays :=
  getAssoc_setAssoc_self _ _ _

theorem lookA_add_ne (st : BIState) (b b2 : Nat) (h : b2 ≠ b) :
    lookA (addToBlockIndex st b) b2 = lookA st b2 :=
  getAssoc_setAssoc_ne _ _ _ _ h

theorem lookA_add_mono (st : BIState) (b b2 : Nat) (i : Nat)
    (hb : indexedB st b = false) (h : lookA st b2 = some i) :
    lookA (addToBlockIndex st b) b2 = some i := by
  rcases eq_or_ne b2 b with rfl | hne
  · rw [indexedB, h] at hb; simp at hb
  · rw [lookA_add_ne st b b2 hne]; exact h

theorem indexedB_add_mono (st : BIState) (b b2 : Nat)
    (hb : indexedB st b = false) (h : indexedB st b2 = true) :
    indexedB (addToBlockIndex st b) b2 = true := by
  rw [indexedB, Option.isSome_iff_exists] at h ⊢
  obtain ⟨i, hi⟩ := h
  exact ⟨i, lookA_add_mono st b b2 i hb hi⟩

/-! ### case equations for depStep and whileStep -/

theorem depStep_push (G : BIGraph) (st : BIState) (b : Nat) (rest : List Nat)
    (hw : wantOf G st b ≠ []) :
    depStep G st b rest = { st with stack := (wantOf G st b).reverse ++ b :: rest } := by
  unfold depStep; rw [if_neg hw]

theorem depStep_idx_none (G : BIGraph) (st : BIState) (b : Nat) (rest : List Nat)
    (hw : wantOf G st b = []) (hf : filterLoopOf G b = none) :
    depStep G st b rest = addToBlockIndex { st with stack := rest } b := by
  unfold depStep; rw [if_pos hw, hf]

theorem depStep_idx_skip (G : BIGraph) (st : BIState) (b : Nat) (rest : List Nat)
    (l : Nat) (hw : wantOf G st b = []) (hf : filterLoopOf G b = some l)
    (hlatch : indexedB (addToBlockIndex { st with stack := rest } b) (G.loopLatch l) = true) :
    depStep G st b rest = addToBlockIndex { st with stack := rest } b := by
  unfold depStep; rw [if_pos hw, hf]; dsimp only; rw [if_pos hlatch]

theorem depStep_idx_pushlatch (G : BIGraph) (st : BIState) (b : Nat) (rest : List Nat)
    (l : Nat) (hw : wantOf G st b = []) (hf : filterLoopOf G b = some l)
    (hlatch : indexedB (addToBlockIndex { st with stack := rest } b) (G.loopLatch l) = false) :
    depStep G st b rest
      = { addToBlockIndex { st with stack := rest } b with
          stack := G.loopLatch l :: rest } := by
  unfold depStep; rw [if_pos hw, hf]; dsimp only
  rw [if_neg (by rw [hlatch]; exact Bool.false_ne_true)]

theorem whileStep_pop (G : BIGraph) (st : BIState) (b : Nat) (rest : List Nat)
    (h : indexedB st b = true) :
    whileStep G st b rest = { st with stack := rest } := by
  unfold whileStep; rw [if_pos h]

theorem whileStep_reg (G : BIGraph) (st : BIState) (b : Nat) (rest : List Nat) (l : Nat)
    (h : indexedB st b = false) (hl : G.loopOfB b = some l) (hnp : l ∉ st.pushedLoops) :
    whileStep G st b rest
      = { st with stack := regPushes G st l ++ G.loopLatch l :: rest,
                  pushedLoops := l :: st.pushedLoops } := by
  unfold whileStep
  rw [if_neg (by rw [h]; exact Bool.false_ne_true), hl]
  simp only [if_neg hnp]

theorem whileStep_dep_pushed (G : BIGraph) (st : BIState) (b : Nat) (rest : List Nat) (l : Nat)
    (h : indexedB st b = false) (hl : G.loopOfB b = some l) (hp : l ∈ st.pushedLoops) :
    whileStep G st b rest = depStep G st b rest := by
  unfold whileStep
  rw [if_neg (by rw [h]; exact Bool.false_ne_true), hl]
  simp only [if_pos hp]

theorem whileStep_dep_none (G : BIGraph) (st : BIState) (b : Nat) (rest : List Nat)
    (h : indexedB st b = false) (hl : G.loopOfB b = none) :
    whileStep G st b rest = depStep G st b rest := by
  unfold whileStep
  rw [if_neg (by rw [h]; exact Bool.false_ne_true), hl]

/-! ### monotonicity -/

theorem lookA_depStep_mono (G : BIGraph) (st : BIState) (b : Nat) (rest : List Nat)
    (b2 i : Nat) (hb : indexedB st b = false) (h : lookA st b2 = some i) :
    lookA (depStep G st b rest) b2 = some i := by
  by_cases hw : wantOf G st b = []
  · have hb2 : indexedB { st with stack := rest } b = false := hb
    have hmono : lookA (addToBlockIndex { st with stack := rest } b) b2 = some i :=
      lookA_add_mono _ b b2 i hb2 h
    cases hf : filterLoopOf G b with
    | none => rw [depStep_idx_none G st b rest hw hf]; exact hmono
    | some l =>
        cases hlatch : indexedB (addToBlockIndex { st with stack := rest } b) (G.loopLatch l) with
        | true => rw [depStep_idx_skip G st b rest l hw hf hlatch]; exact hmono
        | false => rw [depStep_idx_pushlatch G st b rest l hw hf hlatch]; exact hmono
  · rw [depStep_push G st b rest hw]; exact h

theorem lookA_whileStep_mono (G : BIGraph) (st : BIState) (b : Nat) (rest : List Nat)
    (b2 i : Nat) (h : lookA st b2 = some i) :
    lookA (whileStep G st b rest) b2 = some i := by
  cases hidx : indexedB st b with
  | true => rw [whileStep_pop G st b rest hidx]; exact h
  | false =>
      cases hl : G.loopOfB b with
      | none => rw [whileStep_dep_none G st b rest hidx hl]
                exact lookA_depStep_mono G st b rest b2 i hidx h
      | some l =>
          by_cases hp : l ∈ st.pushedLoops
          · rw [whileStep_dep_pushed G st b rest l hidx hl hp]
            exact lookA_depStep_mono G st b rest b2 i hidx h
          · rw [whileStep_reg G st b rest l hidx hl hp]; exact h

theorem pushed_depStep (G : BIGraph) (st : BIState) (b : Nat) (rest : List Nat) :
    (depStep G st b rest).pushedLoops = st.pushedLoops := by
  by_cases hw : wantOf G st b = []
  · cases hf : filterLoopOf G b with
    | none => rw [depStep_idx_none G st b rest hw hf]; rfl
    | some l =>
        cases hlatch : indexedB (addToBlockIndex { st with stack := rest } b) (G.loopLatch l) with
        | true => rw [depStep_idx_skip G st b rest l hw hf hlatch]; rfl
        | false => rw [depStep_idx_pushlatch G st b rest l hw hf hlatch]; rfl
  · rw [depStep_push G st b rest hw]

theorem pushed_whileStep_mono (G : BIGraph) (st : BIState) (b : Nat) (rest : List Nat)
    (l0 : Nat) (h : l0 ∈ st.pushedLoops) : l0 ∈ (whileStep G st b rest).pushedLoops := by
  cases hidx : indexedB st b with
  | true => rw [whileStep_pop G st b rest hidx]; exact h
  | false =>
      cases hl : G.loopOfB b with
      | none => rw [whileStep_dep_none G st b rest hidx hl, pushed_depStep]; exact h
      | some l =>
          by_cases hp : l ∈ st.pushedLoops
          · rw [whileStep_dep_pushed G st b rest l hidx hl hp, pushed_depStep]; exact h
          · rw [whileStep_reg G st b rest l hidx hl hp]; exact List.mem_cons_of_mem _ h

/-! ### run lemmas -/

theorem runWhile_stack_nil (G : BIGraph) :
    ∀ fuel st st2, runWhile G fuel st = some st2 → st2.stack = [] := by
  intro fuel
  induction fuel with
  | zero =>
      intro st st2 h
      unfold runWhile at h
      cases hs : st.stack with
      | nil => rw [hs] at h; cases h; exact hs
      | cons b rest => rw [hs] at h; cases h
  | succ n ih =>
      intro st st2 h
      unfold runWhile at h
      cases hs : st.stack with
      | nil => rw [hs] at h; cases h; exact hs
      | cons b rest => rw [hs] at h; exact ih _ _ h

theorem runWhile_ind (G : BIGraph) (P : BIState → Prop)
    (hstep : ∀ st b rest, st.stack = b :: rest → P st → P (whileStep G st b rest)) :
    ∀ fuel st st2, runWhile G fuel st = some st2 → P st → P st2 := by
  intro fuel
  induction fuel with
  | zero =>
      intro st st2 h hP
      unfold runWhile at h
      cases hs : st.stack with
      | nil => rw [hs] at h; cases h; exact hP
      | cons b rest => rw [hs] at h; cases h
  | succ n ih =>
      intro st st2 h hP
      unfold runWhile at h
      cases hs : st.stack with
      | nil => rw [hs] at h; cases h; exact hP
      | cons b rest => rw [hs] at h; exact ih _ _ h (hstep st b rest hs hP)

theorem lookA_runWhile_mono (G : BIGraph) (fuel : Nat) (st st2 : BIState)
    (b2 i : Nat) (h : runWhile G fuel st = some st2) (hl : lookA st b2 = some i) :
    lookA st2 b2 = some i :=
  runWhile_ind G (fun s => lookA s b2 = some i)
    (fun s b rest _ hP => lookA_whileStep_mono G s b rest b2 i hP) fuel st st2 h hl

theorem pushed_runWhile_mono (G : BIGraph) (fuel : Nat) (st st2 : BIState)
    (l0 : Nat) (h : runWhile G fuel st = some st2) (hl : l0 ∈ st.pushedLoops) :
    l0 ∈ st2.pushedLoops :=
  runWhile_ind G (fun s => l0 ∈ s.pushedLoops)
    (fun s b rest _ hP => pushed_whileStep_mono G s b rest l0 hP) fuel st st2 h hl

theorem lookA_buildGo_mono (G : BIGraph) (fuel : Nat) :
    ∀ bs st st2 b2 i, buildGo G fuel bs st = some st2 → lookA st b2 = some i →
      lookA st2 b2 = some i := by
  intro bs
  induction bs with
  | nil => intro st st2 b2 i h hl; cases h; exact hl
  | cons b bs ih =>
      intro st st2 b2 i h hl
      unfold buildGo at h
      cases hseed : seedStep G fuel st b with
      | none => rw [hseed] at h; cases h
      | some st1 =>
          rw [hseed] at h
          refine ih st1 st2 b2 i h ?_
          unfold seedStep at hseed
          by_cases hidx : indexedB st b = true
          · rw [if_pos hidx] at hseed; cases hseed; exact hl
          · rw [if_neg hidx] at hseed
            exact lookA_runWhile_mono G fuel _ st1 b2 i hseed hl

/-! ### every pushed block whose innermost loop is registered gets indexed -/

/-- the innermost loop of b is already registered (or b is in no loop):
then the registration drop can never remove b from the stack, so b leaves
the stack only by being indexed. -/
def regOrNone (G : BIGraph) (st : BIState) (b : Nat) : Prop :=
  match G.loopOfB b with
  | some l => l ∈ st.pushedLoops
  | none => True

theorem regOrNone_mono (G : BIGraph) (st st2 : BIState) (b : Nat)
    (hsub : ∀ l, l ∈ st.pushedLoops → l ∈ st2.pushedLoops)
    (h : regOrNone G st b) : regOrNone G st2 b := by
  unfold regOrNone at h ⊢
  cases hl : G.loopOfB b with
  | none => trivial
  | some l => rw [hl] at h; exact hsub l h

theorem indexedB_whileStep_mono (G : BIGraph) (st : BIState) (b : Nat) (rest : List Nat)
    (b2 : Nat) (h : indexedB st b2 = true) :
    indexedB (whileStep G st b rest) b2 = true := by
  rw [indexedB, Option.isSome_iff_exists] at h ⊢
  obtain ⟨i, hi⟩ := h
  exact ⟨i, lookA_whileStep_mono G st b rest b2 i hi⟩

theorem indexedB_depStep_self (G : BIGraph) (st : BIState) (b : Nat) (rest : List Nat)
    (hw : wantOf G st b = []) :
    indexedB (depStep G st b rest) b = true := by
  have hself : lookA (addToBlockIndex { st with stack := rest } b) b
      = some st.nRelays := lookA_add_self _ _
  cases hf : filterLoopOf G b with
  | none => rw [depStep_idx_none G st b rest hw hf, indexedB, hself]; rfl
  | some l2 =>
      cases hlatch : indexedB (addToBlockIndex { st with stack := rest } b)
          (G.loopLatch l2) with
      | true => rw [depStep_idx_skip G st b rest l2 hw hf hlatch, indexedB, hself]; rfl
      | false =>
          rw [depStep_idx_pushlatch G st b rest l2 hw hf hlatch]
          show (lookA (addToBlockIndex { st with stack := rest } b) b).isSome = true
          rw [hself]; rfl

theorem mem_depStep_stack (G : BIGraph) (st : BIState) (b : Nat) (rest : List Nat)
    (b0 : Nat) (hin : b0 ∈ rest) : b0 ∈ (depStep G st b rest).stack := by
  by_cases hw : wantOf G st b = []
  · cases hf : filterLoopOf G b with
    | none => rw [depStep_idx_none G st b rest hw hf]; exact hin
    | some l2 =>
        cases hlatch : indexedB (addToBlockIndex { st with stack := rest } b)
            (G.loopLatch l2) with
        | true => rw [depStep_idx_skip G st b rest l2 hw hf hlatch]; exact hin
        | false =>
            rw [depStep_idx_pushlatch G st b rest l2 hw hf hlatch]
            exact List.mem_cons_of_mem _ hin
  · rw [depStep_push G st b rest hw]
    exact List.mem_append_right _ (List.mem_cons_of_mem _ hin)

theorem stay_or_indexed_step (G : BIGraph) (st : BIState) (b : Nat) (rest : List Nat)
    (b0 : Nat) (hreg : regOrNone G st b0)
    (hS : b0 ∈ st.stack ∨ indexedB st b0 = true)
    (hstk : st.stack = b :: rest) :
    b0 ∈ (whileStep G st b rest).stack ∨ indexedB (whileStep G st b rest) b0 = true := by
  rcases hS with hin | hidx0
  · rw [hstk] at hin
    cases hidx : indexedB st b with
    | true =>
        rw [whileStep_pop G st b rest hidx]
        rcases List.mem_cons.mp hin with rfl | hin2
        · exact Or.inr hidx
        · exact Or.inl hin2
    | false =>
        have hdep : ∀ hrw : whileStep G st b rest = depStep G st b rest,
            b0 ∈ (whileStep G st b rest).stack
              ∨ indexedB (whileStep G st b rest) b0 = true := by
          intro hrw
          rw [hrw]
          by_cases hw : wantOf G st b = []
          · rcases List.mem_cons.mp hin with rfl | hin2
            · exact Or.inr (indexedB_depStep_self G st b0 rest hw)
            · exact Or.inl (mem_depStep_stack G st b rest b0 hin2)
          · rw [depStep_push G st b rest hw]
            rcases List.mem_cons.mp hin with rfl | hin2
            · exact Or.inl (List.mem_append_right _ (List.mem_cons_self _ _))
            · exact Or.inl (List.mem_append_right _ (List.mem_cons_of_mem _ hin2))
        cases hl : G.loopOfB b with
        | none => exact hdep (whileStep_dep_none G st b rest hidx hl)
        | some l =>
            by_cases hp : l ∈ st.pushedLoops
            · exact hdep (whileStep_dep_pushed G st b rest l hidx hl hp)
            · rw [whileStep_reg G st b rest l hidx hl hp]
              rcases List.mem_cons.mp hin with rfl | hin2
              · unfold regOrNone at hreg
                rw [hl] at hreg
                exact absurd hreg hp
              · exact Or.inl (List.mem_append_right _ (List.mem_cons_of_mem _ hin2))
  · exact Or.inr (indexedB_whileStep_mono G st b rest b0 hidx0)

theorem runWhile_indexes (G : BIGraph) (fuel : Nat) (st st2 : BIState) (b0 : Nat)
    (h : runWhile G fuel st = some st2) (hreg : regOrNone G st b0)
    (hin : b0 ∈ st.stack) : indexedB st2 b0 = true := by
  have hP : regOrNone G st2 b0 ∧ (b0 ∈ st2.stack ∨ indexedB st2 b0 = true) := by
    refine runWhile_ind G
      (fun s => regOrNone G s b0 ∧ (b0 ∈ s.stack ∨ indexedB s b0 = true)) ?_
      fuel st st2 h ⟨hreg, Or.inl hin⟩
    intro s b rest hs hPs
    exact ⟨regOrNone_mono G s _ b0 (fun l hl => pushed_whileStep_mono G s b rest l hl) hPs.1,
           stay_or_indexed_step G s b rest b0 hPs.1 hPs.2 hs⟩
  rcases hP.2 with hin2 | hidx
  · rw [runWhile_stack_nil G fuel st st2 h] at hin2
    cases hin2
  · exact hidx

theorem indexedB_buildGo_mono (G : BIGraph) (fuel : Nat) (bs : List Nat)
    (st st2 : BIState) (b2 : Nat) (h : buildGo G fuel bs st = some st2)
    (hl : indexedB st b2 = true) : indexedB st2 b2 = true := by
  rw [indexedB, Option.isSome_iff_exists] at hl ⊢
  obtain ⟨i, hi⟩ := hl
  exact ⟨i, lookA_buildGo_mono G fuel bs st st2 b2 i h hi⟩

theorem seedStep_covers (G : BIGraph) (hwf : WFG G) (fuel : Nat) (st st2 : BIState)
    (b : Nat) (hb : b < G.numB) (h : seedStep G fuel st b = some st2) :
    indexedB st2 b = true
    ∨ ∃ l, G.loopOfB b = some l ∧ indexedB st2 (G.loopLatch l) = true := by
  unfold seedStep at h
  by_cases hidx : indexedB st b = true
  · rw [if_pos hidx] at h
    cases h
    exact Or.inl hidx
  · rw [if_neg hidx] at h
    have hidxf : indexedB st b = false := Bool.not_eq_true _ ▸ Bool.of_not_eq_true hidx
    cases hl : G.loopOfB b with
    | none =>
        refine Or.inl (runWhile_indexes G fuel _ st2 b h ?_ (List.mem_singleton.mpr rfl))
        unfold regOrNone
        rw [hl]
        trivial
    | some l =>
        by_cases hp : l ∈ st.pushedLoops
        · refine Or.inl (runWhile_indexes G fuel _ st2 b h ?_ (List.mem_singleton.mpr rfl))
          unfold regOrNone
          rw [hl]
          exact hp
        · refine Or.inr ⟨l, rfl, ?_⟩
          cases fuel with
          | zero => unfold runWhile at h; cases h
          | succ n =>
              unfold runWhile at h
              simp only [] at h
              have hreg := whileStep_reg G { st with stack := [b] } b [] l hidxf hl hp
              rw [hreg] at h
              refine runWhile_indexes G n _ st2 (G.loopLatch l) h ?_ ?_
              · unfold regOrNone
                rw [hwf.latchInner l (wf_loopOf_lt hwf hb hl)]
                exact List.mem_cons_self _ _
              · exact List.mem_append_right _ (List.mem_cons_self _ _)

theorem buildGo_covers (G : BIGraph) (hwf : WFG G) (fuel : Nat) :
    ∀ bs st st2, buildGo G fuel bs st = some st2 →
      ∀ b ∈ bs, b < G.numB →
        indexedB st2 b = true
        ∨ ∃ l, G.loopOfB b = some l ∧ indexedB st2 (G.loopLatch l) = true := by
  intro bs
  induction bs with
  | nil => intro st st2 h b hbin; cases hbin
  | cons c bs ih =>
      intro st st2 h b hbin hb
      unfold buildGo at h
      cases hseed : seedStep G fuel st c with
      | none => rw [hseed] at h; cases h
      | some st1 =>
          rw [hseed] at h
          rcases List.mem_cons.mp hbin with rfl | hbin2
          · rcases seedStep_covers G hwf fuel st st1 b hb hseed with h1 | ⟨l, hl, h1⟩
            · exact Or.inl (indexedB_buildGo_mono G fuel bs st1 st2 b h h1)
            · exact Or.inr ⟨l, hl, indexedB_buildGo_mono G fuel bs st1 st2 _ h h1⟩
          · exact ih st1 st2 h b hbin2 hb

/-! ### the master invariant: topological ids, loop windows, and the stack
decomposition along the chain of active loops -/

/-- loop l is active: its header is indexed, its latch is not yet. -/
def ActiveL (G : BIGraph) (st : BIState) (l : Nat) : Prop :=
  indexedB st (G.loopHeader l) = true ∧ indexedB st (G.loopLatch l) = false

/-- loop a is strictly inside loop b. -/
def ssubL (G : BIGraph) (a b : Nat) : Prop := subLoop G a b ∧ a ≠ b

theorem subLoop_refl (G : BIGraph) (a : Nat) : subLoop G a a := fun _ _ h => h

theorem subLoop_trans {G : BIGraph} {a b c : Nat}
    (h1 : subLoop G a b) (h2 : subLoop G b c) : subLoop G a c :=
  fun x hx hm => h2 x hx (h1 x hx hm)

/-- mutually contained valid loops are equal (their headers separate
distinct loops). -/
theorem loop_antisym {G : BIGraph} (hwf : WFG G) {a b : Nat}
    (ha : a < G.numLoops) (hb : b < G.numLoops)
    (h1 : subLoop G a b) (h2 : subLoop G b a) : a = b := by
  by_contra hne
  have hha : G.loopMem a (G.loopHeader a) = true :=
    wf_innerMem hwf (hwf.hlLt a ha).1 (hwf.headerInner a ha)
  have hhb : G.loopMem b (G.loopHeader b) = true :=
    wf_innerMem hwf (hwf.hlLt b hb).1 (hwf.headerInner b hb)
  rcases hwf.strict a ha b hb hne with hs | hs
  · rw [h2 (G.loopHeader b) (hwf.hlLt b hb).1 hhb] at hs; cases hs
  · rw [h1 (G.loopHeader a) (hwf.hlLt a ha).1 hha] at hs; cases hs

/-- the stack decomposes along the chain ls of active loops, innermost
first: above the latch entry of each chain element sit only blocks of that
element. -/
def ChainDecomp (G : BIGraph) : List Nat → List Nat → Prop
  | _, [] => True
  | stk, l :: ls => ∃ S rest, stk = S ++ G.loopLatch l :: rest
      ∧ (∀ b ∈ S, G.loopMem l b = true) ∧ ChainDecomp G rest ls

theorem ChainDecomp_nil_inv (G : BIGraph) (ls : List Nat)
    (h : ChainDecomp G [] ls) : ls = [] := by
  cases ls with
  | nil => rfl
  | cons l ls =>
      obtain ⟨S, rest, hsplit, _, _⟩ := h
      cases S <;> cases hsplit

theorem ChainDecomp_push (G : BIGraph) (stk : List Nat) (l : Nat) (ls T : List Nat)
    (h : ChainDecomp G stk (l :: ls)) (hT : ∀ b ∈ T, G.loopMem l b = true) :
    ChainDecomp G (T ++ stk) (l :: ls) := by
  obtain ⟨S, rest, hsplit, hS, hrest⟩ := h
  refine ⟨T ++ S, rest, ?_, ?_, hrest⟩
  · rw [hsplit, List.append_assoc]
  · intro b hb
    rcases List.mem_append.mp hb with hb | hb
    · exact hT b hb
    · exact hS b hb

theorem ChainDecomp_cons_top (G : BIGraph) (stk : List Nat) (l : Nat) (ls : List Nat)
    (h : ChainDecomp G stk ls) :
    ChainDecomp G (G.loopLatch l :: stk) (l :: ls) :=
  ⟨[], stk, rfl, fun b hb => absurd hb (List.not_mem_nil b), h⟩

theorem ChainDecomp_pop (G : BIGraph) (c : Nat) (stk : List Nat) (l : Nat) (ls : List Nat)
    (h : ChainDecomp G (c :: stk) (l :: ls)) :
    (c = G.loopLatch l ∧ ChainDecomp G stk ls)
    ∨ (G.loopMem l c = true ∧ ChainDecomp G stk (l :: ls)) := by
  obtain ⟨S, rest, hsplit, hS, hrest⟩ := h
  cases S with
  | nil =>
      simp only [List.nil_append] at hsplit
      cases hsplit
      exact Or.inl ⟨rfl, hrest⟩
  | cons s S2 =>
      rw [List.cons_append] at hsplit
      cases hsplit
      exact Or.inr ⟨hS c (List.mem_cons_self _ _),
        ⟨S2, rest, rfl, fun b hb => hS b (List.mem_cons_of_mem _ hb), hrest⟩⟩

/-- absorb the innermost chain element into the next one: latch entries and
segment blocks of the dropped element live inside the enclosing element. -/
theorem ChainDecomp_absorb (G : BIGraph) (stk : List Nat) (l : Nat) (ls : List Nat)
    (h : ChainDecomp G stk (l :: ls))
    (hB : ∀ x ∈ stk, x < G.numB)
    (habs : ∀ l2, ls = l2 :: ls.tail → ∀ x, x < G.numB →
      G.loopMem l x = true → G.loopMem l2 x = true)
    (hlmem : G.loopMem l (G.loopLatch l) = true) :
    ChainDecomp G stk ls := by
  obtain ⟨S, rest, hsplit, hS, hrest⟩ := h
  cases ls with
  | nil => trivial
  | cons l2 ls2 =>
      obtain ⟨S2, rest2, hsplit2, hS2, hrest2⟩ := hrest
      have hSstk : ∀ x ∈ S, x ∈ stk := by
        intro x hx
        rw [hsplit]
        exact List.mem_append_left _ hx
      have hlstk : G.loopLatch l ∈ stk := by
        rw [hsplit]
        exact List.mem_append_right _ (List.mem_cons_self _ _)
      have hS2stk : ∀ x ∈ S2, x ∈ stk := by
        intro x hx
        rw [hsplit, hsplit2]
        exact List.mem_append_right _ (List.mem_cons_of_mem _ (List.mem_append_left _ hx))
      refine ⟨S ++ G.loopLatch l :: S2, rest2, ?_, ?_, hrest2⟩
      · rw [hsplit, hsplit2, List.append_assoc, List.cons_append]
      · intro x hx
        rcases List.mem_append.mp hx with hx2 | hx2
        · exact habs l2 rfl x (hB x (hSstk x hx2)) (hS x hx2)
        · rcases List.mem_cons.mp hx2 with hbe | hb2
          · exact hbe ▸ habs l2 rfl (G.loopLatch l) (hB _ hlstk) hlmem
          · exact hS2 x hb2

/-- the master invariant carried through buildBlockIndex. -/
structure Inv (G : BIGraph) (st : BIState) : Prop where
  stackB : ∀ b ∈ st.stack, b < G.numB
  keyB : ∀ b i, lookA st b = some i → b < G.numB
  idB : ∀ b i, lookA st b = some i → i < st.nRelays
  idSurj : ∀ i, i < st.nRelays → ∃ b, lookA st b = some i
  inj : ∀ b b2 i, lookA st b = some i → lookA st b2 = some i → b = b2
  predsDone : ∀ b i, lookA st b = some i → ∀ p ∈ unfilteredPreds G b,
    ∃ j, lookA st p = some j ∧ j < i
  memberDesc : ∀ l, l < G.numLoops → ∀ b, b < G.numB → G.loopMem l b = true →
    b ≠ G.loopHeader l → ∀ j, lookA st b = some j →
    ∃ p, p < G.numB ∧ G.loopMem l p = true ∧ ∃ j2, lookA st p = some j2 ∧ j2 < j
  latchClosed : ∀ l, l < G.numLoops → ∀ j, lookA st (G.loopLatch l) = some j →
    ∀ b, b < G.numB → G.loopMem l b = true → ∃ m, lookA st b = some m ∧ m ≤ j
  windowMem : ∀ l, l < G.numLoops → ∀ i, lookA st (G.loopHeader l) = some i →
    ∀ b m, lookA st b = some m → i ≤ m →
    (∀ j, lookA st (G.loopLatch l) = some j → m ≤ j) →
    G.loopMem l b = true
  regActive : ∀ l, l < G.numLoops → ActiveL G st l → l ∈ st.pushedLoops
  chain : ∃ ls, (∀ l ∈ ls, l < G.numLoops)
    ∧ (∀ l, l < G.numLoops → (ActiveL G st l ↔ l ∈ ls))
    ∧ List.Pairwise (fun a b => ssubL G a b) ls
    ∧ ChainDecomp G st.stack ls

/-- whenever a loop member is indexed, the header of the loop is indexed,
no later: the dependency scan descends through in-loop predecessors and
inner preheaders, which only bottoms out at the header. -/
theorem header_min (G : BIGraph) (st : BIState)
    (hMD : ∀ l, l < G.numLoops → ∀ b, b < G.numB → G.loopMem l b = true →
      b ≠ G.loopHeader l → ∀ j, lookA st b = some j →
      ∃ p, p < G.numB ∧ G.loopMem l p = true ∧ ∃ j2, lookA st p = some j2 ∧ j2 < j) :
    ∀ j, ∀ l, l < G.numLoops → ∀ b, b < G.numB → G.loopMem l b = true →
      lookA st b = some j →
      ∃ i, i ≤ j ∧ lookA st (G.loopHeader l) = some i := by
  intro j
  induction j using Nat.strong_induction_on with
  | _ j ih =>
      intro l hl b hb hm hj
      by_cases hbh : b = G.loopHeader l
      · exact ⟨j, le_refl j, hbh ▸ hj⟩
      · obtain ⟨p, hp, hpm, j2, hj2, hlt⟩ := hMD l hl b hb hm hbh j hj
        obtain ⟨i, hile, hih⟩ := ih j2 hlt l hl p hp hpm hj2
        exact ⟨i, le_trans hile (le_of_lt hlt), hih⟩

theorem header_mem {G : BIGraph} (hwf : WFG G) {l : Nat} (hl : l < G.numLoops) :
    G.loopMem l (G.loopHeader l) = true :=
  wf_innerMem hwf (hwf.hlLt l hl).1 (hwf.headerInner l hl)

theorem latch_mem {G : BIGraph} (hwf : WFG G) {l : Nat} (hl : l < G.numLoops) :
    G.loopMem l (G.loopLatch l) = true :=
  wf_innerMem hwf (hwf.hlLt l hl).2 (hwf.latchInner l hl)

theorem header_inj {G : BIGraph} (hwf : WFG G) {a b : Nat}
    (ha : a < G.numLoops) (hb : b < G.numLoops)
    (h : G.loopHeader a = G.loopHeader b) : a = b := by
  have h1 := hwf.headerInner a ha
  have h2 := hwf.headerInner b hb
  rw [h, h2] at h1
  exact (Option.some.inj h1).symm

theorem mem_unfilteredPreds_sub (G : BIGraph) (b p : Nat)
    (h : p ∈ unfilteredPreds G b) : p ∈ G.preds b := by
  unfold unfilteredPreds at h
  cases hf : filterLoopOf G b with
  | none => rw [hf] at h; exact h
  | some l => rw [hf] at h; exact List.mem_of_mem_filter h

theorem mem_wantOf (G : BIGraph) (st : BIState) (b p : Nat)
    (h : p ∈ wantOf G st b) : p ∈ unfilteredPreds G b ∧ indexedB st p = false := by
  unfold wantOf at h
  refine ⟨List.mem_of_mem_filter h, ?_⟩
  have h2 := List.of_mem_filter h
  simpa using h2

theorem wantOf_nil_indexed (G : BIGraph) (st : BIState) (b : Nat)
    (hw : wantOf G st b = []) (p : Nat) (hp : p ∈ unfilteredPreds G b) :
    indexedB st p = true := by
  by_contra hc
  have hf : indexedB st p = false := Bool.not_eq_true _ ▸ Bool.of_not_eq_true hc
  have : p ∈ wantOf G st b := by
    unfold wantOf
    refine List.mem_filter.mpr ⟨hp, ?_⟩
    simp [hf]
  rw [hw] at this
  cases this

theorem mem_regPushes (G : BIGraph) (st : BIState) (l p : Nat)
    (h : p ∈ regPushes G st l) :
    p ∈ G.preds (G.loopHeader l) ∧ G.loopMem l p = false ∧ indexedB st p = false := by
  unfold regPushes at h
  rw [List.mem_reverse] at h
  refine ⟨List.mem_of_mem_filter h, ?_⟩
  have h2 := List.of_mem_filter h
  constructor
  · have := (Bool.and_eq_true _ _ |>.mp h2).1
    simpa using this
  · have := (Bool.and_eq_true _ _ |>.mp h2).2
    simpa using this

/-- an active loop cannot have its latch equal to its header (the header is
indexed, the latch is not). -/
theorem active_ne_hl {G : BIGraph} {st : BIState} {l : Nat}
    (hact : ActiveL G st l) : G.loopHeader l ≠ G.loopLatch l := by
  intro h
  have h1 : indexedB st (G.loopHeader l) = true := hact.1
  have h2 : indexedB st (G.loopLatch l) = false := hact.2
  rw [h] at h1
  rw [h1] at h2
  exact Bool.false_ne_true h2.symm

/-! ### invariant maintenance: the non-indexing steps -/

theorem Inv_pop (G : BIGraph) (st : BIState) (b : Nat) (rest : List Nat)
    (hstk : st.stack = b :: rest) (hidx : indexedB st b = true) (hInv : Inv G st) :
    Inv G { st with stack := rest } := by
  obtain ⟨ls, hlt, hact, hpair, hdecomp⟩ := hInv.chain
  refine ⟨?_, hInv.keyB, hInv.idB, hInv.idSurj, hInv.inj, hInv.predsDone, hInv.memberDesc,
    hInv.latchClosed, hInv.windowMem, hInv.regActive, ?_⟩
  · intro b2 hb2
    exact hInv.stackB b2 (hstk ▸ List.mem_cons_of_mem _ hb2)
  · refine ⟨ls, hlt, hact, hpair, ?_⟩
    cases ls with
    | nil => trivial
    | cons l ls2 =>
        rw [hstk] at hdecomp
        rcases ChainDecomp_pop G b rest l ls2 hdecomp with ⟨hbl, _⟩ | ⟨_, hdec2⟩
        · have hactl : ActiveL G st l :=
            (hact l (hlt l (List.mem_cons_self _ _))).mpr (List.mem_cons_self _ _)
          have h2 : indexedB st (G.loopLatch l) = false := hactl.2
          rw [← hbl, hidx] at h2
          exact absurd h2 (by simp)
        · exact hdec2

theorem Inv_depPush (G : BIGraph) (hwf : WFG G) (st : BIState) (b : Nat) (rest : List Nat)
    (hstk : st.stack = b :: rest) (hidx : indexedB st b = false)
    (hw : wantOf G st b ≠ []) (hInv : Inv G st) :
    Inv G (depStep G st b rest) := by
  rw [depStep_push G st b rest hw]
  obtain ⟨ls, hlt, hact, hpair, hdecomp⟩ := hInv.chain
  have hbB : b < G.numB := hInv.stackB b (hstk ▸ List.mem_cons_self _ _)
  refine ⟨?_, hInv.keyB, hInv.idB, hInv.idSurj, hInv.inj, hInv.predsDone, hInv.memberDesc,
    hInv.latchClosed, hInv.windowMem, hInv.regActive, ?_⟩
  · intro b2 hb2
    rcases List.mem_append.mp hb2 with hb2 | hb2
    · rw [List.mem_reverse] at hb2
      exact hwf.predB b hbB b2 (mem_unfilteredPreds_sub G b b2 (mem_wantOf G st b b2 hb2).1)
    · rcases List.mem_cons.mp hb2 with rfl | hb2
      · exact hbB
      · exact hInv.stackB b2 (hstk ▸ List.mem_cons_of_mem _ hb2)
  · refine ⟨ls, hlt, hact, hpair, ?_⟩
    cases ls with
    | nil => trivial
    | cons l ls2 =>
        rw [hstk] at hdecomp
        have hll : l < G.numLoops := hlt l (List.mem_cons_self _ _)
        have hactl : ActiveL G st l := (hact l hll).mpr (List.mem_cons_self _ _)
        have hbmem : G.loopMem l b = true := by
          rcases ChainDecomp_pop G b rest l ls2 hdecomp with ⟨hbl, _⟩ | ⟨hm, _⟩
          · rw [hbl]; exact latch_mem hwf hll
          · exact hm
        have hbnh : b ≠ G.loopHeader l := by
          intro he
          have h1 : indexedB st (G.loopHeader l) = true := hactl.1
          rw [← he, hidx] at h1
          exact absurd h1 (by simp)
        have hwantmem : ∀ p ∈ (wantOf G st b).reverse, G.loopMem l p = true := by
          intro p hp
          rw [List.mem_reverse] at hp
          exact hwf.entry l hll b hbB hbmem hbnh p
            (mem_unfilteredPreds_sub G b p (mem_wantOf G st b p hp).1)
        rcases ChainDecomp_pop G b rest l ls2 hdecomp with ⟨hbl, hdec2⟩ | ⟨hm, hdec2⟩
        · have hdc : ChainDecomp G (b :: rest) (l :: ls2) := by
            rw [hbl]
            exact ChainDecomp_cons_top G rest l ls2 hdec2
          exact ChainDecomp_push G _ l ls2 _ hdc hwantmem
        · exact ChainDecomp_push G _ l ls2 _
            (ChainDecomp_push G rest l ls2 [b] hdec2
              (fun p hp => by rcases List.mem_singleton.mp hp with rfl; exact hm))
            hwantmem

theorem Inv_reg (G : BIGraph) (hwf : WFG G) (st : BIState) (b : Nat) (rest : List Nat)
    (l : Nat) (hstk : st.stack = b :: rest) (_hidx : indexedB st b = false)
    (hl : G.loopOfB b = some l) (hnp : l ∉ st.pushedLoops) (hInv : Inv G st) :
    Inv G { st with stack := regPushes G st l ++ G.loopLatch l :: rest,
                    pushedLoops := l :: st.pushedLoops } := by
  obtain ⟨ls, hlt, hact, hpair, hdecomp⟩ := hInv.chain
  have hbB : b < G.numB := hInv.stackB b (hstk ▸ List.mem_cons_self _ _)
  have hll : l < G.numLoops := wf_loopOf_lt hwf hbB hl
  refine ⟨?_, hInv.keyB, hInv.idB, hInv.idSurj, hInv.inj, hInv.predsDone, hInv.memberDesc,
    hInv.latchClosed, hInv.windowMem, ?_, ?_⟩
  · intro b2 hb2
    rcases List.mem_append.mp hb2 with hb2 | hb2
    · exact hwf.predB (G.loopHeader l) (hwf.hlLt l hll).1 b2 (mem_regPushes G st l b2 hb2).1
    · rcases List.mem_cons.mp hb2 with rfl | hb2
      · exact (hwf.hlLt l hll).2
      · exact hInv.stackB b2 (hstk ▸ List.mem_cons_of_mem _ hb2)
  · intro l2 hl2 hact2
    exact List.mem_cons_of_mem _ (hInv.regActive l2 hl2 hact2)
  · refine ⟨ls, hlt, hact, hpair, ?_⟩
    cases ls with
    | nil => trivial
    | cons Lk ls2 =>
        rw [hstk] at hdecomp
        have hLk : Lk < G.numLoops := hlt Lk (List.mem_cons_self _ _)
        have hactLk : ActiveL G st Lk := (hact Lk hLk).mpr (List.mem_cons_self _ _)
        rcases ChainDecomp_pop G b rest Lk ls2 hdecomp with ⟨hbl, _⟩ | ⟨hm, hdec2⟩
        · exfalso
          have : G.loopOfB b = some Lk := hbl ▸ hwf.latchInner Lk hLk
          rw [hl] at this
          exact hnp ((Option.some.inj this) ▸ hInv.regActive Lk hLk hactLk)
        · have hsub : subLoop G l Lk := wf_innerMin hwf hbB hLk hm hl
          have hlneLk : l ≠ Lk := fun he => hnp (he ▸ hInv.regActive Lk hLk hactLk)
          have hdec3 : ChainDecomp G (G.loopLatch l :: rest) (Lk :: ls2) :=
            ChainDecomp_push G rest Lk ls2 [G.loopLatch l] hdec2
              (fun p hp => by
                rcases List.mem_singleton.mp hp with rfl
                exact hsub (G.loopLatch l) (hwf.hlLt l hll).2 (latch_mem hwf hll))
          refine ChainDecomp_push G _ Lk ls2 (regPushes G st l) hdec3 ?_
          intro p hp
          have hmemh : G.loopMem Lk (G.loopHeader l) = true :=
            hsub (G.loopHeader l) (hwf.hlLt l hll).1 (header_mem hwf hll)
          have hhne : G.loopHeader l ≠ G.loopHeader Lk :=
            fun he => hlneLk (header_inj hwf hll hLk he)
          exact hwf.entry Lk hLk (G.loopHeader l) (hwf.hlLt l hll).1 hmemh hhne p
            (mem_regPushes G st l p hp).1

/-! ### the indexing step: auxiliary lemmas -/

theorem filterLoopOf_some (G : BIGraph) (b l : Nat) (h : filterLoopOf G b = some l) :
    G.loopOfB b = some l ∧ G.loopHeader l = b := by
  unfold filterLoopOf at h
  cases hlb : G.loopOfB b with
  | none =>
      rw [hlb] at h
      exact Option.noConfusion h
  | some l0 =>
      rw [hlb] at h
      have h2 : (if (G.loopHeader l0 == b) = true then some l0 else none) = some l := h
      by_cases hh : (G.loopHeader l0 == b) = true
      · rw [if_pos hh] at h2
        cases h2
        exact ⟨rfl, eq_of_beq hh⟩
      · rw [if_neg hh] at h2
        cases h2

theorem filterLoopOf_none (G : BIGraph) (b l : Nat) (h : filterLoopOf G b = none)
    (hlb : G.loopOfB b = some l) : G.loopHeader l ≠ b := by
  intro he
  unfold filterLoopOf at h
  rw [hlb] at h
  have h2 : (if (G.loopHeader l == b) = true then some l else none) = none := h
  rw [if_pos (by rw [he]; exact beq_self_eq_true b)] at h2
  cases h2

theorem unfilteredPreds_of_none (G : BIGraph) (b : Nat) (h : filterLoopOf G b = none) :
    unfilteredPreds G b = G.preds b := by
  unfold unfilteredPreds
  rw [h]

theorem unfilteredPreds_of_some (G : BIGraph) (b l : Nat) (h : filterLoopOf G b = some l) :
    unfilteredPreds G b = (G.preds b).filter (fun p => !G.loopMem l p) := by
  unfold unfilteredPreds
  rw [h]

theorem latchChainOK_parts (G : BIGraph) (l z : Nat) (qs : List Nat)
    (h : latchChainOK G l z qs = true) :
    (∃ qs2, qs = G.loopLatch l :: qs2)
    ∧ qs.getLast? = some z
    ∧ consecPreds G qs = true
    ∧ ∀ q ∈ qs, G.loopMem l q = true := by
  unfold latchChainOK at h
  rw [Bool.and_eq_true, Bool.and_eq_true, Bool.and_eq_true] at h
  obtain ⟨⟨⟨h1, h2⟩, h3⟩, h4⟩ := h
  refine ⟨?_, by simpa using h2, h3, fun q hq => by
    have := List.all_eq_true.mp h4 q hq
    simpa using this⟩
  cases qs with
  | nil => exact absurd (show false = true from h1) Bool.false_ne_true
  | cons q qs2 =>
      have h1b : (q == G.loopLatch l) = true := h1
      exact ⟨qs2, by rw [eq_of_beq h1b]⟩

/-- walking a backward in-loop predecessor chain from an indexed block: every
element is indexed, because unfiltered predecessors of an indexed block are
indexed and a filtered step lands on an inner latch, indexed by hlatch3. -/
theorem chain_walk (G : BIGraph) (hwf : WFG G) (st2 : BIState) (Lk : Nat)
    (hLk : Lk < G.numLoops)
    (hPD : ∀ x i, lookA st2 x = some i → ∀ p ∈ unfilteredPreds G x,
      ∃ j, lookA st2 p = some j ∧ j < i)
    (hlatch3 : ∀ l3, l3 < G.numLoops → subLoop G l3 Lk →
      indexedB st2 (G.loopHeader l3) = true → indexedB st2 (G.loopLatch l3) = true) :
    ∀ qs q, q < G.numB → G.loopMem Lk q = true → indexedB st2 q = true →
      (∀ x ∈ qs, G.loopMem Lk x = true) → consecPreds G (q :: qs) = true →
      ∀ z, (q :: qs).getLast? = some z → indexedB st2 z = true := by
  intro qs
  induction qs with
  | nil =>
      intro q _ _ hqidx _ _ z hz
      cases Option.some.inj hz
      exact hqidx
  | cons q2 qs2 ih =>
      intro q hqB hqmem hqidx hmems hconsec z hz
      have hcp : ((G.preds q).contains q2 && consecPreds G (q2 :: qs2)) = true := hconsec
      rw [Bool.and_eq_true] at hcp
      have hq2p : q2 ∈ G.preds q := by
        have := hcp.1
        simpa using this
      have hq2B : q2 < G.numB := hwf.predB q hqB q2 hq2p
      have hq2mem : G.loopMem Lk q2 = true := hmems q2 (List.mem_cons_self _ _)
      have hq2idx : indexedB st2 q2 = true := by
        obtain ⟨i, hi⟩ := Option.isSome_iff_exists.mp hqidx
        by_cases hq2u : q2 ∈ unfilteredPreds G q
        · obtain ⟨j, hj, _⟩ := hPD q i hi q2 hq2u
          rw [indexedB, hj]
          rfl
        · cases hfq : filterLoopOf G q with
          | none =>
              rw [unfilteredPreds_of_none G q hfq] at hq2u
              exact absurd hq2p hq2u
          | some l3 =>
              obtain ⟨hlq, hhq⟩ := filterLoopOf_some G q l3 hfq
              have hl3 : l3 < G.numLoops := wf_loopOf_lt hwf hqB hlq
              have hml3 : G.loopMem l3 q2 = true := by
                by_contra hc
                have hfm : (!G.loopMem l3 q2) = true := by
                  simp [Bool.not_eq_true _ ▸ Bool.of_not_eq_true hc]
                refine hq2u ?_
                rw [unfilteredPreds_of_some G q l3 hfq]
                exact List.mem_filter.mpr ⟨hq2p, hfm⟩
              have hq2latch : q2 = G.loopLatch l3 :=
                hwf.backedge l3 hl3 q2 (hhq ▸ hq2p) hml3
              have hsub3 : subLoop G l3 Lk := wf_innerMin hwf hqB hLk hqmem hlq
              have hhidx : indexedB st2 (G.loopHeader l3) = true := by
                rw [hhq]; exact hqidx
              rw [hq2latch]
              exact hlatch3 l3 hl3 hsub3 hhidx
      have hlast : (q2 :: qs2).getLast? = some z := by
        rw [List.getLast?_cons_cons] at hz
        exact hz
      exact ih q2 hq2B hq2mem hq2idx
        (fun x hx => hmems x (List.mem_cons_of_mem _ hx)) hcp.2 z hlast

/-- every member of a loop whose latch is indexed is itself indexed: walk
the well-formedness chain from the latch. -/
theorem all_members_indexed (G : BIGraph) (hwf : WFG G) (st2 : BIState) (Lk : Nat)
    (hLk : Lk < G.numLoops)
    (hPD : ∀ x i, lookA st2 x = some i → ∀ p ∈ unfilteredPreds G x,
      ∃ j, lookA st2 p = some j ∧ j < i)
    (hlatch3 : ∀ l3, l3 < G.numLoops → subLoop G l3 Lk →
      indexedB st2 (G.loopHeader l3) = true → indexedB st2 (G.loopLatch l3) = true)
    (hlidx : indexedB st2 (G.loopLatch Lk) = true) :
    ∀ z, z < G.numB → G.loopMem Lk z = true → indexedB st2 z = true := by
  intro z hzB hzmem
  have hc := hwf.chains Lk hLk z hzB hzmem
  obtain ⟨⟨qs2, hqs⟩, hlast, hconsec, hmems⟩ :=
    latchChainOK_parts G Lk z (G.latchChain Lk z) hc
  rw [hqs] at hlast hconsec hmems
  exact chain_walk G hwf st2 Lk hLk hPD hlatch3 qs2 (G.loopLatch Lk)
    (hwf.hlLt Lk hLk).2 (latch_mem hwf hLk) hlidx
    (fun x hx => hmems x (List.mem_cons_of_mem _ hx)) hconsec z hlast

/-- the invariant for a state that extends st by the binding b with id
nRelays, given the case-specific facts for the fresh block b. -/
theorem Inv_extend (G : BIGraph) (hwf : WFG G) (st : BIState) (b : Nat)
    (hbB : b < G.numB) (hbnone : lookA st b = none)
    (hF1 : ∀ p ∈ unfilteredPreds G b, ∃ j, lookA st p = some j ∧ j < st.nRelays)
    (hInv : Inv G st) (st2 : BIState)
    (hbi : st2.blockIndex = setAssoc st.blockIndex b st.nRelays)
    (hnr : st2.nRelays = st.nRelays + 1)
    (hpl : st2.pushedLoops = st.pushedLoops)
    (hstackB : ∀ x ∈ st2.stack, x < G.numB)
    (hMDb : ∀ l2, l2 < G.numLoops → G.loopMem l2 b = true → b ≠ G.loopHeader l2 →
      ∃ p, p < G.numB ∧ G.loopMem l2 p = true ∧ p ∈ unfilteredPreds G b)
    (hWMb : ∀ l2, l2 < G.numLoops → indexedB st (G.loopHeader l2) = true →
      indexedB st (G.loopLatch l2) = false → G.loopMem l2 b = true)
    (hLCb : ∀ l2, l2 < G.numLoops → G.loopLatch l2 = b →
      ∀ z, z < G.numB → G.loopMem l2 z = true → indexedB st2 z = true)
    (hRAb : ∀ l2, l2 < G.numLoops → G.loopHeader l2 = b → l2 ∈ st.pushedLoops)
    (hchain : ∃ ls, (∀ l ∈ ls, l < G.numLoops)
      ∧ (∀ l, l < G.numLoops → (ActiveL G st2 l ↔ l ∈ ls))
      ∧ List.Pairwise (fun a b2 => ssubL G a b2) ls
      ∧ ChainDecomp G st2.stack ls) :
    Inv G st2 := by
  have hchar : ∀ x, lookA st2 x = if x = b then some st.nRelays else lookA st x := by
    intro x
    unfold lookA
    rw [hbi]
    by_cases hx : x = b
    · rw [if_pos hx, hx]
      exact getAssoc_setAssoc_self _ _ _
    · rw [if_neg hx]
      exact getAssoc_setAssoc_ne _ _ _ _ hx
  have hsome : ∀ x i, lookA st2 x = some i ↔
      ((x = b ∧ i = st.nRelays) ∨ (x ≠ b ∧ lookA st x = some i)) := by
    intro x i
    rw [hchar x]
    by_cases hx : x = b
    · rw [if_pos hx]
      constructor
      · intro h
        exact Or.inl ⟨hx, (Option.some.inj h).symm⟩
      · rintro (⟨_, rfl⟩ | ⟨hne, _⟩)
        · rfl
        · exact absurd hx hne
    · rw [if_neg hx]
      constructor
      · intro h
        exact Or.inr ⟨hx, h⟩
      · rintro (⟨he, _⟩ | ⟨_, h⟩)
        · exact absurd he hx
        · exact h
  have hself : lookA st2 b = some st.nRelays := by
    rw [hchar b, if_pos rfl]
  have hkeyB : ∀ x i, lookA st2 x = some i → x < G.numB := by
    intro x i h
    rcases (hsome x i).mp h with ⟨rfl, _⟩ | ⟨_, h2⟩
    · exact hbB
    · exact hInv.keyB x i h2
  have hidB : ∀ x i, lookA st2 x = some i → i < st2.nRelays := by
    intro x i h
    rw [hnr]
    rcases (hsome x i).mp h with ⟨_, rfl⟩ | ⟨_, h2⟩
    · exact Nat.lt_succ_self _
    · exact Nat.lt_succ_of_lt (hInv.idB x i h2)
  have hinj : ∀ x x2 i, lookA st2 x = some i → lookA st2 x2 = some i → x = x2 := by
    intro x x2 i h1 h2
    rcases (hsome x i).mp h1 with ⟨rfl, rfl⟩ | ⟨hne1, h1b⟩
    · rcases (hsome x2 _).mp h2 with ⟨rfl, _⟩ | ⟨_, h2b⟩
      · rfl
      · exact absurd (hInv.idB x2 _ h2b) (Nat.lt_irrefl _)
    · rcases (hsome x2 i).mp h2 with ⟨rfl, rfl⟩ | ⟨_, h2b⟩
      · exact absurd (hInv.idB x _ h1b) (Nat.lt_irrefl _)
      · exact hInv.inj x x2 i h1b h2b
  have hold : ∀ x i, lookA st x = some i → lookA st2 x = some i := by
    intro x i h
    refine (hsome x i).mpr (Or.inr ⟨?_, h⟩)
    intro he
    rw [he, hbnone] at h
    cases h
  have hPD : ∀ x i, lookA st2 x = some i → ∀ p ∈ unfilteredPreds G x,
      ∃ j, lookA st2 p = some j ∧ j < i := by
    intro x i h p hp
    rcases (hsome x i).mp h with ⟨rfl, rfl⟩ | ⟨_, h2⟩
    · obtain ⟨j, hj, hlt⟩ := hF1 p hp
      exact ⟨j, hold p j hj, hlt⟩
    · obtain ⟨j, hj, hlt⟩ := hInv.predsDone x i h2 p hp
      exact ⟨j, hold p j hj, hlt⟩
  have hMD : ∀ l2, l2 < G.numLoops → ∀ x, x < G.numB → G.loopMem l2 x = true →
      x ≠ G.loopHeader l2 → ∀ j, lookA st2 x = some j →
      ∃ p, p < G.numB ∧ G.loopMem l2 p = true ∧ ∃ j2, lookA st2 p = some j2 ∧ j2 < j := by
    intro l2 hl2 x hx hmem hneq j hj
    rcases (hsome x j).mp hj with ⟨rfl, rfl⟩ | ⟨_, h2⟩
    · obtain ⟨p, hpB, hpm, hpu⟩ := hMDb l2 hl2 hmem hneq
      obtain ⟨j2, hj2, hlt⟩ := hF1 p hpu
      exact ⟨p, hpB, hpm, j2, hold p j2 hj2, hlt⟩
    · obtain ⟨p, hpB, hpm, j2, hj2, hlt⟩ := hInv.memberDesc l2 hl2 x hx hmem hneq j h2
      exact ⟨p, hpB, hpm, j2, hold p j2 hj2, hlt⟩
  have hLC : ∀ l2, l2 < G.numLoops → ∀ j, lookA st2 (G.loopLatch l2) = some j →
      ∀ z, z < G.numB → G.loopMem l2 z = true →
      ∃ m, lookA st2 z = some m ∧ m ≤ j := by
    intro l2 hl2 j hj z hzB hzm
    by_cases hlb : G.loopLatch l2 = b
    · have hzidx := hLCb l2 hl2 hlb z hzB hzm
      obtain ⟨m, hm⟩ := Option.isSome_iff_exists.mp hzidx
      refine ⟨m, hm, ?_⟩
      have hjN : j = st.nRelays := by
        rw [hlb] at hj
        rcases (hsome b j).mp hj with ⟨_, h2⟩ | ⟨hne, _⟩
        · exact h2
        · exact absurd rfl hne
      have := hidB z m hm
      rw [hnr] at this
      omega
    · rcases (hsome _ j).mp hj with ⟨he, _⟩ | ⟨_, h2⟩
      · exact absurd he hlb
      · obtain ⟨m, hm, hle⟩ := hInv.latchClosed l2 hl2 j h2 z hzB hzm
        exact ⟨m, hold z m hm, hle⟩
  have hWM : ∀ l2, l2 < G.numLoops → ∀ i, lookA st2 (G.loopHeader l2) = some i →
      ∀ x m, lookA st2 x = some m → i ≤ m →
      (∀ j, lookA st2 (G.loopLatch l2) = some j → m ≤ j) →
      G.loopMem l2 x = true := by
    intro l2 hl2 i hhdr x m hx him hlcond
    by_cases hhb : G.loopHeader l2 = b
    · have hiN : i = st.nRelays := by
        rw [hhb] at hhdr
        rcases (hsome b i).mp hhdr with ⟨_, h2⟩ | ⟨hne, _⟩
        · exact h2
        · exact absurd rfl hne
      have hmN : m = st.nRelays := by
        have := hidB x m hx
        rw [hnr] at this
        omega
      have hxb : x = b := by
        refine hinj x b st.nRelays ?_ hself
        rw [← hmN]
        exact hx
      rw [hxb, ← hhb]
      exact header_mem hwf hl2
    · have hhdro : lookA st (G.loopHeader l2) = some i := by
        rcases (hsome _ i).mp hhdr with ⟨he, _⟩ | ⟨_, h2⟩
        · exact absurd he hhb
        · exact h2
      by_cases hxb : x = b
      · by_cases hlb : G.loopLatch l2 = b
        · rw [hxb, ← hlb]
          exact latch_mem hwf hl2
        · cases hlk : lookA st (G.loopLatch l2) with
          | some jold =>
              exfalso
              have hj2 : lookA st2 (G.loopLatch l2) = some jold := hold _ _ hlk
              have hmle := hlcond jold hj2
              have hmN : m = st.nRelays := by
                rcases (hsome x m).mp hx with ⟨_, h2⟩ | ⟨hne, _⟩
                · exact h2
                · exact absurd hxb hne
              have := hInv.idB _ _ hlk
              omega
          | none =>
              have hact : indexedB st (G.loopHeader l2) = true := by
                rw [indexedB, hhdro]; rfl
              have hlatchf : indexedB st (G.loopLatch l2) = false := by
                rw [indexedB, hlk]; rfl
              rw [hxb]
              exact hWMb l2 hl2 hact hlatchf
      · have hxo : lookA st x = some m := by
          rcases (hsome x m).mp hx with ⟨he, _⟩ | ⟨_, h2⟩
          · exact absurd he hxb
          · exact h2
        refine hInv.windowMem l2 hl2 i hhdro x m hxo him ?_
        intro j hj
        by_cases hlb : G.loopLatch l2 = b
        · rw [hlb, hbnone] at hj
          cases hj
        · exact hlcond j (hold _ _ hj)
  have hRA : ∀ l2, l2 < G.numLoops → ActiveL G st2 l2 → l2 ∈ st2.pushedLoops := by
    intro l2 hl2 hact2
    have h1 : indexedB st2 (G.loopHeader l2) = true := hact2.1
    have h2 : indexedB st2 (G.loopLatch l2) = false := hact2.2
    rw [hpl]
    by_cases hhb : G.loopHeader l2 = b
    · exact hRAb l2 hl2 hhb
    · have hlnb : G.loopLatch l2 ≠ b := by
        intro he
        rw [he, indexedB, hself] at h2
        cases h2
      have h1o : indexedB st (G.loopHeader l2) = true := by
        rw [indexedB] at h1 ⊢
        rw [hchar _, if_neg hhb] at h1
        exact h1
      have h2o : indexedB st (G.loopLatch l2) = false := by
        rw [indexedB] at h2 ⊢
        rw [hchar _, if_neg hlnb] at h2
        exact h2
      exact hInv.regActive l2 hl2 ⟨h1o, h2o⟩
  have hidSurj : ∀ i, i < st2.nRelays → ∃ x, lookA st2 x = some i := by
    intro i hi
    rw [hnr] at hi
    by_cases hiN : i = st.nRelays
    · exact ⟨b, by rw [hiN]; exact hself⟩
    · have hlt : i < st.nRelays := by omega
      obtain ⟨x, hx⟩ := hInv.idSurj i hlt
      exact ⟨x, hold x i hx⟩
  exact ⟨hstackB, hkeyB, hidB, hidSurj, hinj, hPD, hMD, hLC, hWM, hRA, hchain⟩

theorem ext_char (st : BIState) (b : Nat) (st2 : BIState)
    (hbi : st2.blockIndex = setAssoc st.blockIndex b st.nRelays) :
    ∀ x, lookA st2 x = if x = b then some st.nRelays else lookA st x := by
  intro x
  unfold lookA
  rw [hbi]
  by_cases hx : x = b
  · rw [if_pos hx, hx]
    exact getAssoc_setAssoc_self _ _ _
  · rw [if_neg hx]
    exact getAssoc_setAssoc_ne _ _ _ _ hx

theorem ext_hold (st : BIState) (b : Nat) (st2 : BIState)
    (hbi : st2.blockIndex = setAssoc st.blockIndex b st.nRelays)
    (hbnone : lookA st b = none) :
    ∀ x i, lookA st x = some i → lookA st2 x = some i := by
  intro x i h
  rw [ext_char st b st2 hbi x, if_neg ?_]
  · exact h
  · intro he
    rw [he, hbnone] at h
    cases h

theorem ext_old (st : BIState) (b : Nat) (st2 : BIState)
    (hbi : st2.blockIndex = setAssoc st.blockIndex b st.nRelays)
    (x : Nat) (hx : x ≠ b) : lookA st2 x = lookA st x := by
  rw [ext_char st b st2 hbi x, if_neg hx]

theorem ext_self (st : BIState) (b : Nat) (st2 : BIState)
    (hbi : st2.blockIndex = setAssoc st.blockIndex b st.nRelays) :
    lookA st2 b = some st.nRelays := by
  rw [ext_char st b st2 hbi b, if_pos rfl]

theorem ext_PD (G : BIGraph) (st : BIState) (b : Nat) (st2 : BIState)
    (hbi : st2.blockIndex = setAssoc st.blockIndex b st.nRelays)
    (hbnone : lookA st b = none)
    (hF1 : ∀ p ∈ unfilteredPreds G b, ∃ j, lookA st p = some j ∧ j < st.nRelays)
    (hPDst : ∀ x i, lookA st x = some i → ∀ p ∈ unfilteredPreds G x,
      ∃ j, lookA st p = some j ∧ j < i) :
    ∀ x i, lookA st2 x = some i → ∀ p ∈ unfilteredPreds G x,
      ∃ j, lookA st2 p = some j ∧ j < i := by
  intro x i h p hp
  rw [ext_char st b st2 hbi x] at h
  by_cases hx : x = b
  · rw [if_pos hx] at h
    cases Option.some.inj h
    obtain ⟨j, hj, hlt⟩ := hF1 p (hx ▸ hp)
    exact ⟨j, ext_hold st b st2 hbi hbnone p j hj, hlt⟩
  · rw [if_neg hx] at h
    obtain ⟨j, hj, hlt⟩ := hPDst x i h p hp
    exact ⟨j, ext_hold st b st2 hbi hbnone p j hj, hlt⟩

theorem ext_MD (G : BIGraph) (st : BIState) (b : Nat) (st2 : BIState)
    (hbi : st2.blockIndex = setAssoc st.blockIndex b st.nRelays)
    (hbnone : lookA st b = none)
    (hF1 : ∀ p ∈ unfilteredPreds G b, ∃ j, lookA st p = some j ∧ j < st.nRelays)
    (hMDb : ∀ l2, l2 < G.numLoops → G.loopMem l2 b = true → b ≠ G.loopHeader l2 →
      ∃ p, p < G.numB ∧ G.loopMem l2 p = true ∧ p ∈ unfilteredPreds G b)
    (hMDst : ∀ l2, l2 < G.numLoops → ∀ x, x < G.numB → G.loopMem l2 x = true →
      x ≠ G.loopHeader l2 → ∀ j, lookA st x = some j →
      ∃ p, p < G.numB ∧ G.loopMem l2 p = true ∧ ∃ j2, lookA st p = some j2 ∧ j2 < j) :
    ∀ l2, l2 < G.numLoops → ∀ x, x < G.numB → G.loopMem l2 x = true →
      x ≠ G.loopHeader l2 → ∀ j, lookA st2 x = some j →
      ∃ p, p < G.numB ∧ G.loopMem l2 p = true ∧ ∃ j2, lookA st2 p = some j2 ∧ j2 < j := by
  intro l2 hl2 x hx hmem hneq j hj
  rw [ext_char st b st2 hbi x] at hj
  by_cases hxb : x = b
  · rw [if_pos hxb] at hj
    cases Option.some.inj hj
    obtain ⟨p, hpB, hpm, hpu⟩ := hMDb l2 hl2 (hxb ▸ hmem) (hxb ▸ hneq)
    obtain ⟨j2, hj2, hlt⟩ := hF1 p hpu
    exact ⟨p, hpB, hpm, j2, ext_hold st b st2 hbi hbnone p j2 hj2, hlt⟩
  · rw [if_neg hxb] at hj
    obtain ⟨p, hpB, hpm, j2, hj2, hlt⟩ := hMDst l2 hl2 x hx hmem hneq j hj
    exact ⟨p, hpB, hpm, j2, ext_hold st b st2 hbi hbnone p j2 hj2, hlt⟩

/-- the indexing step for a block that is not the header of its innermost
loop: the invariant transfers, deactivating the innermost active loop when
the block is its latch. -/
theorem Inv_depIdx_none (G : BIGraph) (hwf : WFG G) (st : BIState) (b : Nat)
    (rest : List Nat) (hstk : st.stack = b :: rest) (hidx : indexedB st b = false)
    (hw : wantOf G st b = []) (hf : filterLoopOf G b = none) (hInv : Inv G st) :
    Inv G (depStep G st b rest) := by
  rw [depStep_idx_none G st b rest hw hf]
  have hbB : b < G.numB := hInv.stackB b (hstk ▸ List.mem_cons_self _ _)
  have hbnone : lookA st b = none := by
    cases hc : lookA st b with
    | none => rfl
    | some i =>
        rw [indexedB, hc] at hidx
        exact absurd hidx (by simp)
  have hF1 : ∀ p ∈ unfilteredPreds G b, ∃ j, lookA st p = some j ∧ j < st.nRelays := by
    intro p hp
    have hidxp := wantOf_nil_indexed G st b hw p hp
    obtain ⟨j, hj⟩ := Option.isSome_iff_exists.mp hidxp
    exact ⟨j, hj, hInv.idB p j hj⟩
  have hbi : (addToBlockIndex { st with stack := rest } b).blockIndex
      = setAssoc st.blockIndex b st.nRelays := rfl
  have hself := ext_self st b _ hbi
  have hPD2 := ext_PD G st b _ hbi hbnone hF1 hInv.predsDone
  have hnoheader : ∀ l2, l2 < G.numLoops → G.loopHeader l2 ≠ b := by
    intro l2 hl2 he
    have h1 := hwf.headerInner l2 hl2
    rw [he] at h1
    exact filterLoopOf_none G b l2 hf h1 he
  have hMDb : ∀ l2, l2 < G.numLoops → G.loopMem l2 b = true → b ≠ G.loopHeader l2 →
      ∃ p, p < G.numB ∧ G.loopMem l2 p = true ∧ p ∈ unfilteredPreds G b := by
    intro l2 hl2 hmem hneq
    have hany := hwf.inLoopPred l2 hl2 b hbB hmem (fun he => hneq he)
    obtain ⟨p, hpin, hpm⟩ := List.any_eq_true.mp hany
    exact ⟨p, hwf.predB b hbB p hpin, hpm,
      by rw [unfilteredPreds_of_none G b hf]; exact hpin⟩
  have hMD2 := ext_MD G st b _ hbi hbnone hF1 hMDb hInv.memberDesc
  have hidxB2 : indexedB (addToBlockIndex { st with stack := rest } b) b = true := by
    rw [indexedB, hself]; rfl
  have hidx_mono : ∀ x, indexedB st x = true →
      indexedB (addToBlockIndex { st with stack := rest } b) x = true := by
    intro x hx
    obtain ⟨i, hi⟩ := Option.isSome_iff_exists.mp hx
    rw [indexedB, ext_hold st b _ hbi hbnone x i hi]; rfl
  have hidx_back : ∀ x, x ≠ b →
      indexedB (addToBlockIndex { st with stack := rest } b) x = indexedB st x := by
    intro x hx
    rw [indexedB, indexedB, ext_old st b _ hbi x hx]
  obtain ⟨ls, hlt, hact, hpair, hdecomp⟩ := hInv.chain
  rw [hstk] at hdecomp
  have hWMb : ∀ l2, l2 < G.numLoops → indexedB st (G.loopHeader l2) = true →
      indexedB st (G.loopLatch l2) = false → G.loopMem l2 b = true := by
    intro l2 hl2 hh hlatchf
    have hactl2 : l2 ∈ ls := (hact l2 hl2).mp ⟨hh, hlatchf⟩
    cases ls with
    | nil => cases hactl2
    | cons Lk ls2 =>
        have hLk : Lk < G.numLoops := hlt Lk (List.mem_cons_self _ _)
        have hmemLk : G.loopMem Lk b = true := by
          rcases ChainDecomp_pop G b rest Lk ls2 hdecomp with ⟨hbl, _⟩ | ⟨hm, _⟩
          · rw [hbl]; exact latch_mem hwf hLk
          · exact hm
        rcases List.mem_cons.mp hactl2 with rfl | hmem2
        · exact hmemLk
        · have hss : ssubL G Lk l2 := (List.pairwise_cons.mp hpair).1 l2 hmem2
          exact hss.1 b hbB hmemLk
  have hLCb : ∀ l2, l2 < G.numLoops → G.loopLatch l2 = b →
      ∀ z, z < G.numB → G.loopMem l2 z = true →
      indexedB (addToBlockIndex { st with stack := rest } b) z = true := by
    intro l2 hl2 hlb
    have hmemb : G.loopMem l2 b = true := by rw [← hlb]; exact latch_mem hwf hl2
    obtain ⟨i, hile, hih⟩ := header_min G _ hMD2 st.nRelays l2 hl2 b hbB hmemb hself
    have hhne : G.loopHeader l2 ≠ b := hnoheader l2 hl2
    have hhidxst : indexedB st (G.loopHeader l2) = true := by
      rw [ext_old st b _ hbi _ hhne] at hih
      rw [indexedB, hih]; rfl
    have hlatchfst : indexedB st (G.loopLatch l2) = false := by
      rw [hlb]; exact hidx
    have hactl2 : l2 ∈ ls := (hact l2 hl2).mp ⟨hhidxst, hlatchfst⟩
    cases ls with
    | nil => cases hactl2
    | cons Lk ls2 =>
        have hLk : Lk < G.numLoops := hlt Lk (List.mem_cons_self _ _)
        have hl2Lk : l2 = Lk := by
          rcases List.mem_cons.mp hactl2 with he | hmem2
          · exact he
          · exfalso
            have hss : ssubL G Lk l2 := (List.pairwise_cons.mp hpair).1 l2 hmem2
            rcases ChainDecomp_pop G b rest Lk ls2 hdecomp with ⟨hbl, _⟩ | ⟨hm, _⟩
            · have h1 := hwf.latchInner Lk hLk
              have h2 := hwf.latchInner l2 hl2
              rw [← hbl] at h1
              rw [hlb] at h2
              rw [h1] at h2
              exact hss.2 (Option.some.inj h2)
            · have h2 := hwf.latchInner l2 hl2
              rw [hlb] at h2
              have hsubl2 : subLoop G l2 Lk := wf_innerMin hwf hbB hLk hm h2
              exact hss.2 (loop_antisym hwf hLk hl2 hss.1 hsubl2)
        cases hl2Lk
        have hlidx2 : indexedB (addToBlockIndex { st with stack := rest } b)
            (G.loopLatch l2) = true := by
          rw [hlb]; exact hidxB2
        refine all_members_indexed G hwf _ l2 hl2 hPD2 ?_ hlidx2
        intro l3 hl3 hsub3 hh3
        by_cases he3 : l3 = l2
        · rw [he3]; exact hlidx2
        · have hh3ne : G.loopHeader l3 ≠ b := hnoheader l3 hl3
          have hh3st : indexedB st (G.loopHeader l3) = true := by
            rw [hidx_back _ hh3ne] at hh3; exact hh3
          cases hc3 : indexedB st (G.loopLatch l3) with
          | true => exact hidx_mono _ hc3
          | false =>
              exfalso
              have hact3 : l3 ∈ l2 :: ls2 := (hact l3 hl3).mp ⟨hh3st, hc3⟩
              rcases List.mem_cons.mp hact3 with he | hmem3
              · exact he3 he
              · have hss : ssubL G l2 l3 := (List.pairwise_cons.mp hpair).1 l3 hmem3
                exact hss.2 (loop_antisym hwf hl2 hl3 hss.1 hsub3)
  have hRAb : ∀ l2, l2 < G.numLoops → G.loopHeader l2 = b → l2 ∈ st.pushedLoops :=
    fun l2 hl2 he => absurd he (hnoheader l2 hl2)
  have hchain : ∃ ls2, (∀ l ∈ ls2, l < G.numLoops)
      ∧ (∀ l, l < G.numLoops →
          (ActiveL G (addToBlockIndex { st with stack := rest } b) l ↔ l ∈ ls2))
      ∧ List.Pairwise (fun a b2 => ssubL G a b2) ls2
      ∧ ChainDecomp G (addToBlockIndex { st with stack := rest } b).stack ls2 := by
    cases ls with
    | nil =>
        refine ⟨[], by simp, ?_, List.Pairwise.nil, trivial⟩
        intro l2 hl2
        constructor
        · intro hact2
          exfalso
          have hh : indexedB (addToBlockIndex { st with stack := rest } b)
              (G.loopHeader l2) = true := hact2.1
          have hlf : indexedB (addToBlockIndex { st with stack := rest } b)
              (G.loopLatch l2) = false := hact2.2
          have hhne : G.loopHeader l2 ≠ b := hnoheader l2 hl2
          rw [hidx_back _ hhne] at hh
          have hlnb : G.loopLatch l2 ≠ b := by
            intro he
            rw [he, hidxB2] at hlf
            cases hlf
          rw [hidx_back _ hlnb] at hlf
          exact absurd ((hact l2 hl2).mp ⟨hh, hlf⟩) (List.not_mem_nil l2)
        · intro h; cases h
    | cons Lk ls2 =>
        have hLk : Lk < G.numLoops := hlt Lk (List.mem_cons_self _ _)
        by_cases hbl : b = G.loopLatch Lk
        · refine ⟨ls2, fun l hl => hlt l (List.mem_cons_of_mem _ hl), ?_,
            (List.pairwise_cons.mp hpair).2, ?_⟩
          · intro l2 hl2
            constructor
            · intro hact2
              have hh : indexedB (addToBlockIndex { st with stack := rest } b)
                  (G.loopHeader l2) = true := hact2.1
              have hlf : indexedB (addToBlockIndex { st with stack := rest } b)
                  (G.loopLatch l2) = false := hact2.2
              have hhne : G.loopHeader l2 ≠ b := hnoheader l2 hl2
              rw [hidx_back _ hhne] at hh
              have hlnb : G.loopLatch l2 ≠ b := by
                intro he
                rw [he, hidxB2] at hlf
                cases hlf
              rw [hidx_back _ hlnb] at hlf
              have hl2mem : l2 ∈ Lk :: ls2 := (hact l2 hl2).mp ⟨hh, hlf⟩
              rcases List.mem_cons.mp hl2mem with rfl | h2
              · exact absurd hbl.symm hlnb
              · exact h2
            · intro h2
              have hl2ne : l2 ≠ Lk := by
                intro he
                exact ((List.pairwise_cons.mp hpair).1 l2 h2).2 (he ▸ rfl)
              have hactst : ActiveL G st l2 :=
                (hact l2 hl2).mpr (List.mem_cons_of_mem _ h2)
              refine ⟨hidx_mono _ hactst.1, ?_⟩
              have hlnb : G.loopLatch l2 ≠ b := by
                intro he
                have h1 := hwf.latchInner l2 hl2
                have h2b := hwf.latchInner Lk hLk
                rw [he] at h1
                rw [← hbl] at h2b
                rw [h1] at h2b
                exact hl2ne (Option.some.inj h2b)
              rw [hidx_back _ hlnb]
              exact hactst.2
          · rcases ChainDecomp_pop G b rest Lk ls2 hdecomp with ⟨_, hdec⟩ | ⟨_, hdec2⟩
            · exact hdec
            · refine ChainDecomp_absorb G rest Lk ls2 hdec2 ?_ ?_ (latch_mem hwf hLk)
              · intro x hx
                exact hInv.stackB x (hstk ▸ List.mem_cons_of_mem _ hx)
              · intro l2 he x hxB hxm
                have hss : ssubL G Lk l2 := by
                  refine (List.pairwise_cons.mp hpair).1 l2 ?_
                  rw [he]
                  exact List.mem_cons_self _ _
                exact hss.1 x hxB hxm
        · refine ⟨Lk :: ls2, hlt, ?_, hpair, ?_⟩
          · have hmemLkb : G.loopMem Lk b = true := by
              rcases ChainDecomp_pop G b rest Lk ls2 hdecomp with ⟨hbl2, _⟩ | ⟨hm, _⟩
              · exact absurd hbl2 hbl
              · exact hm
            intro l2 hl2
            constructor
            · intro hact2
              have hh : indexedB (addToBlockIndex { st with stack := rest } b)
                  (G.loopHeader l2) = true := hact2.1
              have hlf : indexedB (addToBlockIndex { st with stack := rest } b)
                  (G.loopLatch l2) = false := hact2.2
              have hhne : G.loopHeader l2 ≠ b := hnoheader l2 hl2
              rw [hidx_back _ hhne] at hh
              have hlnb : G.loopLatch l2 ≠ b := by
                intro he
                rw [he, hidxB2] at hlf
                cases hlf
              rw [hidx_back _ hlnb] at hlf
              exact (hact l2 hl2).mp ⟨hh, hlf⟩
            · intro h2
              have hactst : ActiveL G st l2 := (hact l2 hl2).mpr h2
              refine ⟨hidx_mono _ hactst.1, ?_⟩
              have hlnb : G.loopLatch l2 ≠ b := by
                intro he
                have h1 := hwf.latchInner l2 hl2
                rw [he] at h1
                have hsubl2 : subLoop G l2 Lk := wf_innerMin hwf hbB hLk hmemLkb h1
                rcases List.mem_cons.mp h2 with rfl | h3
                · exact hbl he.symm
                · have hss : ssubL G Lk l2 := (List.pairwise_cons.mp hpair).1 l2 h3
                  exact hss.2 (loop_antisym hwf hLk hl2 hss.1 hsubl2)
              rw [hidx_back _ hlnb]
              exact hactst.2
          · rcases ChainDecomp_pop G b rest Lk ls2 hdecomp with ⟨hbl2, _⟩ | ⟨_, hdec2⟩
            · exact absurd hbl2 hbl
            · exact hdec2
  exact Inv_extend G hwf st b hbB hbnone hF1 hInv _ hbi rfl rfl
    (fun x hx => hInv.stackB x (hstk ▸ List.mem_cons_of_mem _ hx))
    hMDb hWMb hLCb hRAb hchain

/-- the indexing step for a loop header: the loop activates (its latch is
pushed), or is closed at once when the loop is the single block. -/
theorem Inv_depIdx_some (G : BIGraph) (hwf : WFG G) (st : BIState) (b : Nat)
    (rest : List Nat) (l : Nat) (hstk : st.stack = b :: rest)
    (hidx : indexedB st b = false) (hw : wantOf G st b = [])
    (hf : filterLoopOf G b = some l) (hregl : l ∈ st.pushedLoops) (hInv : Inv G st) :
    Inv G (depStep G st b rest) := by
  obtain ⟨hlb, hhb⟩ := filterLoopOf_some G b l hf
  have hbB : b < G.numB := hInv.stackB b (hstk ▸ List.mem_cons_self _ _)
  have hlN : l < G.numLoops := wf_loopOf_lt hwf hbB hlb
  have hmembl : G.loopMem l b = true := wf_innerMem hwf hbB hlb
  have hbnone : lookA st b = none := by
    cases hc : lookA st b with
    | none => rfl
    | some i =>
        rw [indexedB, hc] at hidx
        exact absurd hidx (by simp)
  have hF1 : ∀ p ∈ unfilteredPreds G b, ∃ j, lookA st p = some j ∧ j < st.nRelays := by
    intro p hp
    have hidxp := wantOf_nil_indexed G st b hw p hp
    obtain ⟨j, hj⟩ := Option.isSome_iff_exists.mp hidxp
    exact ⟨j, hj, hInv.idB p j hj⟩
  have hbi : (addToBlockIndex { st with stack := rest } b).blockIndex
      = setAssoc st.blockIndex b st.nRelays := rfl
  have hself := ext_self st b _ hbi
  have hPD2 := ext_PD G st b _ hbi hbnone hF1 hInv.predsDone
  have hidxB2 : indexedB (addToBlockIndex { st with stack := rest } b) b = true := by
    rw [indexedB, hself]; rfl
  have hidx_mono : ∀ x, indexedB st x = true →
      indexedB (addToBlockIndex { st with stack := rest } b) x = true := by
    intro x hx
    obtain ⟨i, hi⟩ := Option.isSome_iff_exists.mp hx
    rw [indexedB, ext_hold st b _ hbi hbnone x i hi]; rfl
  have hidx_back : ∀ x, x ≠ b →
      indexedB (addToBlockIndex { st with stack := rest } b) x = indexedB st x := by
    intro x hx
    rw [indexedB, indexedB, ext_old st b _ hbi x hx]
  have hheader_only : ∀ l2, l2 < G.numLoops → G.loopHeader l2 = b → l2 = l :=
    fun l2 hl2 he => header_inj hwf hl2 hlN (he.trans hhb.symm)
  have hlatch_only : ∀ l2, l2 < G.numLoops → G.loopLatch l2 = b → l2 = l := by
    intro l2 hl2 he
    have h1 := hwf.latchInner l2 hl2
    rw [he, hlb] at h1
    exact (Option.some.inj h1).symm
  obtain ⟨ls, hlt, hact, hpair, hdecomp⟩ := hInv.chain
  rw [hstk] at hdecomp
  have hlinact : ¬ ActiveL G st l := by
    intro ha
    have h1 : indexedB st (G.loopHeader l) = true := ha.1
    rw [hhb, hidx] at h1
    cases h1
  have hmemLkb : ∀ Lk ls2, ls = Lk :: ls2 → G.loopMem Lk b = true := by
    intro Lk ls2 he
    have hLk : Lk < G.numLoops := hlt Lk (he ▸ List.mem_cons_self _ _)
    rw [he] at hdecomp
    rcases ChainDecomp_pop G b rest Lk ls2 hdecomp with ⟨hbl, _⟩ | ⟨hm, _⟩
    · exfalso
      have hLkl : Lk = l := hlatch_only Lk hLk hbl.symm
      refine hlinact ?_
      rw [← hLkl]
      exact (hact Lk hLk).mpr (he ▸ List.mem_cons_self _ _)
    · exact hm
  have hWMb : ∀ l2, l2 < G.numLoops → indexedB st (G.loopHeader l2) = true →
      indexedB st (G.loopLatch l2) = false → G.loopMem l2 b = true := by
    intro l2 hl2 hh hlatchf
    have hactl2 : l2 ∈ ls := (hact l2 hl2).mp ⟨hh, hlatchf⟩
    cases ls with
    | nil => cases hactl2
    | cons Lk ls2 =>
        have hmLk := hmemLkb Lk ls2 rfl
        rcases List.mem_cons.mp hactl2 with rfl | hmem2
        · exact hmLk
        · have hss : ssubL G Lk l2 := (List.pairwise_cons.mp hpair).1 l2 hmem2
          exact hss.1 b hbB hmLk
  have hMDb : ∀ l2, l2 < G.numLoops → G.loopMem l2 b = true → b ≠ G.loopHeader l2 →
      ∃ p, p < G.numB ∧ G.loopMem l2 p = true ∧ p ∈ unfilteredPreds G b := by
    intro l2 hl2 hmem hneq
    have hsub : subLoop G l l2 := wf_innerMin hwf hbB hl2 hmem hlb
    have hhl2B : G.loopHeader l2 < G.numB := (hwf.hlLt l2 hl2).1
    have hhl2nl : G.loopMem l (G.loopHeader l2) = false := by
      cases hc : G.loopMem l (G.loopHeader l2) with
      | false => rfl
      | true =>
          exfalso
          have hsub2 : subLoop G l2 l :=
            wf_innerMin hwf hhl2B hlN hc (hwf.headerInner l2 hl2)
          have he : l2 = l := loop_antisym hwf hl2 hlN hsub2 hsub
          rw [he, ← hhb] at hneq
          exact hneq rfl
    have hguard : ((List.range G.numB).any (fun x => !G.loopMem l x)) = true := by
      refine List.any_eq_true.mpr ⟨G.loopHeader l2, List.mem_range.mpr hhl2B, ?_⟩
      rw [hhl2nl]
      rfl
    have hpre := hwf.preEntry l hlN hguard
    obtain ⟨p, hpin, hpnm⟩ := List.any_eq_true.mp hpre
    rw [hhb] at hpin
    have hpnm2 : G.loopMem l p = false := by
      cases hc : G.loopMem l p with
      | false => rfl
      | true => rw [hc] at hpnm; cases hpnm
    refine ⟨p, hwf.predB b hbB p hpin, ?_, ?_⟩
    · exact hwf.entry l2 hl2 b hbB hmem (fun he => hneq he) p hpin
    · rw [unfilteredPreds_of_some G b l hf]
      refine List.mem_filter.mpr ⟨hpin, ?_⟩
      rw [hpnm2]
      rfl
  have hMD2 := ext_MD G st b _ hbi hbnone hF1 hMDb hInv.memberDesc
  have hRAb : ∀ l2, l2 < G.numLoops → G.loopHeader l2 = b → l2 ∈ st.pushedLoops :=
    fun l2 hl2 he => (hheader_only l2 hl2 he) ▸ hregl
  have hLCb : ∀ l2, l2 < G.numLoops → G.loopLatch l2 = b →
      ∀ z, z < G.numB → G.loopMem l2 z = true →
      indexedB (addToBlockIndex { st with stack := rest } b) z = true := by
    intro l2 hl2 hlb2
    have hl2l : l2 = l := hlatch_only l2 hl2 hlb2
    rw [hl2l] at hlb2 ⊢
    have hlidx2 : indexedB (addToBlockIndex { st with stack := rest } b)
        (G.loopLatch l) = true := by
      rw [hlb2]; exact hidxB2
    refine all_members_indexed G hwf _ l hlN hPD2 ?_ hlidx2
    intro l3 hl3 hsub3 hh3
    by_cases he3 : l3 = l
    · rw [he3]; exact hlidx2
    · have hh3ne : G.loopHeader l3 ≠ b :=
        fun he => he3 (hheader_only l3 hl3 he)
      have hh3st : indexedB st (G.loopHeader l3) = true := by
        rw [hidx_back _ hh3ne] at hh3; exact hh3
      cases hc3 : indexedB st (G.loopLatch l3) with
      | true => exact hidx_mono _ hc3
      | false =>
          exfalso
          have hact3 : l3 ∈ ls := (hact l3 hl3).mp ⟨hh3st, hc3⟩
          cases ls with
          | nil => cases hact3
          | cons Lk ls2 =>
              have hLk : Lk < G.numLoops := hlt Lk (List.mem_cons_self _ _)
              have hmLk := hmemLkb Lk ls2 rfl
              have hsublLk : subLoop G l Lk := wf_innerMin hwf hbB hLk hmLk hlb
              rcases List.mem_cons.mp hact3 with rfl | hmem3
              · exact he3 (loop_antisym hwf hl3 hlN hsub3 hsublLk)
              · have hss : ssubL G Lk l3 := (List.pairwise_cons.mp hpair).1 l3 hmem3
                exact he3 (loop_antisym hwf hl3 hlN hsub3
                  (subLoop_trans hsublLk hss.1))
  by_cases hBsingle : G.loopLatch l = b
  · have hlatchT : indexedB (addToBlockIndex { st with stack := rest } b)
        (G.loopLatch l) = true := by
      rw [hBsingle]; exact hidxB2
    rw [depStep_idx_skip G st b rest l hw hf hlatchT]
    have hchain : ∃ ls2, (∀ l2 ∈ ls2, l2 < G.numLoops)
        ∧ (∀ l2, l2 < G.numLoops →
            (ActiveL G (addToBlockIndex { st with stack := rest } b) l2 ↔ l2 ∈ ls2))
        ∧ List.Pairwise (fun a b2 => ssubL G a b2) ls2
        ∧ ChainDecomp G (addToBlockIndex { st with stack := rest } b).stack ls2 := by
      refine ⟨ls, hlt, ?_, hpair, ?_⟩
      · intro l2 hl2
        constructor
        · intro hact2
          have hh : indexedB (addToBlockIndex { st with stack := rest } b)
              (G.loopHeader l2) = true := hact2.1
          have hlf : indexedB (addToBlockIndex { st with stack := rest } b)
              (G.loopLatch l2) = false := hact2.2
          have hl2ne : l2 ≠ l := by
            intro he
            rw [he] at hlf
            rw [hlatchT] at hlf
            cases hlf
          have hhne : G.loopHeader l2 ≠ b :=
            fun he => hl2ne (hheader_only l2 hl2 he)
          have hlnb : G.loopLatch l2 ≠ b :=
            fun he => hl2ne (hlatch_only l2 hl2 he)
          rw [hidx_back _ hhne] at hh
          rw [hidx_back _ hlnb] at hlf
          exact (hact l2 hl2).mp ⟨hh, hlf⟩
        · intro h2
          have hactst : ActiveL G st l2 := (hact l2 hl2).mpr h2
          have hl2ne : l2 ≠ l := fun he => hlinact (he ▸ hactst)
          have hlnb : G.loopLatch l2 ≠ b :=
            fun he => hl2ne (hlatch_only l2 hl2 he)
          refine ⟨hidx_mono _ hactst.1, ?_⟩
          rw [hidx_back _ hlnb]
          exact hactst.2
      · cases ls with
        | nil => trivial
        | cons Lk ls2 =>
            have hLk : Lk < G.numLoops := hlt Lk (List.mem_cons_self _ _)
            rcases ChainDecomp_pop G b rest Lk ls2 hdecomp with ⟨hbl, _⟩ | ⟨_, hdec2⟩
            · exfalso
              have hLkl : Lk = l := hlatch_only Lk hLk hbl.symm
              refine hlinact ?_
              rw [← hLkl]
              exact (hact Lk hLk).mpr (List.mem_cons_self _ _)
            · exact hdec2
    exact Inv_extend G hwf st b hbB hbnone hF1 hInv _ hbi rfl rfl
      (fun x hx => hInv.stackB x (hstk ▸ List.mem_cons_of_mem _ hx))
      hMDb hWMb hLCb hRAb hchain
  · have hlatchstf : indexedB st (G.loopLatch l) = false := by
      cases hc : indexedB st (G.loopLatch l) with
      | false => rfl
      | true =>
          exfalso
          obtain ⟨j, hj⟩ := Option.isSome_iff_exists.mp hc
          obtain ⟨i, _, hih⟩ := header_min G st hInv.memberDesc j l hlN
            (G.loopLatch l) (hwf.hlLt l hlN).2 (latch_mem hwf hlN) hj
          rw [hhb, hbnone] at hih
          cases hih
    have hlatchF : indexedB (addToBlockIndex { st with stack := rest } b)
        (G.loopLatch l) = false := by
      rw [hidx_back _ hBsingle]
      exact hlatchstf
    rw [depStep_idx_pushlatch G st b rest l hw hf hlatchF]
    have hchain : ∃ ls2, (∀ l2 ∈ ls2, l2 < G.numLoops)
        ∧ (∀ l2, l2 < G.numLoops →
            (ActiveL G (addToBlockIndex { st with stack := rest } b) l2 ↔ l2 ∈ ls2))
        ∧ List.Pairwise (fun a b2 => ssubL G a b2) ls2
        ∧ ChainDecomp G (G.loopLatch l :: rest) ls2 := by
      refine ⟨l :: ls, ?_, ?_, ?_, ?_⟩
      · intro l2 hl2
        rcases List.mem_cons.mp hl2 with rfl | h2
        · exact hlN
        · exact hlt l2 h2
      · intro l2 hl2
        constructor
        · intro hact2
          have hh : indexedB (addToBlockIndex { st with stack := rest } b)
              (G.loopHeader l2) = true := hact2.1
          have hlf : indexedB (addToBlockIndex { st with stack := rest } b)
              (G.loopLatch l2) = false := hact2.2
          by_cases hhe : G.loopHeader l2 = b
          · rw [hheader_only l2 hl2 hhe]
            exact List.mem_cons_self _ _
          · rw [hidx_back _ hhe] at hh
            have hlnb : G.loopLatch l2 ≠ b := by
              intro he
              have he2 := hlatch_only l2 hl2 he
              rw [he2] at he
              exact hBsingle he
            rw [hidx_back _ hlnb] at hlf
            exact List.mem_cons_of_mem _ ((hact l2 hl2).mp ⟨hh, hlf⟩)
        · intro h2
          rcases List.mem_cons.mp h2 with rfl | h3
          · refine ⟨by rw [hhb]; exact hidxB2, hlatchF⟩
          · have hactst : ActiveL G st l2 := (hact l2 hl2).mpr h3
            have hl2ne : l2 ≠ l := fun he => hlinact (he ▸ hactst)
            have hlnb : G.loopLatch l2 ≠ b :=
              fun he => hl2ne (hlatch_only l2 hl2 he)
            refine ⟨hidx_mono _ hactst.1, ?_⟩
            rw [hidx_back _ hlnb]
            exact hactst.2
      · cases ls with
        | nil =>
            exact List.pairwise_cons.mpr ⟨fun x hx => absurd hx (List.not_mem_nil x),
              List.Pairwise.nil⟩
        | cons Lk ls2 =>
            have hLk : Lk < G.numLoops := hlt Lk (List.mem_cons_self _ _)
            have hmLk := hmemLkb Lk ls2 rfl
            have hsubLk : subLoop G l Lk := wf_innerMin hwf hbB hLk hmLk hlb
            refine List.pairwise_cons.mpr ⟨?_, hpair⟩
            intro l2 hl2mem
            have hl2N : l2 < G.numLoops := hlt l2 hl2mem
            have hactst : ActiveL G st l2 := (hact l2 hl2N).mpr hl2mem
            have hlne : l ≠ l2 := fun he => hlinact (he ▸ hactst)
            rcases List.mem_cons.mp hl2mem with rfl | h3
            · exact ⟨hsubLk, hlne⟩
            · have hss : ssubL G Lk l2 := (List.pairwise_cons.mp hpair).1 l2 h3
              exact ⟨subLoop_trans hsubLk hss.1, hlne⟩
      · refine ChainDecomp_cons_top G rest l ls ?_
        cases ls with
        | nil => trivial
        | cons Lk ls2 =>
            have hLk : Lk < G.numLoops := hlt Lk (List.mem_cons_self _ _)
            rcases ChainDecomp_pop G b rest Lk ls2 hdecomp with ⟨hbl, _⟩ | ⟨_, hdec2⟩
            · exfalso
              have hLkl : Lk = l := hlatch_only Lk hLk hbl.symm
              refine hlinact ?_
              rw [← hLkl]
              exact (hact Lk hLk).mpr (List.mem_cons_self _ _)
            · exact hdec2
    exact Inv_extend G hwf st b hbB hbnone hF1 hInv _ hbi rfl rfl
      (fun x hx => by
        rcases List.mem_cons.mp hx with rfl | hx2
        · exact (hwf.hlLt l hlN).2
        · exact hInv.stackB x (hstk ▸ List.mem_cons_of_mem _ hx2))
      hMDb hWMb hLCb hRAb hchain

theorem Inv_whileStep (G : BIGraph) (hwf : WFG G) (st : BIState) (b : Nat)
    (rest : List Nat) (hstk : st.stack = b :: rest) (hInv : Inv G st) :
    Inv G (whileStep G st b rest) := by
  cases hidx : indexedB st b with
  | true =>
      rw [whileStep_pop G st b rest hidx]
      exact Inv_pop G st b rest hstk hidx hInv
  | false =>
      cases hl : G.loopOfB b with
      | none =>
          rw [whileStep_dep_none G st b rest hidx hl]
          by_cases hw : wantOf G st b = []
          · cases hf : filterLoopOf G b with
            | none => exact Inv_depIdx_none G hwf st b rest hstk hidx hw hf hInv
            | some l2 =>
                exfalso
                have he := (filterLoopOf_some G b l2 hf).1
                rw [hl] at he
                cases he
          · exact Inv_depPush G hwf st b rest hstk hidx hw hInv
      | some l =>
          by_cases hp : l ∈ st.pushedLoops
          · rw [whileStep_dep_pushed G st b rest l hidx hl hp]
            by_cases hw : wantOf G st b = []
            · cases hf : filterLoopOf G b with
              | none => exact Inv_depIdx_none G hwf st b rest hstk hidx hw hf hInv
              | some l2 =>
                  have he := (filterLoopOf_some G b l2 hf).1
                  rw [hl] at he
                  exact Inv_depIdx_some G hwf st b rest l2 hstk hidx hw hf
                    ((Option.some.inj he) ▸ hp) hInv
            · exact Inv_depPush G hwf st b rest hstk hidx hw hInv
          · rw [whileStep_reg G st b rest l hidx hl hp]
            exact Inv_reg G hwf st b rest l hstk hidx hl hp hInv

theorem Inv_runWhile (G : BIGraph) (hwf : WFG G) (fuel : Nat) (st st2 : BIState)
    (h : runWhile G fuel st = some st2) (hInv : Inv G st) : Inv G st2 :=
  runWhile_ind G (Inv G)
    (fun s b rest hs hP => Inv_whileStep G hwf s b rest hs hP) fuel st st2 h hInv

theorem Inv_seed (G : BIGraph) (st : BIState) (b : Nat) (hb : b < G.numB)
    (hstk : st.stack = []) (hInv : Inv G st) : Inv G { st with stack := [b] } := by
  obtain ⟨ls, _, hact, _, hdecomp⟩ := hInv.chain
  have hlsnil : ls = [] := ChainDecomp_nil_inv G ls (by rw [← hstk]; exact hdecomp)
  refine ⟨?_, hInv.keyB, hInv.idB, hInv.idSurj, hInv.inj, hInv.predsDone,
    hInv.memberDesc, hInv.latchClosed, hInv.windowMem, hInv.regActive,
    ⟨[], by simp, ?_, List.Pairwise.nil, trivial⟩⟩
  · intro x hx
    rcases List.mem_singleton.mp hx with rfl
    exact hb
  · intro l2 hl2
    rw [← hlsnil]
    exact hact l2 hl2

theorem Inv_buildGo (G : BIGraph) (hwf : WFG G) (fuel : Nat) :
    ∀ bs st st2, (∀ x ∈ bs, x < G.numB) → buildGo G fuel bs st = some st2 →
      st.stack = [] → Inv G st → Inv G st2 := by
  intro bs
  induction bs with
  | nil =>
      intro st st2 _ h _ hInv
      cases h
      exact hInv
  | cons b bs ih =>
      intro st st2 hbs h hstk hInv
      unfold buildGo at h
      cases hseed : seedStep G fuel st b with
      | none => rw [hseed] at h; cases h
      | some st1 =>
          rw [hseed] at h
          have hb : b < G.numB := hbs b (List.mem_cons_self _ _)
          unfold seedStep at hseed
          by_cases hidx : indexedB st b = true
          · rw [if_pos hidx] at hseed
            cases hseed
            exact ih st st2 (fun x hx => hbs x (List.mem_cons_of_mem _ hx)) h hstk hInv
          · rw [if_neg hidx] at hseed
            have hInv1 : Inv G st1 :=
              Inv_runWhile G hwf fuel _ st1 hseed (Inv_seed G st b hb hstk hInv)
            exact ih st1 st2 (fun x hx => hbs x (List.mem_cons_of_mem _ hx)) h
              (runWhile_stack_nil G fuel _ st1 hseed) hInv1

theorem lookA_init (x : Nat) : lookA initSt x = none := rfl

theorem Inv_init (G : BIGraph) : Inv G initSt := by
  refine ⟨?_, ?_, ?_, ?_, ?_, ?_, ?_, ?_, ?_, ?_,
    ⟨[], by simp, ?_, List.Pairwise.nil, trivial⟩⟩
  · intro x hx; cases hx
  · intro x i h; rw [lookA_init] at h; cases h
  · intro x i h; rw [lookA_init] at h; cases h
  · intro i hi; cases hi
  · intro x x2 i h; rw [lookA_init] at h; cases h
  · intro x i h; rw [lookA_init] at h; cases h
  · intro l hl x hx hm hne j h; rw [lookA_init] at h; cases h
  · intro l hl j h; rw [lookA_init] at h; cases h
  · intro l hl i h; rw [lookA_init] at h; cases h
  · intro l hl hact2
    have h1 : indexedB initSt (G.loopHeader l) = true := hact2.1
    rw [indexedB, lookA_init] at h1
    simp at h1
  · intro l hl
    constructor
    · intro hact2
      have h1 : indexedB initSt (G.loopHeader l) = true := hact2.1
      rw [indexedB, lookA_init] at h1
      simp at h1
    · intro h; cases h

theorem Inv_buildBlockIndex (G : BIGraph) (hwf : WFG G) (fuel : Nat) (st2 : BIState)
    (h : buildBlockIndex G fuel = some st2) : Inv G st2 := by
  unfold buildBlockIndex at h
  exact Inv_buildGo G hwf fuel (List.range G.numB) initSt st2
    (fun x hx => List.mem_range.mp hx) h rfl (Inv_init G)

theorem buildBlockIndex_surj (G : BIGraph) (hwf : WFG G) (fuel : Nat) (st2 : BIState)
    (h : buildBlockIndex G fuel = some st2) :
    ∀ b, b < G.numB → indexedB st2 b = true := by
  intro b hb
  have hInv := Inv_buildBlockIndex G hwf fuel st2 h
  have hcov := buildGo_covers G hwf fuel (List.range G.numB) _ st2 h b
    (List.mem_range.mpr hb) hb
  rcases hcov with hidx | ⟨l, hl, hlidx⟩
  · exact hidx
  · have hlN : l < G.numLoops := wf_loopOf_lt hwf hb hl
    obtain ⟨j, hj⟩ := Option.isSome_iff_exists.mp hlidx
    obtain ⟨m, hm, _⟩ := hInv.latchClosed l hlN j hj b hb (wf_innerMem hwf hb hl)
    rw [indexedB, hm]
    rfl

theorem buildBlockIndex_count (G : BIGraph) (hwf : WFG G) (fuel : Nat) (st2 : BIState)
    (h : buildBlockIndex G fuel = some st2) : st2.nRelays = G.numB := by
  have hInv := Inv_buildBlockIndex G hwf fuel st2 h
  have hsurj := buildBlockIndex_surj G hwf fuel st2 h
  have hmaps : ∀ b ∈ Finset.range G.numB,
      (fun b => (lookA st2 b).getD 0) b ∈ Finset.range st2.nRelays := by
    intro b hb
    obtain ⟨i, hi⟩ := Option.isSome_iff_exists.mp (hsurj b (Finset.mem_range.mp hb))
    simp only [hi]
    exact Finset.mem_range.mpr (hInv.idB b i hi)
  have hinj : Set.InjOn (fun b => (lookA st2 b).getD 0)
      (Finset.range G.numB : Finset Nat) := by
    intro b hb b2 hb2 he
    obtain ⟨i, hi⟩ := Option.isSome_iff_exists.mp
      (hsurj b (Finset.mem_range.mp (Finset.mem_coe.mp hb)))
    obtain ⟨i2, hi2⟩ := Option.isSome_iff_exists.mp
      (hsurj b2 (Finset.mem_range.mp (Finset.mem_coe.mp hb2)))
    simp only [hi, hi2, Option.getD_some] at he
    rw [he] at hi
    exact hInv.inj b b2 i2 hi hi2
  have h1 : G.numB ≤ st2.nRelays := by
    have hc := Finset.card_le_card_of_injOn (fun b => (lookA st2 b).getD 0) hmaps hinj
    simpa using hc
  have h2 : st2.nRelays ≤ G.numB := by
    have hsub : Finset.range st2.nRelays
        ⊆ Finset.image (fun b => (lookA st2 b).getD 0) (Finset.range G.numB) := by
      intro i hi
      obtain ⟨x, hx⟩ := hInv.idSurj i (Finset.mem_range.mp hi)
      refine Finset.mem_image.mpr ⟨x, Finset.mem_range.mpr (hInv.keyB x i hx), ?_⟩
      simp [hx]
    have hc := Finset.card_le_card hsub
    calc st2.nRelays = (Finset.range st2.nRelays).card := (Finset.card_range _).symm
      _ ≤ _ := hc
      _ ≤ (Finset.range G.numB).card := Finset.card_image_le
      _ = G.numB := Finset.card_range _
  exact Nat.le_antisymm h2 h1

/-- C6: buildBlockIndex, on a canonical (LoopSimplify) region whose run
completes, indexes every in-region block with a unique id, the ids form
exactly [0, numBlocks), and for every loop the ids of the loop blocks are
exactly the contiguous range from the header id (the smallest) to the
latch id (the largest). -/
theorem C6_buildBlockIndex_topological_index (G : BIGraph) (fuel : Nat) (st2 : BIState)
    (hwf : WFG G) (h : buildBlockIndex G fuel = some st2) :
    (st2.nRelays = G.numB
    ∧ (∀ b, b < G.numB → ∃ i, lookA st2 b = some i ∧ i < G.numB)
    ∧ (∀ b b2 i, lookA st2 b = some i → lookA st2 b2 = some i → b = b2)
    ∧ (∀ i, i < G.numB → ∃ b, b < G.numB ∧ lookA st2 b = some i))
    ∧ (∀ l, l < G.numLoops → ∃ hi li2,
        lookA st2 (G.loopHeader l) = some hi
        ∧ lookA st2 (G.loopLatch l) = some li2
        ∧ hi ≤ li2
        ∧ (∀ b, b < G.numB →
            (G.loopMem l b = true ↔ ∃ m, lookA st2 b = some m ∧ hi ≤ m ∧ m ≤ li2))) := by
  have hInv := Inv_buildBlockIndex G hwf fuel st2 h
  have hsurj := buildBlockIndex_surj G hwf fuel st2 h
  have hcount := buildBlockIndex_count G hwf fuel st2 h
  refine ⟨⟨hcount, ?_, hInv.inj, ?_⟩, ?_⟩
  · intro b hb
    obtain ⟨i, hi⟩ := Option.isSome_iff_exists.mp (hsurj b hb)
    refine ⟨i, hi, ?_⟩
    rw [← hcount]
    exact hInv.idB b i hi
  · intro i hi
    rw [← hcount] at hi
    obtain ⟨x, hx⟩ := hInv.idSurj i hi
    exact ⟨x, hInv.keyB x i hx, hx⟩
  · intro l hl
    have hHB : G.loopHeader l < G.numB := (hwf.hlLt l hl).1
    have hLB : G.loopLatch l < G.numB := (hwf.hlLt l hl).2
    obtain ⟨hi, hhi⟩ := Option.isSome_iff_exists.mp (hsurj _ hHB)
    obtain ⟨li2, hli⟩ := Option.isSome_iff_exists.mp (hsurj _ hLB)
    have hile : hi ≤ li2 := by
      obtain ⟨m, hm, hle⟩ := hInv.latchClosed l hl li2 hli (G.loopHeader l) hHB
        (header_mem hwf hl)
      rw [hhi] at hm
      rw [Option.some.inj hm]
      exact hle
    refine ⟨hi, li2, hhi, hli, hile, ?_⟩
    intro b hb
    constructor
    · intro hmem
      obtain ⟨m, hm⟩ := Option.isSome_iff_exists.mp (hsurj b hb)
      refine ⟨m, hm, ?_, ?_⟩
      · obtain ⟨i2, hi2le, hih2⟩ := header_min G st2 hInv.memberDesc m l hl b hb hmem hm
        rw [hhi] at hih2
        rw [Option.some.inj hih2]
        exact hi2le
      · obtain ⟨m2, hm2, hle2⟩ := hInv.latchClosed l hl li2 hli b hb hmem
        rw [hm] at hm2
        rw [Option.some.inj hm2]
        exact hle2
    · rintro ⟨m, hm, h1, h2⟩
      refine hInv.windowMem l hl hi hhi b m hm h1 ?_
      intro j hj
      rw [hli] at hj
      rw [← Option.some.inj hj]
      exact h2

def exG : BIGraph where
  numB := 4
  numLoops := 1
  preds := fun b => match b with
    | 1 => [0, 2]
    | 2 => [1]
    | 3 => [2]
    | _ => []
  loopOfB := fun b => match b with
    | 1 => some 0
    | 2 => some 0
    | _ => none
  loopHeader := fun _ => 1
  loopLatch := fun _ => 2
  loopMem := fun l b => l == 0 && (b == 1 || b == 2)
  latchChain := fun l b =>
    match l, b with
    | 0, 1 => [2, 1]
    | 0, 2 => [2]
    | _, _ => []

theorem exG_wf : WFG exG :=
  ⟨by decide, by decide, by decide, by decide, by decide, by decide, by decide,
   by decide, by decide, by decide, by decide, by decide, by decide⟩

theorem exG_run :
    buildBlockIndex exG 20
      = some { blockIndex := [(3, 3), (2, 2), (1, 1), (0, 0)],
               nRelays := 4, stack := [], pushedLoops := [0] } := by
  decide

/-- the final state of buildBlockIndex on the witness graph: ids follow the
topological order 0, 1, 2, 3 with the loop {1, 2} contiguous. -/
def exSt : BIState :=
  { blockIndex := [(3, 3), (2, 2), (1, 1), (0, 0)],
    nRelays := 4, stack := [], pushedLoops := [0] }

theorem C6_buildBlockIndex_topological_index_witness :
    (exSt.nRelays = exG.numB
    ∧ (∀ b, b < exG.numB → ∃ i, lookA exSt b = some i ∧ i < exG.numB)
    ∧ (∀ b b2 i, lookA exSt b = some i → lookA exSt b2 = some i → b = b2)
    ∧ (∀ i, i < exG.numB → ∃ b, b < exG.numB ∧ lookA exSt b = some i))
    ∧ (∀ l, l < exG.numLoops → ∃ hi li2,
        lookA exSt (exG.loopHeader l) = some hi
        ∧ lookA exSt (exG.loopLatch l) = some li2
        ∧ hi ≤ li2
        ∧ (∀ b, b < exG.numB →
            (exG.loopMem l b = true ↔ ∃ m, lookA exSt b = some m ∧ hi ≤ m ∧ m ≤ li2))) :=
  C6_buildBlockIndex_topological_index exG 20 exSt exG_wf (by decide)

end RV
